import Mathlib

/-!
# jseventhub: a priority-ordered event hub

A shallow embedding of `src/index.js` (`PriorityEvent`, `HubEventEmitter`) together with
the two library objects the hub is built from:

* the binary heap of `js-priority-queue` (its default strategy), which the constructor
  instantiates with the comparator `(a, b) => a.priority - b.priority`;
* the Node.js `events` emitter, of which the hub uses `on`, `emit` and `removeAllListeners`.

Conventions of the embedding.

* Payloads are opaque: every definition is parametric in the payload type `δ`.
* A priority is what the comparator sees after JavaScript's numeric coercion: a finite
  number or `NaN`.  Finite numbers are represented by integers; the comparator only uses
  the sign of the difference, and on finite IEEE numbers that sign agrees with the exact one.
* Objects with identity that the application creates (handler objects) or that the hub
  creates (`new EventEmitter()` channels) are represented by natural numbers.
* What the hub does to the outside world is recorded in a trace of observations `Obs`.
* Application code run by the hub (`handler.handle(data)`) may call back into the hub and
  may throw; its behaviour is a `HandlerBody`.  Filters are pure predicates.  Consumers
  attached to a returned channel are observers of the `data` emission.
* `EventEmitter.on` and `EventEmitter.removeAllListeners` give the effect of the two
  methods on the listener table.  The `newListener` event that Node emits from `on` is
  given by `HubEventEmitter.onNotifying`; the `removeListener` event is not part of the
  embedding.  Statements about the `data` emissions of a channel speak of the payloads
  of dispatched entries.
* `processLoop` is the drain with handlers that call back into the hub without starting
  a drain themselves; `processLoopNested` is the drain with handlers that may also call
  `processEvents`, and agrees with `processLoop` when none does
  (`processLoopNested_of_noReentry`).
* Array indices are natural numbers: the shifts `>>> 1` and `<< 1` of the heap act on
  indices far below the 32-bit range.
* A loop is a function with a bound on its iterations; for the two loops of the heap
  the bound used is shown to be enough (`bubbleUpLoop_fuel`, `bubbleDownLoop_fuel`), and
  for the drain loop the bound is an argument, shown to be enough when it is at least
  the length of the queue and no handler enqueues.
-/

namespace JsEventHub

/-! ## Priorities and queue entries -/

/-- A priority after numeric coercion: a finite number or `NaN`. -/
inductive Priority where
  | num (v : Int)
  | nan
  deriving DecidableEq, Repr

/-- JavaScript `a - b`. -/
def Priority.sub : Priority → Priority → Priority
  | .num a, .num b => .num (a - b)
  | _, _ => .nan

/-- JavaScript `x < 0`. -/
def Priority.ltZero : Priority → Bool
  | .num v => decide (v < 0)
  | .nan => false

/-- A priority is finite when it is not `NaN`. -/
def Priority.isFinite : Priority → Bool
  | .num _ => true
  | .nan => false

/-- The numeric value of a priority (`0` for `NaN`, which has none). -/
def Priority.value : Priority → Int
  | .num v => v
  | .nan => 0

/-- The class `PriorityEvent`: an event with its priority. -/
structure PriorityEvent (δ : Type) where
  event : String
  priority : Priority
  data : δ
  deriving DecidableEq, Repr

/-- The comparator given to the queue by the constructor:
`(a, b) => a.priority - b.priority`. -/
def comparator {δ : Type} (a b : PriorityEvent δ) : Priority :=
  a.priority.sub b.priority

/-! ## The binary heap of `js-priority-queue` -/

namespace BinaryHeapStrategy

variable {α : Type}

/-- The test `comparator(data[i], data[j]) < 0` on two array reads. -/
def less (cmp : α → α → Priority) : Option α → Option α → Bool
  | some a, some b => (cmp a b).ltZero
  | _, _ => false

/-- The three-assignment exchange of the entries at `i` and `j`:
`x = data[j]; data[j] = data[i]; data[i] = x`. -/
def swap (data : List α) (i j : Nat) : List α :=
  match data[i]?, data[j]? with
  | some a, some b => (data.set j a).set i b
  | _, _ => data

/-- The loop of `_bubbleUp`: while `pos > 0`, exchange with the parent `(pos - 1) >>> 1`
when the entry compares below it, otherwise stop.  The first argument bounds the number
of iterations. -/
def bubbleUpLoop (cmp : α → α → Priority) : Nat → List α → Nat → List α
  | 0, data, _ => data
  | fuel + 1, data, pos =>
    if pos > 0 then
      let parent := (pos - 1) >>> 1
      if less cmp data[pos]? data[parent]? then
        bubbleUpLoop cmp fuel (swap data pos parent) parent
      else data
    else data

/-- The method `_bubbleUp(pos)`; `pos` iterations always suffice since the position strictly
decreases. -/
def bubbleUp (cmp : α → α → Priority) (data : List α) (pos : Nat) : List α :=
  bubbleUpLoop cmp pos data pos

/-- The index chosen by one iteration of `_bubbleDown`: the smaller child when it
compares below the entry at `pos`, else `pos`. -/
def minIndex (cmp : α → α → Priority) (data : List α) (pos : Nat) : Nat :=
  let last := data.length - 1
  let left := (pos <<< 1) + 1
  let right := left + 1
  let m := pos
  let m := if left ≤ last && less cmp data[left]? data[m]? then left else m
  let m := if right ≤ last && less cmp data[right]? data[m]? then right else m
  m

/-- The loop of `_bubbleDown`.  The first argument bounds the number of iterations. -/
def bubbleDownLoop (cmp : α → α → Priority) : Nat → List α → Nat → List α
  | 0, data, _ => data
  | fuel + 1, data, pos =>
    let m := minIndex cmp data pos
    if m ≠ pos then bubbleDownLoop cmp fuel (swap data pos m) m
    else data

/-- The method `_bubbleDown(pos)`; `data.length` iterations always suffice since the position
strictly increases and stays below the length. -/
def bubbleDown (cmp : α → α → Priority) (data : List α) (pos : Nat) : List α :=
  bubbleDownLoop cmp data.length data pos

/-- The method `queue(value)`: `data.push(value); _bubbleUp(data.length - 1)`. -/
def queue (cmp : α → α → Priority) (data : List α) (value : α) : List α :=
  let data := data ++ [value]
  bubbleUp cmp data (data.length - 1)

/-- The method `dequeue()`: `ret = data[0]; last = data.pop(); if (data.length > 0)
{ data[0] = last; _bubbleDown(0) }; return ret`. -/
def dequeue (cmp : α → α → Priority) (data : List α) : Option α × List α :=
  let ret := data[0]?
  let last := data.getLast?
  let data := data.dropLast
  if data.length > 0 then
    match last with
    | some l => (ret, bubbleDown cmp (data.set 0 l) 0)
    | none => (ret, data)
  else (ret, data)

end BinaryHeapStrategy

/-- The queue object: the heap array held by the strategy and the `length` counter the
wrapper keeps next to it. -/
structure PriorityQueue (α : Type) where
  data : List α
  length : Nat

/-- The queue `new PriorityQueue({ comparator })`, with no initial values. -/
def PriorityQueue.empty {α : Type} : PriorityQueue α := ⟨[], 0⟩

/-- The method `queue(value)` of the queue: `this.length++; this.priv.queue(value)`. -/
def PriorityQueue.queue {α : Type} (cmp : α → α → Priority) (q : PriorityQueue α)
    (value : α) : PriorityQueue α :=
  ⟨BinaryHeapStrategy.queue cmp q.data value, q.length + 1⟩

/-- The method `dequeue()` of the queue: throws `'Empty queue'` (here `none`) when
`length` is `0`, otherwise
`this.length--; return this.priv.dequeue()`. -/
def PriorityQueue.dequeue {α : Type} (cmp : α → α → Priority) (q : PriorityQueue α) :
    Option (Option α × PriorityQueue α) :=
  if q.length = 0 then none
  else
    let r := BinaryHeapStrategy.dequeue cmp q.data
    some (r.1, ⟨r.2, q.length - 1⟩)

/-! ## Observations and outcomes -/

/-- The `ctx` argument of `emitWithContext` and `processEvents`: a cancellation context. -/
structure Context where
  cancelled : Bool
  deriving DecidableEq, Repr

/-- What the hub does to the outside world, in the order it does it. -/
inductive Obs (δ : Type) where
  /-- The line `Emitting event <event> with priority <priority>` written to the logger. -/
  | logEmitting (event : String) (priority : Priority)
  /-- The line `Processing event <event> with priority <priority>` written to the logger. -/
  | logProcessing (event : String) (priority : Priority)
  /-- The entry `events.dequeue()` returned to `processEvents`. -/
  | dequeued (e : PriorityEvent δ)
  /-- The call `ch.emit('data', payload)` on the channel `ch`. -/
  | data (ch : Nat) (payload : δ)
  /-- The call `handler.handle(payload)`. -/
  | handle (handler : Nat) (payload : δ)
  deriving DecidableEq, Repr

/-- The exceptions that can leave a hub method. -/
inductive JSError where
  /-- A `TypeError` raised by the runtime (a method that is not a function, a property
  of `null` or `undefined`). -/
  | typeError (what : String)
  /-- The emitter throws when `'error'` is emitted and has no listener. -/
  | unhandledError
  /-- The string `'Empty queue'` thrown by `dequeue` on an empty queue. -/
  | emptyQueue
  /-- An exception thrown by the body of a handler. -/
  | thrownBy (handler : Nat)
  deriving DecidableEq, Repr

/-- How a call ends: it returns, it throws, or the bound on loop iterations of the
embedding was reached before the loop ended. -/
inductive Completion where
  | normal
  | thrown (e : JSError)
  | outOfFuel
  deriving DecidableEq, Repr

/-! ## The Node.js event emitter -/

/-- The listener closure `(data) => { ... }` created by `on`; it captures `filters` and
the channel `ch`. -/
structure Listener (δ : Type) where
  filters : List (δ → Bool)
  ch : Nat

/-- The body of the closure:
`if (filters.length === 0 || filters.some(filter => filter(data))) ch.emit('data', data)`. -/
def Listener.call {δ : Type} (l : Listener δ) (data : δ) : List (Obs δ) :=
  if l.filters.length = 0 || l.filters.any (fun filter => filter data) then
    [Obs.data l.ch data]
  else []

/-- An emitter: for every event name its listeners in registration order (`[]` when the
name has none). -/
structure EventEmitter (δ : Type) where
  events : String → List (Listener δ)

/-- The emitter `new EventEmitter()`. -/
def EventEmitter.create {δ : Type} : EventEmitter δ := ⟨fun _ => []⟩

/-- The method `emitter.on(event, listener)`: the listener is added at the end of the
list.  The `newListener` event the emitter emits before it adds the listener is given by
`HubEventEmitter.onNotifying`. -/
def EventEmitter.«on» {δ : Type} (em : EventEmitter δ) (event : String)
    (listener : Listener δ) : EventEmitter δ :=
  ⟨fun k => if k = event then em.events k ++ [listener] else em.events k⟩

/-- The method `emitter.emit(event, data)`: throws when `event` is `'error'` and has no listener,
otherwise calls the listeners of `event` in registration order. -/
def EventEmitter.emit {δ : Type} (em : EventEmitter δ) (event : String) (data : δ) :
    List (Obs δ) × Completion :=
  if event = "error" ∧ (em.events event).length = 0 then
    ([], Completion.thrown JSError.unhandledError)
  else
    ((em.events event).flatMap (fun l => l.call data), Completion.normal)

/-- The method `emitter.removeAllListeners(event)`, and `emitter.removeAllListeners()` when no name
is given: the effect on the listener table.  The `removeListener` event is not part of
the embedding. -/
def EventEmitter.removeAllListeners {δ : Type} (em : EventEmitter δ) :
    Option String → EventEmitter δ
  | some event => ⟨fun k => if k = event then [] else em.events k⟩
  | none => ⟨fun _ => []⟩

/-! ## The hub -/

/-- The value of `this.logger`: the console or `null` (`none`). -/
inductive Logger where
  | console
  deriving DecidableEq, Repr

/-- The class `HubEventEmitter`.  The field `handlers` holds the own properties of the object
`this.handlers`; `nextChannel` is the identity the next `new EventEmitter()` of `on`
receives. -/
structure HubEventEmitter (δ : Type) where
  eventEmitter : EventEmitter δ
  handlers : String → Option (List Nat)
  events : PriorityQueue (PriorityEvent δ)
  logging : Bool
  logger : Option Logger
  nextChannel : Nat

/-- The result of running hub code: the hub afterwards, what was observed, and how the
call ended. -/
structure Outcome (δ : Type) where
  hub : HubEventEmitter δ
  trace : List (Obs δ)
  completion : Completion

/-- Sequential composition: the continuation runs only after a normal return. -/
def Outcome.andThen {δ : Type} (r : Outcome δ) (k : HubEventEmitter δ → Outcome δ) :
    Outcome δ :=
  match r.completion with
  | Completion.normal =>
    let r2 := k r.hub
    ⟨r2.hub, r.trace ++ r2.trace, r2.completion⟩
  | _ => r

/-- The property names every plain object inherits from `Object.prototype`. -/
def objectPrototypeKeys : List String :=
  ["constructor", "__defineGetter__", "__defineSetter__", "hasOwnProperty",
   "__lookupGetter__", "__lookupSetter__", "isPrototypeOf", "propertyIsEnumerable",
   "toString", "valueOf", "__proto__", "toLocaleString"]

/-- The value of the property read `this.handlers[event]`. -/
inductive HandlersLookup where
  /-- No such property: `undefined`. -/
  | undefined
  /-- An own property: the array of handlers. -/
  | array (hs : List Nat)
  /-- A property inherited from `Object.prototype`: truthy, and not an array. -/
  | inherited
  deriving DecidableEq, Repr

namespace HubEventEmitter

variable {δ : Type}

/-- The constructor, `constructor(logging = false)`. -/
def constructor (logging : Bool) : HubEventEmitter δ where
  eventEmitter := EventEmitter.create
  handlers := fun _ => none
  events := PriorityQueue.empty
  logging := logging
  logger := if logging then some Logger.console else none
  nextChannel := 0

/-- The method `setLogging(enable)`. -/
def setLogging (h : HubEventEmitter δ) (enable : Bool) : HubEventEmitter δ :=
  { h with logging := enable, logger := if enable then some Logger.console else none }

/-- The method `on(event, ...filters)`: returns the new channel and the hub with the listener
registered. -/
def «on» (h : HubEventEmitter δ) (event : String) (filters : List (δ → Bool)) :
    Nat × HubEventEmitter δ :=
  let ch := h.nextChannel
  (ch, { h with eventEmitter := h.eventEmitter.on event ⟨filters, ch⟩,
                nextChannel := h.nextChannel + 1 })

/-- The guarded call `if (this.logging) this.logger.log(line)`; `this.logger.log` on a
`null` logger is a `TypeError`. -/
def log (h : HubEventEmitter δ) (line : Obs δ) : Outcome δ :=
  if h.logging then
    match h.logger with
    | some _ => ⟨h, [line], Completion.normal⟩
    | none => ⟨h, [], Completion.thrown (JSError.typeError "this.logger is null")⟩
  else ⟨h, [], Completion.normal⟩

/-- The method `emitWithContext(ctx, event, data, priority)`. -/
def emitWithContext (h : HubEventEmitter δ) (_ctx : Context) (event : String) (data : δ)
    (priority : Priority) : Outcome δ :=
  (h.log (Obs.logEmitting event priority)).andThen fun h =>
    ⟨{ h with events := h.events.queue comparator ⟨event, priority, data⟩ }, [],
      Completion.normal⟩

/-- The property read `this.handlers[event]`: an own property, else a property inherited
from `Object.prototype`, else `undefined`. -/
def lookupHandlers (h : HubEventEmitter δ) (event : String) : HandlersLookup :=
  match h.handlers event with
  | some hs => HandlersLookup.array hs
  | none =>
    if event ∈ objectPrototypeKeys then HandlersLookup.inherited
    else HandlersLookup.undefined

/-- The method `onEvent(event, handler)`: `if (!this.handlers[event]) this.handlers[event] = [];
this.handlers[event].push(handler)`.  An inherited property is truthy and has no
`push`. -/
def onEvent (h : HubEventEmitter δ) (event : String) (handler : Nat) : Outcome δ :=
  match h.lookupHandlers event with
  | HandlersLookup.undefined =>
    ⟨{ h with handlers := fun k => if k = event then some [handler] else h.handlers k },
      [], Completion.normal⟩
  | HandlersLookup.array hs =>
    ⟨{ h with handlers := fun k => if k = event then some (hs ++ [handler])
                                   else h.handlers k },
      [], Completion.normal⟩
  | HandlersLookup.inherited =>
    ⟨h, [], Completion.thrown (JSError.typeError "this.handlers[event].push is not a function")⟩

/-- The method `off(event)`:
`this.eventEmitter.removeAllListeners(event); delete this.handlers[event]`. -/
def off (h : HubEventEmitter δ) (event : String) : HubEventEmitter δ :=
  { h with eventEmitter := h.eventEmitter.removeAllListeners (some event),
           handlers := fun k => if k = event then none else h.handlers k }

/-- The method `close()`: `this.eventEmitter.removeAllListeners(); this.handlers = {}`. -/
def close (h : HubEventEmitter δ) : HubEventEmitter δ :=
  { h with eventEmitter := h.eventEmitter.removeAllListeners none,
           handlers := fun _ => none }

end HubEventEmitter

/-! ## Application code called by the hub -/

/-- A call application code makes on the hub, also from inside a handler.  A handler
that calls `processEvents` is described by an `Action`. -/
inductive HubCall (δ : Type) where
  | setLogging (enable : Bool)
  | «on» (event : String) (filters : List (δ → Bool))
  | emitWithContext (ctx : Context) (event : String) (data : δ) (priority : Priority)
  | onEvent (event : String) (handler : Nat)
  | off (event : String)
  | close

/-- What `handler.handle(data)` does: a sequence of calls on the hub, after which it
returns or throws.  A handler that also starts a drain is a `ReentrantBody`. -/
structure HandlerBody (δ : Type) where
  calls : List (HubCall δ)
  throws : Bool

/-- The handler objects of the application: the behaviour of `handle` for every handler
and payload. -/
abbrev Handlers (δ : Type) := Nat → δ → HandlerBody δ

namespace HubEventEmitter

variable {δ : Type}

/-- One call on the hub. -/
def call (h : HubEventEmitter δ) : HubCall δ → Outcome δ
  | HubCall.setLogging enable => ⟨h.setLogging enable, [], Completion.normal⟩
  | HubCall.on event filters => ⟨(h.on event filters).2, [], Completion.normal⟩
  | HubCall.emitWithContext ctx event data priority =>
    h.emitWithContext ctx event data priority
  | HubCall.onEvent event handler => h.onEvent event handler
  | HubCall.off event => ⟨h.off event, [], Completion.normal⟩
  | HubCall.close => ⟨h.close, [], Completion.normal⟩

/-- A sequence of calls, stopped by the first one that throws. -/
def calls (h : HubEventEmitter δ) : List (HubCall δ) → Outcome δ
  | [] => ⟨h, [], Completion.normal⟩
  | c :: cs => (h.call c).andThen fun h => h.calls cs

/-- The call `handler.handle(data)`. -/
def invoke (env : Handlers δ) (h : HubEventEmitter δ) (handler : Nat) (data : δ) :
    Outcome δ :=
  (Outcome.mk h [Obs.handle handler data] Completion.normal).andThen fun h =>
    (h.calls (env handler data).calls).andThen fun h =>
      if (env handler data).throws then
        ⟨h, [], Completion.thrown (JSError.thrownBy handler)⟩
      else ⟨h, [], Completion.normal⟩

/-- The loop `handlers.forEach(handler => handler.handle(data))`, over the elements the array had
when `forEach` started: `forEach` fixes its range before the first call, and the hub
only ever appends to a handler array (`push`) or drops its reference to it (`delete`,
`this.handlers = {}`), so the elements in that range stay what they were. -/
def forEachHandler (env : Handlers δ) (data : δ) :
    List Nat → HubEventEmitter δ → Outcome δ
  | [], h => ⟨h, [], Completion.normal⟩
  | handler :: rest, h =>
    (h.invoke env handler data).andThen fun h => forEachHandler env data rest h

/-- The method `dispatch(event, data)`: `const handlers = this.handlers[event] || [];
handlers.forEach(handler => handler.handle(data))`.  An inherited property is truthy
and has no `forEach`. -/
def dispatch (env : Handlers δ) (h : HubEventEmitter δ) (event : String) (data : δ) :
    Outcome δ :=
  match h.lookupHandlers event with
  | HandlersLookup.undefined => ⟨h, [], Completion.normal⟩
  | HandlersLookup.array hs => forEachHandler env data hs h
  | HandlersLookup.inherited =>
    ⟨h, [], Completion.thrown (JSError.typeError "handlers.forEach is not a function")⟩

/-- The part of the loop body of `processEvents` after the dequeue: the log line,
`this.eventEmitter.emit(event, data)`, then `this.dispatch(event, data)`. -/
def deliver (env : Handlers δ) (h : HubEventEmitter δ) (e : PriorityEvent δ) :
    Outcome δ :=
  (h.log (Obs.logProcessing e.event e.priority)).andThen fun h =>
    (Outcome.mk h (h.eventEmitter.emit e.event e.data).1
        (h.eventEmitter.emit e.event e.data).2).andThen fun h =>
      h.dispatch env e.event e.data

/-- The loop of `processEvents`: `while (this.events.length > 0) { ... }`.  The first
argument bounds the number of iterations. -/
def processLoop (env : Handlers δ) : Nat → HubEventEmitter δ → Outcome δ
  | 0, h =>
    ⟨h, [], if h.events.length > 0 then Completion.outOfFuel else Completion.normal⟩
  | fuel + 1, h =>
    if h.events.length > 0 then
      match h.events.dequeue comparator with
      | none => ⟨h, [], Completion.thrown JSError.emptyQueue⟩
      | some (none, q) =>
        ⟨{ h with events := q }, [],
          Completion.thrown (JSError.typeError "eventToProcess is undefined")⟩
      | some (some e, q) =>
        ((Outcome.mk { h with events := q } [Obs.dequeued e] Completion.normal).andThen
          fun h => h.deliver env e).andThen fun h => processLoop env fuel h
    else ⟨h, [], Completion.normal⟩

/-- The method `processEvents(ctx)`, with a bound on the number of loop iterations. -/
def processEvents (env : Handlers δ) (fuel : Nat) (h : HubEventEmitter δ)
    (_ctx : Context) : Outcome δ :=
  processLoop env fuel h

end HubEventEmitter

/-! ## Handlers that start a drain -/

/-- What the body of a handler does to the hub: it calls one of its methods, or it calls
`processEvents`. -/
inductive Action (δ : Type) where
  | call (c : HubCall δ)
  | processEvents (ctx : Context)

/-- What `handler.handle(data)` does when it may also start a drain: a sequence of actions,
after which it returns or throws. -/
structure ReentrantBody (δ : Type) where
  actions : List (Action δ)
  throws : Bool

/-- The handler objects of an application whose handlers may start a drain. -/
abbrev ReentrantHandlers (δ : Type) := Nat → δ → ReentrantBody δ

namespace HubEventEmitter

variable {δ : Type}

/-- One action of a handler; `drain` is what `processEvents` does when the handler calls
it. -/
def act (drain : HubEventEmitter δ → Outcome δ) (h : HubEventEmitter δ) :
    Action δ → Outcome δ
  | Action.call c => h.call c
  | Action.processEvents _ => drain h

/-- A sequence of actions, stopped by the first one that throws. -/
def acts (drain : HubEventEmitter δ → Outcome δ) (h : HubEventEmitter δ) :
    List (Action δ) → Outcome δ
  | [] => ⟨h, [], Completion.normal⟩
  | a :: rest => (h.act drain a).andThen fun h => h.acts drain rest

/-- The call `handler.handle(data)` of a handler that may start a drain. -/
def invokeNested (drain : HubEventEmitter δ → Outcome δ) (env : ReentrantHandlers δ)
    (h : HubEventEmitter δ) (handler : Nat) (data : δ) : Outcome δ :=
  (Outcome.mk h [Obs.handle handler data] Completion.normal).andThen fun h =>
    (h.acts drain (env handler data).actions).andThen fun h =>
      if (env handler data).throws then
        ⟨h, [], Completion.thrown (JSError.thrownBy handler)⟩
      else ⟨h, [], Completion.normal⟩

/-- The loop `handlers.forEach(handler => handler.handle(data))` with handlers that may start a
drain. -/
def forEachHandlerNested (drain : HubEventEmitter δ → Outcome δ) (env : ReentrantHandlers δ)
    (data : δ) : List Nat → HubEventEmitter δ → Outcome δ
  | [], h => ⟨h, [], Completion.normal⟩
  | handler :: rest, h =>
    (h.invokeNested drain env handler data).andThen fun h =>
      forEachHandlerNested drain env data rest h

/-- The method `dispatch(event, data)` with handlers that may start a drain. -/
def dispatchNested (drain : HubEventEmitter δ → Outcome δ) (env : ReentrantHandlers δ)
    (h : HubEventEmitter δ) (event : String) (data : δ) : Outcome δ :=
  match h.lookupHandlers event with
  | HandlersLookup.undefined => ⟨h, [], Completion.normal⟩
  | HandlersLookup.array hs => forEachHandlerNested drain env data hs h
  | HandlersLookup.inherited =>
    ⟨h, [], Completion.thrown (JSError.typeError "handlers.forEach is not a function")⟩

/-- The part of the loop body of `processEvents` after the dequeue, with handlers that
may start a drain. -/
def deliverNested (drain : HubEventEmitter δ → Outcome δ) (env : ReentrantHandlers δ)
    (h : HubEventEmitter δ) (e : PriorityEvent δ) : Outcome δ :=
  (h.log (Obs.logProcessing e.event e.priority)).andThen fun h =>
    (Outcome.mk h (h.eventEmitter.emit e.event e.data).1
        (h.eventEmitter.emit e.event e.data).2).andThen fun h =>
      h.dispatchNested drain env e.event e.data

/-- The loop of `processEvents` with handlers that may start a drain.  The first
argument bounds the number of iterations of the loop and the depth to which drains are
nested: a drain started by a handler during an iteration runs with the bound left for the
iterations after it. -/
def processLoopNested (env : ReentrantHandlers δ) : Nat → HubEventEmitter δ → Outcome δ
  | 0, h =>
    ⟨h, [], if h.events.length > 0 then Completion.outOfFuel else Completion.normal⟩
  | fuel + 1, h =>
    if h.events.length > 0 then
      match h.events.dequeue comparator with
      | none => ⟨h, [], Completion.thrown JSError.emptyQueue⟩
      | some (none, q) =>
        ⟨{ h with events := q }, [],
          Completion.thrown (JSError.typeError "eventToProcess is undefined")⟩
      | some (some e, q) =>
        ((Outcome.mk { h with events := q } [Obs.dequeued e] Completion.normal).andThen
          fun h => h.deliverNested (processLoopNested env fuel) env e).andThen
            fun h => processLoopNested env fuel h
    else ⟨h, [], Completion.normal⟩

/-- The method `processEvents(ctx)` with handlers that may start a drain. -/
def processEventsNested (env : ReentrantHandlers δ) (fuel : Nat) (h : HubEventEmitter δ)
    (_ctx : Context) : Outcome δ :=
  processLoopNested env fuel h

/-- The method `on(event, ...filters)` together with the `newListener` event of the emitter:
before it adds a listener, `eventEmitter.on` calls the listeners registered under
`newListener`, if there are any, with the name of the event as their first argument.
Those listeners are closures made by earlier `on` calls of the hub, which take that
argument for a payload; `asPayload` is the name seen as a payload. -/
def onNotifying (asPayload : String → δ) (h : HubEventEmitter δ) (event : String)
    (filters : List (δ → Bool)) : Nat × Outcome δ :=
  ((h.on event filters).1,
    ⟨(h.on event filters).2,
      (h.eventEmitter.events "newListener").flatMap (fun l => l.call (asPayload event)),
      Completion.normal⟩)

end HubEventEmitter

/-! ## Vocabulary of the specification -/

section Vocabulary

variable {δ : Type}

/-- The numeric priority read at index `i` of a heap array (`0` outside the array). -/
def keyAt (data : List (PriorityEvent δ)) (i : Nat) : Int :=
  match data[i]? with
  | some e => e.priority.value
  | none => 0

/-- Every entry of the array has a finite priority. -/
def AllFinite (data : List (PriorityEvent δ)) : Prop :=
  ∀ e ∈ data, e.priority.isFinite = true

/-- The heap order of the array: no entry is below its parent `(i - 1) >>> 1`. -/
def IsHeap (data : List (PriorityEvent δ)) : Prop :=
  ∀ i, 0 < i → i < data.length → keyAt data ((i - 1) / 2) ≤ keyAt data i

/-- The `length` counter of the queue agrees with its array. -/
def LengthOK (h : HubEventEmitter δ) : Prop :=
  h.events.length = h.events.data.length

/-- The logger is present whenever logging is on. -/
def LoggerOK (h : HubEventEmitter δ) : Prop :=
  h.logging = true → h.logger ≠ none

/-- Every channel handed out so far is older than the next one. -/
def ChannelsFresh (h : HubEventEmitter δ) : Prop :=
  ∀ name, ∀ l ∈ h.eventEmitter.events name, l.ch < h.nextChannel

/-- The entries a trace dequeued, in order: the dispatch order of the drain. -/
def dispatched : List (Obs δ) → List (PriorityEvent δ)
  | [] => []
  | Obs.dequeued e :: tr => e :: dispatched tr
  | _ :: tr => dispatched tr

/-- The payloads a trace emitted as `data` on the channel `ch`, in order. -/
def delivered (ch : Nat) : List (Obs δ) → List δ
  | [] => []
  | Obs.data c payload :: tr => if c = ch then payload :: delivered ch tr else delivered ch tr
  | _ :: tr => delivered ch tr

/-- The handler invocations of a trace, in order: the handler and its argument. -/
def handled : List (Obs δ) → List (Nat × δ)
  | [] => []
  | Obs.handle handler payload :: tr => (handler, payload) :: handled tr
  | _ :: tr => handled tr

/-- The call enqueues an event. -/
def HubCall.isEnqueue : HubCall δ → Bool
  | HubCall.emitWithContext _ _ _ _ => true
  | _ => false

/-- No handler enqueues an event. -/
def NoEnqueue (env : Handlers δ) : Prop :=
  ∀ handler data, ∀ c ∈ (env handler data).calls, HubCall.isEnqueue c = false

/-- No handler calls back into the hub. -/
def Passive (env : Handlers δ) : Prop :=
  ∀ handler data, (env handler data).calls = []

/-- No handler throws. -/
def NoThrow (env : Handlers δ) : Prop :=
  ∀ handler data, (env handler data).throws = false

/-- The handlers registered under a name, in registration order. -/
def HubEventEmitter.registered (h : HubEventEmitter δ) (event : String) : List Nat :=
  (h.handlers event).getD []

/-- The observation is not a dequeue. -/
def Obs.notDequeued : Obs δ → Prop
  | Obs.dequeued _ => False
  | _ => True

/-- JavaScript `p <= q` on priorities: false as soon as one side is `NaN`. -/
def Priority.le : Priority → Priority → Prop
  | Priority.num a, Priority.num b => a ≤ b
  | _, _ => False

/-- The invariant of the queue in a hub whose queued priorities are all finite: the
counter agrees with the array and the array is heap-ordered. -/
def QueueOK (h : HubEventEmitter δ) : Prop :=
  LengthOK h ∧ IsHeap h.events.data ∧ AllFinite h.events.data

/-- The hub after the dequeue of one loop iteration, when the array is `a :: t`. -/
def HubEventEmitter.afterDequeue (h : HubEventEmitter δ) (a : PriorityEvent δ)
    (t : List (PriorityEvent δ)) : HubEventEmitter δ :=
  { h with events := ⟨(BinaryHeapStrategy.dequeue comparator (a :: t)).2, h.events.length - 1⟩ }

/-- The arguments of one `emitWithContext` call. -/
structure EmitArgs (δ : Type) where
  ctx : Context
  event : String
  data : δ
  priority : Priority

/-- The entry the call creates: `new PriorityEvent(event, priority, data)`. -/
def EmitArgs.entry (c : EmitArgs δ) : PriorityEvent δ :=
  ⟨c.event, c.priority, c.data⟩

/-- A sequence of `emitWithContext` calls made one after the other. -/
def HubEventEmitter.emitAll (h : HubEventEmitter δ) :
    List (EmitArgs δ) → HubEventEmitter δ
  | [] => h
  | c :: cs => HubEventEmitter.emitAll (h.emitWithContext c.ctx c.event c.data c.priority).hub cs

/-- The two hubs agree on everything but their queue. -/
def SameRegistry (h h0 : HubEventEmitter δ) : Prop :=
  h.eventEmitter = h0.eventEmitter ∧ h.handlers = h0.handlers ∧ h.logging = h0.logging ∧
    h.logger = h0.logger ∧ h.nextChannel = h0.nextChannel

/-- The listener lets the payload through: it has no filter, or one of its filters
holds of the payload. -/
def Listener.passes (l : Listener δ) (data : δ) : Prop :=
  l.filters.length = 0 ∨ ∃ f ∈ l.filters, f data = true

/-- The observation is a line written to the logger. -/
def Obs.isLog : Obs δ → Prop
  | Obs.logEmitting _ _ => True
  | Obs.logProcessing _ _ => True
  | _ => False

/-- The call removes the subscriptions of `name`: `off(name)` or `close()`. -/
def HubCall.unsubscribes (name : String) : HubCall δ → Bool
  | HubCall.off event => decide (event = name)
  | HubCall.close => true
  | _ => false

/-- The subscription `l` is registered under `name` and no other subscription of that
name shares its channel. -/
def Subscribed (h : HubEventEmitter δ) (name : String) (l : Listener δ) : Prop :=
  ∃ before after, h.eventEmitter.events name = before ++ l :: after ∧
    (∀ x ∈ before, x.ch ≠ l.ch) ∧ ∀ x ∈ after, x.ch ≠ l.ch

/-- A subscription registered under `name`, with all channels handed out so far older
than the next one. -/
def SubscribedFresh (h : HubEventEmitter δ) (name : String) (l : Listener δ) : Prop :=
  ChannelsFresh h ∧ Subscribed h name l ∧ l.ch < h.nextChannel

/-- An operation the application performs on the hub: a call, or a drain. -/
inductive Op (δ : Type) where
  | call (c : HubCall δ)
  | processEvents (fuel : Nat) (ctx : Context)

/-- One operation of the application. -/
def HubEventEmitter.step (env : Handlers δ) (h : HubEventEmitter δ) : Op δ → Outcome δ
  | Op.call c => h.call c
  | Op.processEvents fuel ctx => h.processEvents env fuel ctx

/-- A sequence of operations, each on the hub the one before left behind, whether that
one returned or threw: the hub at the end and everything that was observed. -/
def HubEventEmitter.run (env : Handlers δ) (h : HubEventEmitter δ) :
    List (Op δ) → HubEventEmitter δ × List (Obs δ)
  | [] => (h, [])
  | op :: ops =>
    ((HubEventEmitter.run env (h.step env op).hub ops).1,
      (h.step env op).trace ++ (HubEventEmitter.run env (h.step env op).hub ops).2)

/-- The entry being delivered after an observation: the entry just dequeued, else the
one before. -/
def Obs.current (cur : Option (PriorityEvent δ)) : Obs δ → Option (PriorityEvent δ)
  | Obs.dequeued e => some e
  | _ => cur

/-- Every observation of a trace paired with the entry being delivered when it was
made, that is the last entry dequeued so far. -/
def tagged : Option (PriorityEvent δ) → List (Obs δ) →
    List (Option (PriorityEvent δ) × Obs δ)
  | _, [] => []
  | cur, o :: tr => (Obs.current cur o, o) :: tagged (Obs.current cur o) tr

/-- The call registers, under `name`, one of the handlers of the list `old`. -/
def HubCall.registers (name : String) (old : List Nat) : HubCall δ → Bool
  | HubCall.onEvent event handler => decide (event = name) && decide (handler ∈ old)
  | _ => false

/-- The observation is neither a `data` emission on a channel older than `oldN` nor a
call of a handler of the list `oldH`. -/
def Obs.unheard (oldN : Nat) (oldH : List Nat) (o : Obs δ) : Prop :=
  (∀ ch d, ch < oldN → o ≠ Obs.data ch d) ∧ ∀ H d, H ∈ oldH → o ≠ Obs.handle H d

/-- The state of a name after `off`: its subscriptions all have channels from `oldN` on
and none of its handlers is in `oldH`. -/
def OffInv (name : String) (oldN : Nat) (oldH : List Nat) (h : HubEventEmitter δ) : Prop :=
  (∀ l ∈ h.eventEmitter.events name, oldN ≤ l.ch) ∧ oldN ≤ h.nextChannel ∧
    ∀ H ∈ h.registered name, H ∉ oldH

/-- In the trace, no observation made while an entry of `name` is delivered is a
delivery to an old channel or an old handler, whatever was being delivered before. -/
def SilentFor (name : String) (oldN : Nat) (oldH : List Nat) (tr : List (Obs δ)) : Prop :=
  ∀ cur, ∀ p ∈ tagged cur tr, ∀ e, p.1 = some e → e.event = name →
    Obs.unheard oldN oldH p.2

/-- The call enqueues nothing with a `NaN` priority. -/
def HubCall.finite : HubCall δ → Bool
  | HubCall.emitWithContext _ _ _ priority => priority.isFinite
  | _ => true

/-- The invariant of the hubs an application can build with finite priorities: the queue
is in order, the logger is present when logging is on, and the channels handed out are
older than the next one. -/
def WellFormed (h : HubEventEmitter δ) : Prop :=
  QueueOK h ∧ LoggerOK h ∧ ChannelsFresh h

/-- The subscription `l` is registered under `name`, its channel is used by no other
subscription of any name and is older than the next channel, and the hub is in order for
a drain. -/
def SubInv (name : String) (l : Listener δ) (h : HubEventEmitter δ) : Prop :=
  Subscribed h name l ∧ (∀ m, m ≠ name → ∀ x ∈ h.eventEmitter.events m, x.ch ≠ l.ch) ∧
    l.ch < h.nextChannel ∧ LoggerOK h ∧ LengthOK h

/-- No handler removes the subscriptions of `name`. -/
def KeepsSubscriptions (name : String) (env : Handlers δ) : Prop :=
  ∀ handler data, ∀ c ∈ (env handler data).calls, HubCall.unsubscribes name c = false

/-- The hub itself does not throw when it delivers an entry of this name: the emitter
has a listener for it when the name is `error`, and the property read
`this.handlers[event]` is not a property inherited from `Object.prototype`. -/
def Deliverable (h : HubEventEmitter δ) (event : String) : Prop :=
  (event = "error" → h.eventEmitter.events event ≠ []) ∧
    h.lookupHandlers event ≠ HandlersLookup.inherited

/-- The logger is present exactly when logging is on. -/
def LoggerInv (h : HubEventEmitter δ) : Prop :=
  h.logger ≠ none ↔ h.logging = true

/-- The `TypeError` of a `this.logger.log(...)` call made while `this.logger` is `null`. -/
def nullLogger : Completion :=
  Completion.thrown (JSError.typeError "this.logger is null")

/-- The outcome leaves the logger in step with the logging flag and did not end in a
call on a `null` logger. -/
def Outcome.LoggerSafe (r : Outcome δ) : Prop :=
  LoggerInv r.hub ∧ r.completion ≠ nullLogger

/-- The observation is something other than a line written to the logger. -/
def Obs.visible : Obs δ → Bool
  | Obs.logEmitting _ _ => false
  | Obs.logProcessing _ _ => false
  | _ => true

/-- The observation is something other than a `data` emission on a channel different
from `ch`. -/
def Obs.concerns (ch : Nat) : Obs δ → Bool
  | Obs.data c _ => decide (c = ch)
  | _ => true

/-- Two outcomes that look the same to an observer who sees the observations selected by
`keep`: the hubs are related by `R`, the selected observations are the same, and the
calls end the same way. -/
def Outcome.Agree (R : HubEventEmitter δ → HubEventEmitter δ → Prop) (keep : Obs δ → Bool)
    (r r' : Outcome δ) : Prop :=
  R r.hub r'.hub ∧ r.trace.filter keep = r'.trace.filter keep ∧ r.completion = r'.completion

/-- A relation between hubs that every step of hub code respects, as far as an observer
of the observations selected by `keep` can tell. -/
structure Simulation (R : HubEventEmitter δ → HubEventEmitter δ → Prop)
    (keep : Obs δ → Bool) : Prop where
  call : ∀ h h' c, R h h' → Outcome.Agree R keep (h.call c) (h'.call c)
  log : ∀ h h' line, Obs.isLog line → R h h' →
    Outcome.Agree R keep (h.log line) (h'.log line)
  emit : ∀ h h' event data, R h h' →
    (h.eventEmitter.emit event data).1.filter keep =
      (h'.eventEmitter.emit event data).1.filter keep ∧
    (h.eventEmitter.emit event data).2 = (h'.eventEmitter.emit event data).2
  handlers : ∀ h h', R h h' → h.handlers = h'.handlers
  events : ∀ h h', R h h' → h.events = h'.events
  setEvents : ∀ h h' q, R h h' → R { h with events := q } { h' with events := q }

/-- Two hubs that differ at most in the logging flag and the logger, each with its
logger present when its logging is on. -/
def SameButLogging (h h' : HubEventEmitter δ) : Prop :=
  h.eventEmitter = h'.eventEmitter ∧ h.handlers = h'.handlers ∧ h.events = h'.events ∧
    h.nextChannel = h'.nextChannel ∧ LoggerOK h ∧ LoggerOK h'

/-- Two hubs that agree on everything but the subscriptions on channels other than
`ch`: the same handlers, queue, logging flag and logger, the same subscriptions on the
channel `ch` under every name, and `ch` older than the next channel of both.  Whether
the name `error` has a subscription at all is also the same. -/
def SameButOtherChannels (ch : Nat) (h h' : HubEventEmitter δ) : Prop :=
  h.handlers = h'.handlers ∧ h.events = h'.events ∧ h.logging = h'.logging ∧
    h.logger = h'.logger ∧
    (h.eventEmitter.events "error" = [] ↔ h'.eventEmitter.events "error" = []) ∧
    (∀ m, (h.eventEmitter.events m).filter (fun l => decide (l.ch = ch)) =
      (h'.eventEmitter.events m).filter (fun l => decide (l.ch = ch))) ∧
    ch < h.nextChannel ∧ ch < h'.nextChannel

/-- The deliveries of a trace are in order.  Every `data` emission and every handler
call carries the payload of the entry dequeued last, and no `data` emission for an entry
follows a handler call for the same entry.  `cur` is the entry being delivered when the
trace starts and `handling` tells whether a handler has been called for it. -/
def InOrder : Option (PriorityEvent δ) → Bool → List (Obs δ) → Prop
  | _, _, [] => True
  | _, _, Obs.dequeued e :: tr => InOrder (some e) false tr
  | cur, handling, Obs.data _ payload :: tr =>
    cur.map (fun e => e.data) = some payload ∧ handling = false ∧ InOrder cur handling tr
  | cur, _, Obs.handle _ payload :: tr =>
    cur.map (fun e => e.data) = some payload ∧ InOrder cur true tr
  | cur, handling, _ :: tr => InOrder cur handling tr

/-- Every observation of the trace is a log line or a `data` emission of the payload. -/
def EmitPart (payload : δ) (tr : List (Obs δ)) : Prop :=
  ∀ o ∈ tr, Obs.isLog o ∨ ∃ ch, o = Obs.data ch payload

/-- Every observation of the trace is a log line or a handler call with the payload. -/
def HandlePart (payload : δ) (tr : List (Obs δ)) : Prop :=
  ∀ o ∈ tr, Obs.isLog o ∨ ∃ H, o = Obs.handle H payload

/-- The hub call an action is, if it is one. -/
def Action.hubCall : Action δ → Option (HubCall δ)
  | Action.call c => some c
  | Action.processEvents _ => none

/-- No handler starts a drain. -/
def NoReentry (env : ReentrantHandlers δ) : Prop :=
  ∀ handler data, ∀ a ∈ (env handler data).actions, a.hubCall ≠ none

/-- The hub calls of handlers that may start a drain, without the drains. -/
def withoutDrains (env : ReentrantHandlers δ) : Handlers δ :=
  fun handler data =>
    ⟨(env handler data).actions.filterMap Action.hubCall, (env handler data).throws⟩

/-- A handler that throws ends the call.  Wherever the trace of the outcome shows the
call of a handler whose body throws, the outcome is an exception, that of the handler or
a `TypeError` of one of the hub calls the handler made, and the rest of the trace holds
only lines written to the logger. -/
def Outcome.AbortsAfterThrow (env : Handlers δ) (r : Outcome δ) : Prop :=
  ∀ pre handler data post, r.trace = pre ++ Obs.handle handler data :: post →
    (env handler data).throws = true →
    (r.completion = Completion.thrown (JSError.thrownBy handler) ∨
      ∃ what, r.completion = Completion.thrown (JSError.typeError what)) ∧
    ∀ o ∈ post, Obs.isLog o

/-- The hub holds the entries of `entries` in its queue, and its counter agrees with its
array. -/
def QueueHolds (entries : List (PriorityEvent δ)) (h : HubEventEmitter δ) : Prop :=
  LengthOK h ∧ entries.Subperm h.events.data

end Vocabulary

/-! ## Concrete hubs used to exercise the statements -/

namespace Examples

/-- Handlers that return at once. -/
def quiet : Handlers Int := fun _ _ => ⟨[], false⟩

/-- A context that is not cancelled. -/
def ctx : Context := ⟨false⟩

/-- A new hub with logging off. -/
def hub0 : HubEventEmitter Int := HubEventEmitter.constructor false

/-- Two `build` events enqueued with priorities `5` then `1`. -/
def buildEmits : List (EmitArgs Int) :=
  [⟨ctx, "build", 7, Priority.num 5⟩, ⟨ctx, "build", 8, Priority.num 1⟩]

/-- The filter `p => p.level > 5` of the second scenario, on payloads that are levels. -/
def levelAbove5 : Int → Bool := fun level => decide (level > 5)

/-- A `notify` event with payload `9`, enqueued with priority `1`. -/
def notifyEmits : List (EmitArgs Int) := [⟨ctx, "notify", 9, Priority.num 1⟩]

/-- The hub after `onEvent("notify", 1)` and `onEvent("notify", 2)`. -/
def notifyHub : HubEventEmitter Int :=
  (hub0.calls [HubCall.onEvent "notify" 1, HubCall.onEvent "notify" 2]).hub

/-- Handlers of which handler `1` throws and every other one returns. -/
def failing : Handlers Int := fun handler _ => ⟨[], decide (handler = 1)⟩

/-- Two `notify` events enqueued with priorities `1` and `2`. -/
def twoNotifyEmits : List (EmitArgs Int) :=
  [⟨ctx, "notify", 9, Priority.num 1⟩, ⟨ctx, "notify", 10, Priority.num 2⟩]

/-- An event named `constructor`, enqueued with priority `1`. -/
def constructorEmits : List (EmitArgs Int) := [⟨ctx, "constructor", 0, Priority.num 1⟩]

/-- An event named `error`, enqueued with priority `1`. -/
def errorEmits : List (EmitArgs Int) := [⟨ctx, "error", 0, Priority.num 1⟩]

/-- The hub with `H1` and `H2` registered under `notify`, a subscription to `notify`
with no filter, and one `notify` entry in the queue. -/
def subscribedHub : HubEventEmitter Int :=
  (notifyHub.on "notify" []).2.emitAll notifyEmits

/-- After `off`: a drain, one more `notify` enqueue, and another drain. -/
def laterOps : List (Op Int) :=
  [Op.processEvents 1 ctx,
   Op.call (HubCall.emitWithContext ctx "notify" 10 (Priority.num 2)),
   Op.processEvents 1 ctx]

/-- Handlers of which handler `1` registers a further handler `3` under `notify` whenever it
is called. -/
def registering : Handlers Int := fun handler _ =>
  if handler = 1 then ⟨[HubCall.onEvent "notify" 3], false⟩ else ⟨[], false⟩

/-- Handlers of which handler `1` calls `off("notify")` whenever it is called. -/
def unregistering : Handlers Int := fun handler _ =>
  if handler = 1 then ⟨[HubCall.off "notify"], false⟩ else ⟨[], false⟩

/-- A context that is cancelled. -/
def cancelledCtx : Context := ⟨true⟩

/-- A new hub with logging on. -/
def loggingHub : HubEventEmitter Int := HubEventEmitter.constructor true

/-- Two `build` enqueues, with payload `7` at priority `5` and payload `3` at priority
`1`, followed by a drain. -/
def enqueueAndDrain : List (Op Int) :=
  [Op.call (HubCall.emitWithContext ctx "build" 7 (Priority.num 5)),
   Op.call (HubCall.emitWithContext ctx "build" 3 (Priority.num 1)),
   Op.processEvents 2 ctx]

/-- Handlers of which handler `1` calls `processEvents` whenever it is called. -/
def reentering : ReentrantHandlers Int := fun handler _ =>
  if handler = 1 then ⟨[Action.processEvents ctx], false⟩ else ⟨[], false⟩

/-- Handlers of which handler `2` throws on the payload `10` and every other call
returns. -/
def failingOnSecond : Handlers Int := fun handler data =>
  ⟨[], decide (handler = 2 ∧ data = 10)⟩

/-- A `constructor` event enqueued with priority `1`, then a `notify` event with priority
`2`. -/
def constructorThenNotify : List (EmitArgs Int) :=
  [⟨ctx, "constructor", 0, Priority.num 1⟩, ⟨ctx, "notify", 9, Priority.num 2⟩]

/-- A new hub whose payloads are strings, logging off. -/
def stringHub : HubEventEmitter String := HubEventEmitter.constructor false

/-- Handlers that may start a drain and return at once. -/
def quietNested : ReentrantHandlers Int := fun _ _ => ⟨[], false⟩

end Examples

end JsEventHub


namespace JsEventHub

namespace BinaryHeapStrategy

variable {α : Type}

theorem cons_set_perm (x : α) : ∀ (xs : List α) (j : Nat) (b : α), xs[j]? = some b →
    (b :: xs.set j x).Perm (x :: xs)
  | [], j, b, h => by simp at h
  | y :: ys, 0, b, h => by
    simp at h
    subst h
    simpa using List.Perm.swap x y ys
  | y :: ys, j + 1, b, h => by
    simp at h
    have ih := cons_set_perm x ys j b h
    simp only [List.set_cons_succ]
    exact (List.Perm.swap y b _).trans ((ih.cons y).trans (List.Perm.swap x y ys))

theorem set_set_perm : ∀ (l : List α) (i j : Nat) (a b : α), l[i]? = some a →
    l[j]? = some b → ((l.set j a).set i b).Perm l
  | [], i, j, a, b, hi, hj => by simp at hi
  | x :: xs, 0, 0, a, b, hi, hj => by
    simp at hi hj
    subst hi hj
    simp
  | x :: xs, 0, j + 1, a, b, hi, hj => by
    simp at hi hj
    subst hi
    simpa using cons_set_perm _ xs j b hj
  | x :: xs, i + 1, 0, a, b, hi, hj => by
    simp at hi hj
    subst hj
    simpa using cons_set_perm _ xs i a hi
  | x :: xs, i + 1, j + 1, a, b, hi, hj => by
    simp at hi hj
    simpa using set_set_perm xs i j a b hi hj

theorem swap_perm (data : List α) (i j : Nat) : (swap data i j).Perm data := by
  unfold swap
  split
  · next a b hi hj => exact set_set_perm data i j a b hi hj
  · exact List.Perm.refl _

theorem swap_length (data : List α) (i j : Nat) : (swap data i j).length = data.length :=
  (swap_perm data i j).length_eq

theorem swap_comm (data : List α) (i j : Nat) : swap data i j = swap data j i := by
  unfold swap
  cases hi : data[i]? with
  | none => cases hj : data[j]? <;> rfl
  | some a =>
    cases hj : data[j]? with
    | none => rfl
    | some b =>
      by_cases h : i = j
      · subst h
        rw [hi] at hj
        cases hj
        rfl
      · exact List.set_comm a b data (fun e => h e.symm)

theorem bubbleUpLoop_perm (cmp : α → α → Priority) : ∀ (fuel : Nat) (data : List α)
    (pos : Nat), (bubbleUpLoop cmp fuel data pos).Perm data
  | 0, data, pos => List.Perm.refl _
  | fuel + 1, data, pos => by
    simp only [bubbleUpLoop]
    split
    · split
      · exact (bubbleUpLoop_perm cmp fuel _ _).trans (swap_perm _ _ _)
      · exact List.Perm.refl _
    · exact List.Perm.refl _

theorem bubbleDownLoop_perm (cmp : α → α → Priority) : ∀ (fuel : Nat) (data : List α)
    (pos : Nat), (bubbleDownLoop cmp fuel data pos).Perm data
  | 0, data, pos => List.Perm.refl _
  | fuel + 1, data, pos => by
    simp only [bubbleDownLoop]
    split
    · exact (bubbleDownLoop_perm cmp fuel _ _).trans (swap_perm _ _ _)
    · exact List.Perm.refl _

theorem queue_perm (cmp : α → α → Priority) (data : List α) (value : α) :
    (queue cmp data value).Perm (value :: data) := by
  unfold queue bubbleUp
  exact (bubbleUpLoop_perm cmp _ _ _).trans (List.perm_append_comm)

theorem dequeue_cons_fst (cmp : α → α → Priority) (a : α) (t : List α) :
    (dequeue cmp (a :: t)).1 = some a := by
  unfold dequeue
  simp only []
  split
  · split <;> simp
  · simp

theorem dequeue_cons_perm (cmp : α → α → Priority) (a : α) (t : List α) :
    (dequeue cmp (a :: t)).2.Perm t := by
  unfold dequeue
  rcases List.eq_nil_or_concat t with rfl | ⟨t0, l, rfl⟩
  · simp
  · rw [List.concat_eq_append]
    have h1 : (a :: (t0 ++ [l])).dropLast = a :: t0 := by
      rw [← List.cons_append, List.dropLast_concat]
    have h2 : (a :: (t0 ++ [l])).getLast? = some l := by
      rw [← List.cons_append, List.getLast?_concat]
    simp only [h1, h2, List.length_cons, Nat.zero_lt_succ, if_true, List.set_cons_zero, bubbleDown]
    exact (bubbleDownLoop_perm cmp _ _ _).trans (@List.perm_append_comm _ [l] t0)

end BinaryHeapStrategy
end JsEventHub

namespace JsEventHub
namespace BinaryHeapStrategy

variable {δ : Type}

theorem keyAt_eq_of_getElem? {data : List (PriorityEvent δ)} {i : Nat} {e : PriorityEvent δ}
    (h : data[i]? = some e) : keyAt data i = e.priority.value := by
  simp [keyAt, h]

theorem allFinite_of_perm {l₁ l₂ : List (PriorityEvent δ)} (h : l₁.Perm l₂)
    (hf : AllFinite l₂) : AllFinite l₁ :=
  fun e he => hf e (h.mem_iff.mp he)

theorem ltZero_sub_iff {p q : Priority} (hp : p.isFinite = true) (hq : q.isFinite = true) :
    (p.sub q).ltZero = true ↔ p.value < q.value := by
  cases p <;> cases q <;> simp_all [Priority.sub, Priority.ltZero, Priority.value,
    Priority.isFinite]

theorem less_comparator_iff {data : List (PriorityEvent δ)} (hf : AllFinite data) {i j : Nat}
    (hi : i < data.length) (hj : j < data.length) :
    less comparator data[i]? data[j]? = true ↔ keyAt data i < keyAt data j := by
  have h1 : data[i]? = some data[i] := List.getElem?_eq_getElem hi
  have h2 : data[j]? = some data[j] := List.getElem?_eq_getElem hj
  rw [keyAt_eq_of_getElem? h1, keyAt_eq_of_getElem? h2, h1, h2]
  simp only [less, comparator]
  exact ltZero_sub_iff (hf _ (List.getElem_mem hi)) (hf _ (List.getElem_mem hj))

theorem keyAt_swap {data : List (PriorityEvent δ)} {i j : Nat} (hi : i < data.length)
    (hj : j < data.length) (k : Nat) :
    keyAt (swap data i j) k =
      if k = i then keyAt data j else if k = j then keyAt data i else keyAt data k := by
  have h1 : data[i]? = some data[i] := List.getElem?_eq_getElem hi
  have h2 : data[j]? = some data[j] := List.getElem?_eq_getElem hj
  simp only [swap, h1, h2, keyAt, List.getElem?_set, List.length_set]
  by_cases hki : k = i
  · subst hki
    simp [hi, h2]
  · by_cases hkj : k = j
    · subst hkj
      simp [hki, Ne.symm hki, hj, h1]
    · simp [hki, hkj, Ne.symm hki, Ne.symm hkj]

end BinaryHeapStrategy
end JsEventHub

namespace JsEventHub
namespace BinaryHeapStrategy

variable {δ : Type}

theorem bubbleUpLoop_isHeap : ∀ (fuel : Nat) (data : List (PriorityEvent δ)) (pos : Nat),
    pos ≤ fuel → pos < data.length → AllFinite data →
    (∀ i p, 0 < i → i < data.length → i ≠ pos → p = (i - 1) / 2 →
      keyAt data p ≤ keyAt data i) →
    (∀ c g, 0 < c → c < data.length → (c - 1) / 2 = pos → 0 < pos → g = (pos - 1) / 2 →
      keyAt data g ≤ keyAt data c) →
    IsHeap (bubbleUpLoop comparator fuel data pos)
  | 0, data, pos, hfuel, _, _, h1, _ => by
    intro i hi0 hil
    exact h1 i _ hi0 hil (by omega) rfl
  | fuel + 1, data, pos, hfuel, hpos, hf, h1, h2 => by
    simp only [bubbleUpLoop, Nat.shiftRight_eq_div_pow, pow_one]
    by_cases hp : pos > 0
    · have hpar : (pos - 1) / 2 < data.length := by omega
      rw [if_pos hp]
      by_cases hless : less comparator data[pos]? data[(pos - 1) / 2]? = true
      · rw [if_pos hless]
        have hlt := (less_comparator_iff hf hpos hpar).mp hless
        refine bubbleUpLoop_isHeap fuel _ _ (by omega) (by rw [swap_length]; exact hpar)
          (allFinite_of_perm (swap_perm _ _ _) hf) ?_ ?_
        · intro i p hi0 hil hne hpi
          rw [swap_length] at hil
          rw [keyAt_swap hpos hpar, keyAt_swap hpos hpar]
          by_cases hA : (i - 1) / 2 = pos
          · have e1 : p = pos := by omega
            have e2 : i ≠ pos := by omega
            rw [if_pos e1, if_neg e2, if_neg hne]
            exact h2 i _ hi0 hil hA hp rfl
          · by_cases hB : (i - 1) / 2 = (pos - 1) / 2
            · have e1 : p ≠ pos := by omega
              have e2 : p = (pos - 1) / 2 := by omega
              rw [if_neg e1, if_pos e2]
              by_cases hC : i = pos
              · rw [if_pos hC]
                omega
              · rw [if_neg hC, if_neg hne]
                have := h1 i _ hi0 hil hC hB.symm
                omega
            · have e1 : p ≠ pos := by omega
              have e2 : p ≠ (pos - 1) / 2 := by omega
              have e3 : i ≠ pos := by
                intro h
                exact hB (by rw [h])
              rw [if_neg e1, if_neg e2, if_neg e3, if_neg hne]
              exact h1 i p hi0 hil e3 hpi
        · intro c g hc0 hcl hcp hpp hg
          rw [swap_length] at hcl
          rw [keyAt_swap hpos hpar, keyAt_swap hpos hpar]
          have e1 : g ≠ pos := by omega
          have e2 : g ≠ (pos - 1) / 2 := by omega
          have e3 : c ≠ (pos - 1) / 2 := by omega
          rw [if_neg e1, if_neg e2]
          have hP := h1 ((pos - 1) / 2) g hpp hpar (by omega) hg
          by_cases hC : c = pos
          · rw [if_pos hC]
            exact hP
          · rw [if_neg hC, if_neg e3]
            have := h1 c _ hc0 hcl hC hcp.symm
            omega
      · rw [if_neg hless]
        have hge : ¬ keyAt data pos < keyAt data ((pos - 1) / 2) :=
          fun h => hless ((less_comparator_iff hf hpos hpar).mpr h)
        intro i hi0 hil
        by_cases hC : i = pos
        · subst hC
          omega
        · exact h1 i _ hi0 hil hC rfl
    · rw [if_neg hp]
      intro i hi0 hil
      exact h1 i _ hi0 hil (by omega) rfl

theorem queue_isHeap (data : List (PriorityEvent δ)) (value : PriorityEvent δ)
    (hh : IsHeap data) (hf : AllFinite data) (hv : value.priority.isFinite = true) :
    IsHeap (queue comparator data value) := by
  unfold queue bubbleUp
  simp only [List.length_append, List.length_singleton, Nat.add_sub_cancel]
  have hk : ∀ i, i < data.length → keyAt (data ++ [value]) i = keyAt data i := by
    intro i hi
    simp [keyAt, List.getElem?_append_left hi]
  apply bubbleUpLoop_isHeap
  · exact Nat.le_refl _
  · simp
  · intro e he
    rcases List.mem_append.mp he with h | h
    · exact hf e h
    · simp at h
      subst h
      exact hv
  · intro i p hi0 hil hne hp
    simp at hil
    have hi : i < data.length := by omega
    rw [hk i hi, hk p (by omega), hp]
    exact hh i hi0 hi
  · intro c g hc0 hcl hcp _ _
    simp at hcl
    omega

end BinaryHeapStrategy
end JsEventHub

namespace JsEventHub
namespace BinaryHeapStrategy

variable {δ : Type}

theorem minIndex_spec {data : List (PriorityEvent δ)} (hf : AllFinite data) {pos : Nat}
    (hpos : pos < data.length) :
    (minIndex comparator data pos = pos ∧
      (2 * pos + 1 < data.length → keyAt data pos ≤ keyAt data (2 * pos + 1)) ∧
      (2 * pos + 2 < data.length → keyAt data pos ≤ keyAt data (2 * pos + 2))) ∨
    ((minIndex comparator data pos = 2 * pos + 1 ∨ minIndex comparator data pos = 2 * pos + 2) ∧
      minIndex comparator data pos < data.length ∧
      keyAt data (minIndex comparator data pos) < keyAt data pos ∧
      (2 * pos + 1 < data.length →
        keyAt data (minIndex comparator data pos) ≤ keyAt data (2 * pos + 1)) ∧
      (2 * pos + 2 < data.length →
        keyAt data (minIndex comparator data pos) ≤ keyAt data (2 * pos + 2))) := by
  have e1 : (pos <<< 1) + 1 = 2 * pos + 1 := by
    rw [Nat.shiftLeft_eq]; omega
  have e2 : 2 * pos + 1 + 1 = 2 * pos + 2 := by omega
  simp only [minIndex, e1, e2, Bool.and_eq_true, decide_eq_true_eq]
  by_cases hL : 2 * pos + 1 ≤ data.length - 1
  · have hL' : 2 * pos + 1 < data.length := by omega
    have iffL := less_comparator_iff hf hL' hpos
    by_cases hR : 2 * pos + 2 ≤ data.length - 1
    · have hR' : 2 * pos + 2 < data.length := by omega
      have iffRL := less_comparator_iff hf hR' hL'
      have iffRP := less_comparator_iff hf hR' hpos
      by_cases c1 : less comparator data[2 * pos + 1]? data[pos]? = true
      · have k1 := iffL.mp c1
        rw [if_pos (And.intro hL c1)]
        by_cases c2 : less comparator data[2 * pos + 2]? data[2 * pos + 1]? = true
        · have k2 := iffRL.mp c2
          rw [if_pos (And.intro hR c2)]
          right
          refine ⟨Or.inr rfl, hR', ?_, ?_, ?_⟩ <;> intros <;> omega
        · have k2 : ¬ _ := fun h => c2 (iffRL.mpr h)
          rw [if_neg (fun h => c2 h.2)]
          right
          refine ⟨Or.inl rfl, hL', ?_, ?_, ?_⟩ <;> intros <;> omega
      · have k1 : ¬ _ := fun h => c1 (iffL.mpr h)
        rw [if_neg (fun h => c1 (And.right h))]
        by_cases c2 : less comparator data[2 * pos + 2]? data[pos]? = true
        · have k2 := iffRP.mp c2
          rw [if_pos (And.intro hR c2)]
          right
          refine ⟨Or.inr rfl, hR', ?_, ?_, ?_⟩ <;> intros <;> omega
        · have k2 : ¬ _ := fun h => c2 (iffRP.mpr h)
          rw [if_neg (fun h => c2 h.2)]
          left
          refine ⟨rfl, ?_, ?_⟩ <;> intros <;> omega
    · by_cases c1 : less comparator data[2 * pos + 1]? data[pos]? = true
      · have k1 := iffL.mp c1
        rw [if_pos (And.intro hL c1), if_neg (fun h => hR h.1)]
        right
        refine ⟨Or.inl rfl, hL', ?_, ?_, ?_⟩ <;> intros <;> omega
      · have k1 : ¬ _ := fun h => c1 (iffL.mpr h)
        rw [if_neg (fun h => c1 (And.right h)), if_neg (fun h => hR h.1)]
        left
        refine ⟨rfl, ?_, ?_⟩ <;> intros <;> omega
  · rw [if_neg (fun h => hL (And.left h)), if_neg (fun h => hL (by have := h.1; omega))]
    left
    refine ⟨rfl, ?_, ?_⟩ <;> intros <;> omega

theorem bubbleDownLoop_isHeap : ∀ (fuel : Nat) (data : List (PriorityEvent δ)) (pos : Nat),
    data.length ≤ fuel + pos → pos < data.length → AllFinite data →
    (∀ i p, 0 < i → i < data.length → p = (i - 1) / 2 → p ≠ pos →
      keyAt data p ≤ keyAt data i) →
    (∀ c g, 0 < c → c < data.length → (c - 1) / 2 = pos → 0 < pos → g = (pos - 1) / 2 →
      keyAt data g ≤ keyAt data c) →
    IsHeap (bubbleDownLoop comparator fuel data pos)
  | 0, data, pos, hfuel, hpos, _, _, _ => by omega
  | fuel + 1, data, pos, hfuel, hpos, hf, h1, h2 => by
    simp only [bubbleDownLoop]
    rcases minIndex_spec hf hpos with ⟨hm, hl, hr⟩ | ⟨hm, hml, hlt, hl, hr⟩
    · rw [if_neg (by simp [hm])]
      intro i hi0 hil
      by_cases hA : (i - 1) / 2 = pos
      · rw [hA]
        have : i = 2 * pos + 1 ∨ i = 2 * pos + 2 := by omega
        rcases this with h | h
        · rw [h]; exact hl (by omega)
        · rw [h]; exact hr (by omega)
      · exact h1 i _ hi0 hil rfl hA
    · generalize minIndex comparator data pos = m at hm hml hlt hl hr
      have hmp : m ≠ pos := by omega
      rw [if_pos hmp, swap_comm data pos m]
      refine bubbleDownLoop_isHeap fuel _ _ (by rw [swap_length]; omega)
        (by rw [swap_length]; exact hml) (allFinite_of_perm (swap_perm _ _ _) hf) ?_ ?_
      · intro i p hi0 hil hpi hne
        rw [swap_length] at hil
        rw [keyAt_swap hml hpos, keyAt_swap hml hpos]
        by_cases hA : p = pos
        · have e1 : p ≠ m := by omega
          have e2 : i ≠ pos := by omega
          rw [if_neg e1, if_pos hA, if_neg e2]
          have : i = 2 * pos + 1 ∨ i = 2 * pos + 2 := by omega
          by_cases hC : i = m
          · rw [if_pos hC]; omega
          · rw [if_neg hC]
            rcases this with h | h
            · rw [h]; exact hl (by omega)
            · rw [h]; exact hr (by omega)
        · rw [if_neg hne, if_neg hA]
          have e1 : i ≠ m := by omega
          rw [if_neg e1]
          by_cases hC : i = pos
          · rw [if_pos hC]
            exact h2 m p (by omega) hml (by omega) (by omega) (by omega)
          · rw [if_neg hC]
            exact h1 i p hi0 hil hpi hA
      · intro c g hc0 hcl hcm hm0 hg
        rw [swap_length] at hcl
        rw [keyAt_swap hml hpos, keyAt_swap hml hpos]
        have e1 : g ≠ m := by omega
        have e2 : g = pos := by omega
        have e3 : c ≠ m := by omega
        have e4 : c ≠ pos := by omega
        rw [if_neg e1, if_pos e2, if_neg e3, if_neg e4]
        exact h1 c m hc0 hcl hcm.symm hmp

theorem isHeap_root_le {data : List (PriorityEvent δ)} (hh : IsHeap data) :
    ∀ i, i < data.length → keyAt data 0 ≤ keyAt data i := by
  intro i
  induction i using Nat.strong_induction_on with
  | _ i ih =>
    intro hi
    by_cases h0 : i = 0
    · subst h0; exact le_refl _
    · have h1 := ih ((i - 1) / 2) (by omega) (by omega)
      have h2 := hh i (by omega) hi
      omega

end BinaryHeapStrategy
end JsEventHub

namespace JsEventHub
namespace BinaryHeapStrategy

variable {δ : Type}

theorem value_le_of_isHeap {a : PriorityEvent δ} {t : List (PriorityEvent δ)}
    (hh : IsHeap (a :: t)) : ∀ x ∈ a :: t, a.priority.value ≤ x.priority.value := by
  intro x hx
  obtain ⟨i, hi, rfl⟩ := List.getElem_of_mem hx
  have h := isHeap_root_le hh i hi
  rw [keyAt_eq_of_getElem? (List.getElem?_eq_getElem hi)] at h
  simpa [keyAt] using h

theorem dequeue_cons_isHeap (a : PriorityEvent δ) (t : List (PriorityEvent δ))
    (hh : IsHeap (a :: t)) (hf : AllFinite (a :: t)) :
    IsHeap (dequeue comparator (a :: t)).2 := by
  unfold dequeue
  rcases List.eq_nil_or_concat t with rfl | ⟨t0, l, rfl⟩
  · intro i hi0 hil
    simp at hil
  · rw [List.concat_eq_append] at hh hf ⊢
    have h1 : (a :: (t0 ++ [l])).dropLast = a :: t0 := by
      rw [← List.cons_append, List.dropLast_concat]
    have h2 : (a :: (t0 ++ [l])).getLast? = some l := by
      rw [← List.cons_append, List.getLast?_concat]
    simp only [h1, h2, List.length_cons, Nat.zero_lt_succ, if_true, List.set_cons_zero,
      bubbleDown]
    have hk : ∀ k, 0 < k → k < t0.length + 1 →
        keyAt (l :: t0) k = keyAt (a :: (t0 ++ [l])) k := by
      intro k hk0 hkl
      obtain ⟨k, rfl⟩ : ∃ j, k = j + 1 := ⟨k - 1, by omega⟩
      simp only [keyAt, List.getElem?_cons_succ]
      rw [List.getElem?_append_left (by omega)]
    apply bubbleDownLoop_isHeap
    · simp
    · simp
    · intro e he
      apply hf
      rcases List.mem_cons.mp he with h | h
      · subst h; simp
      · simp [h]
    · intro i p hi0 hil hp hp0
      simp only [List.length_cons] at hil
      rw [hk i hi0 hil, hk p (by omega) (by omega), hp]
      exact hh i hi0 (by simp; omega)
    · intro c g _ _ _ h0
      omega

theorem dequeue_cons_allFinite (a : PriorityEvent δ) (t : List (PriorityEvent δ))
    (hf : AllFinite (a :: t)) : AllFinite (dequeue comparator (a :: t)).2 :=
  allFinite_of_perm (dequeue_cons_perm comparator a t) (fun e he => hf e (by simp [he]))

theorem queue_allFinite (data : List (PriorityEvent δ)) (value : PriorityEvent δ)
    (hf : AllFinite data) (hv : value.priority.isFinite = true) :
    AllFinite (queue comparator data value) :=
  allFinite_of_perm (queue_perm comparator data value) (by
    intro e he
    rcases List.mem_cons.mp he with h | h
    · subst h; exact hv
    · exact hf e h)

theorem queue_length (cmp : α → α → Priority) (data : List α) (value : α) :
    (queue cmp data value).length = data.length + 1 := by
  simpa using (queue_perm cmp data value).length_eq

end BinaryHeapStrategy
end JsEventHub

namespace JsEventHub
namespace BinaryHeapStrategy

variable {α : Type}

theorem bubbleUpLoop_fuel (cmp : α → α → Priority) : ∀ (fuel : Nat) (data : List α)
    (pos : Nat), pos ≤ fuel →
    bubbleUpLoop cmp (fuel + 1) data pos = bubbleUpLoop cmp fuel data pos
  | 0, data, pos, h => by
    have : pos = 0 := by omega
    subst this
    simp [bubbleUpLoop]
  | fuel + 1, data, pos, h => by
    conv_lhs => rw [bubbleUpLoop]
    conv_rhs => rw [bubbleUpLoop]
    dsimp only
    split
    · split
      · apply bubbleUpLoop_fuel cmp fuel
        rw [Nat.shiftRight_eq_div_pow]
        omega
      · rfl
    · rfl

theorem minIndex_cases (cmp : α → α → Priority) (data : List α) (pos : Nat) :
    minIndex cmp data pos = pos ∨
      (pos < minIndex cmp data pos ∧ minIndex cmp data pos < data.length) := by
  have e1 : (pos <<< 1) + 1 = 2 * pos + 1 := by
    rw [Nat.shiftLeft_eq]; omega
  simp only [minIndex, e1, Bool.and_eq_true, decide_eq_true_eq]
  by_cases c1 : 2 * pos + 1 ≤ data.length - 1 ∧ less cmp data[2 * pos + 1]? data[pos]? = true
  · simp only [if_pos c1]
    split
    · next h => right; omega
    · right; omega
  · simp only [if_neg c1]
    split
    · next h => right; omega
    · left; rfl

theorem bubbleDownLoop_fuel (cmp : α → α → Priority) : ∀ (fuel : Nat) (data : List α)
    (pos : Nat), data.length ≤ fuel + pos →
    bubbleDownLoop cmp (fuel + 1) data pos = bubbleDownLoop cmp fuel data pos
  | 0, data, pos, h => by
    rcases minIndex_cases cmp data pos with hm | hm
    · simp [bubbleDownLoop, hm]
    · omega
  | fuel + 1, data, pos, h => by
    conv_lhs => rw [bubbleDownLoop]
    conv_rhs => rw [bubbleDownLoop]
    rcases minIndex_cases cmp data pos with hm | hm
    · simp [hm]
    · split
      · apply bubbleDownLoop_fuel cmp fuel
        rw [swap_length]
        omega
      · rfl

/-- More iterations than `pos` change nothing in `_bubbleUp`. -/
theorem bubbleUpLoop_enough (cmp : α → α → Priority) (data : List α) (pos : Nat) :
    ∀ k, bubbleUpLoop cmp (pos + k) data pos = bubbleUp cmp data pos
  | 0 => rfl
  | k + 1 => by
    rw [← Nat.add_assoc, bubbleUpLoop_fuel cmp (pos + k) data pos (Nat.le_add_right _ _)]
    exact bubbleUpLoop_enough cmp data pos k

/-- More iterations than `data.length` change nothing in `_bubbleDown`. -/
theorem bubbleDownLoop_enough (cmp : α → α → Priority) (data : List α) (pos : Nat) :
    ∀ k, bubbleDownLoop cmp (data.length + k) data pos = bubbleDown cmp data pos
  | 0 => rfl
  | k + 1 => by
    rw [← Nat.add_assoc, bubbleDownLoop_fuel cmp (data.length + k) data pos (by omega)]
    exact bubbleDownLoop_enough cmp data pos k

end BinaryHeapStrategy
end JsEventHub


namespace JsEventHub

variable {δ : Type}

/-! ## Sequencing -/

theorem Outcome.andThen_of_normal {r : Outcome δ} (k : HubEventEmitter δ → Outcome δ)
    (h : r.completion = Completion.normal) :
    r.andThen k = ⟨(k r.hub).hub, r.trace ++ (k r.hub).trace, (k r.hub).completion⟩ := by
  simp [Outcome.andThen, h]

theorem Outcome.andThen_of_not_normal {r : Outcome δ} (k : HubEventEmitter δ → Outcome δ)
    (h : r.completion ≠ Completion.normal) : r.andThen k = r := by
  unfold Outcome.andThen
  split
  · next h' => exact absurd h' h
  · rfl

theorem Outcome.mk_andThen (h : HubEventEmitter δ) (tr : List (Obs δ))
    (k : HubEventEmitter δ → Outcome δ) :
    (Outcome.mk h tr Completion.normal).andThen k =
      ⟨(k h).hub, tr ++ (k h).trace, (k h).completion⟩ := by
  simp [Outcome.andThen]

/-- A property of hubs that holds after the first part and is kept by the second holds
after the sequence. -/
theorem Outcome.andThen_hub_inv (P : HubEventEmitter δ → Prop) {r : Outcome δ}
    {k : HubEventEmitter δ → Outcome δ} (h1 : P r.hub) (h2 : ∀ h, P h → P (k h).hub) :
    P (r.andThen k).hub := by
  by_cases hc : r.completion = Completion.normal
  · rw [Outcome.andThen_of_normal k hc]
    exact h2 _ h1
  · rw [Outcome.andThen_of_not_normal k hc]
    exact h1

/-- A property of observations that holds of both parts holds of the sequence. -/
theorem Outcome.andThen_trace_all (Q : Obs δ → Prop) {r : Outcome δ}
    {k : HubEventEmitter δ → Outcome δ} (h1 : ∀ o ∈ r.trace, Q o)
    (h2 : ∀ h, ∀ o ∈ (k h).trace, Q o) : ∀ o ∈ (r.andThen k).trace, Q o := by
  by_cases hc : r.completion = Completion.normal
  · rw [Outcome.andThen_of_normal k hc]
    intro o ho
    rcases List.mem_append.mp ho with h | h
    · exact h1 o h
    · exact h2 _ o h
  · rw [Outcome.andThen_of_not_normal k hc]
    exact h1

/-- The same, when the second part is only known to behave on hubs with a property the
first part establishes. -/
theorem Outcome.andThen_trace_inv (P : HubEventEmitter δ → Prop) (Q : Obs δ → Prop)
    {r : Outcome δ} {k : HubEventEmitter δ → Outcome δ} (h0 : P r.hub)
    (h1 : ∀ o ∈ r.trace, Q o) (h2 : ∀ h, P h → ∀ o ∈ (k h).trace, Q o) :
    ∀ o ∈ (r.andThen k).trace, Q o := by
  by_cases hc : r.completion = Completion.normal
  · rw [Outcome.andThen_of_normal k hc]
    intro o ho
    rcases List.mem_append.mp ho with h | h
    · exact h1 o h
    · exact h2 _ h0 o h
  · rw [Outcome.andThen_of_not_normal k hc]
    exact h1

/-- A sequence never runs out of fuel when neither part does. -/
theorem Outcome.andThen_completion_ne {c : Completion} {r : Outcome δ}
    {k : HubEventEmitter δ → Outcome δ} (h1 : r.completion ≠ c) (h2 : ∀ h, (k h).completion ≠ c) :
    (r.andThen k).completion ≠ c := by
  by_cases hc : r.completion = Completion.normal
  · rw [Outcome.andThen_of_normal k hc]
    exact h2 _
  · rw [Outcome.andThen_of_not_normal k hc]
    exact h1

/-! ## Traces -/

theorem dispatched_append (t1 t2 : List (Obs δ)) :
    dispatched (t1 ++ t2) = dispatched t1 ++ dispatched t2 := by
  induction t1 with
  | nil => rfl
  | cons o t ih => cases o <;> simp [dispatched, ih]

theorem delivered_append (ch : Nat) (t1 t2 : List (Obs δ)) :
    delivered ch (t1 ++ t2) = delivered ch t1 ++ delivered ch t2 := by
  induction t1 with
  | nil => rfl
  | cons o t ih =>
    cases o <;> simp [delivered, ih]
    split <;> simp

theorem handled_append (t1 t2 : List (Obs δ)) :
    handled (t1 ++ t2) = handled t1 ++ handled t2 := by
  induction t1 with
  | nil => rfl
  | cons o t ih => cases o <;> simp [handled, ih]

theorem dispatched_eq_nil {tr : List (Obs δ)} (h : ∀ o ∈ tr, Obs.notDequeued o) :
    dispatched tr = [] := by
  induction tr with
  | nil => rfl
  | cons o t ih =>
    have h1 := h o (by simp)
    have h2 := ih (fun o ho => h o (by simp [ho]))
    cases o <;> simp_all [dispatched, Obs.notDequeued]

end JsEventHub


namespace JsEventHub
namespace HubEventEmitter

variable {δ : Type}

/-! ## What the operations leave alone -/

theorem log_hub (h : HubEventEmitter δ) (line : Obs δ) : (h.log line).hub = h := by
  unfold log
  split
  · split <;> rfl
  · rfl

theorem log_trace_notDequeued (h : HubEventEmitter δ) (line : Obs δ)
    (hl : Obs.notDequeued line) : ∀ o ∈ (h.log line).trace, Obs.notDequeued o := by
  unfold log
  split
  · split <;> simp [hl]
  · simp

theorem log_completion_ne_outOfFuel (h : HubEventEmitter δ) (line : Obs δ) :
    (h.log line).completion ≠ Completion.outOfFuel := by
  unfold log
  split
  · split <;> simp
  · simp

theorem log_normal {h : HubEventEmitter δ} (hl : LoggerOK h) (line : Obs δ) :
    (h.log line).completion = Completion.normal := by
  unfold log
  split
  · next hlog =>
    split
    · rfl
    · next hnone => exact absurd hnone (hl hlog)
  · rfl

theorem onEvent_events (h : HubEventEmitter δ) (event : String) (handler : Nat) :
    (h.onEvent event handler).hub.events = h.events := by
  unfold onEvent
  split <;> rfl

theorem onEvent_trace (h : HubEventEmitter δ) (event : String) (handler : Nat) :
    (h.onEvent event handler).trace = [] := by
  unfold onEvent
  split <;> rfl

theorem onEvent_completion_ne_outOfFuel (h : HubEventEmitter δ) (event : String)
    (handler : Nat) : (h.onEvent event handler).completion ≠ Completion.outOfFuel := by
  unfold onEvent
  split <;> simp

theorem emitWithContext_trace_notDequeued (h : HubEventEmitter δ) (ctx : Context)
    (event : String) (data : δ) (priority : Priority) :
    ∀ o ∈ (h.emitWithContext ctx event data priority).trace, Obs.notDequeued o := by
  unfold emitWithContext
  apply Outcome.andThen_trace_all
  · exact log_trace_notDequeued h _ trivial
  · simp

theorem emitWithContext_completion_ne_outOfFuel (h : HubEventEmitter δ) (ctx : Context)
    (event : String) (data : δ) (priority : Priority) :
    (h.emitWithContext ctx event data priority).completion ≠ Completion.outOfFuel := by
  unfold emitWithContext
  apply Outcome.andThen_completion_ne
  · exact log_completion_ne_outOfFuel h _
  · simp

theorem call_events (h : HubEventEmitter δ) (c : HubCall δ) (hc : HubCall.isEnqueue c = false) :
    (h.call c).hub.events = h.events := by
  cases c <;> simp [call, setLogging, HubEventEmitter.on, off, close, onEvent_events,
    HubCall.isEnqueue] at hc ⊢

theorem call_trace_notDequeued (h : HubEventEmitter δ) (c : HubCall δ) :
    ∀ o ∈ (h.call c).trace, Obs.notDequeued o := by
  cases c <;> simp [call, onEvent_trace]
  exact emitWithContext_trace_notDequeued h _ _ _ _

theorem call_completion_ne_outOfFuel (h : HubEventEmitter δ) (c : HubCall δ) :
    (h.call c).completion ≠ Completion.outOfFuel := by
  cases c <;> simp [call, onEvent_completion_ne_outOfFuel,
    emitWithContext_completion_ne_outOfFuel]

theorem calls_events : ∀ (cs : List (HubCall δ)) (h : HubEventEmitter δ) (q : PriorityQueue (PriorityEvent δ)),
    (∀ c ∈ cs, HubCall.isEnqueue c = false) → h.events = q → (h.calls cs).hub.events = q
  | [], h, q, _, hq => hq
  | c :: cs, h, q, hcs, hq => by
    simp only [calls]
    apply Outcome.andThen_hub_inv (fun h => h.events = q)
    · rw [call_events h c (hcs c (by simp))]; exact hq
    · intro h' hq'
      exact calls_events cs h' q (fun c hc => hcs c (by simp [hc])) hq'

theorem calls_trace_notDequeued : ∀ (cs : List (HubCall δ)) (h : HubEventEmitter δ),
    ∀ o ∈ (h.calls cs).trace, Obs.notDequeued o
  | [], h => by simp [calls]
  | c :: cs, h => by
    simp only [calls]
    apply Outcome.andThen_trace_all
    · exact call_trace_notDequeued h c
    · intro h'
      exact calls_trace_notDequeued cs h'

theorem calls_completion_ne_outOfFuel : ∀ (cs : List (HubCall δ)) (h : HubEventEmitter δ),
    (h.calls cs).completion ≠ Completion.outOfFuel
  | [], h => by simp [calls]
  | c :: cs, h => by
    simp only [calls]
    apply Outcome.andThen_completion_ne
    · exact call_completion_ne_outOfFuel h c
    · intro h'
      exact calls_completion_ne_outOfFuel cs h'

theorem invoke_events {env : Handlers δ} (hne : NoEnqueue env) (h : HubEventEmitter δ)
    (handler : Nat) (data : δ) (q : PriorityQueue (PriorityEvent δ)) (hq : h.events = q) :
    (h.invoke env handler data).hub.events = q := by
  unfold invoke
  apply Outcome.andThen_hub_inv (fun h => h.events = q) hq
  intro h1 hq1
  apply Outcome.andThen_hub_inv (fun h => h.events = q)
  · exact calls_events _ h1 q (hne handler data) hq1
  · intro h2 hq2
    split <;> exact hq2

theorem invoke_trace_notDequeued (env : Handlers δ) (h : HubEventEmitter δ)
    (handler : Nat) (data : δ) :
    ∀ o ∈ (h.invoke env handler data).trace, Obs.notDequeued o := by
  unfold invoke
  apply Outcome.andThen_trace_all
  · simp [Obs.notDequeued]
  · intro h1
    apply Outcome.andThen_trace_all
    · exact calls_trace_notDequeued _ h1
    · intro h2
      split <;> simp

theorem invoke_completion_ne_outOfFuel (env : Handlers δ) (h : HubEventEmitter δ)
    (handler : Nat) (data : δ) :
    (h.invoke env handler data).completion ≠ Completion.outOfFuel := by
  unfold invoke
  apply Outcome.andThen_completion_ne
  · simp
  · intro h1
    apply Outcome.andThen_completion_ne
    · exact calls_completion_ne_outOfFuel _ h1
    · intro h2
      split <;> simp

theorem forEachHandler_events {env : Handlers δ} (hne : NoEnqueue env) (data : δ)
    (q : PriorityQueue (PriorityEvent δ)) : ∀ (hs : List Nat) (h : HubEventEmitter δ),
    h.events = q → (forEachHandler env data hs h).hub.events = q
  | [], h, hq => hq
  | handler :: rest, h, hq => by
    simp only [forEachHandler]
    apply Outcome.andThen_hub_inv (fun h => h.events = q)
    · exact invoke_events hne h handler data q hq
    · intro h1 hq1
      exact forEachHandler_events hne data q rest h1 hq1

theorem forEachHandler_trace_notDequeued (env : Handlers δ) (data : δ) :
    ∀ (hs : List Nat) (h : HubEventEmitter δ),
    ∀ o ∈ (forEachHandler env data hs h).trace, Obs.notDequeued o
  | [], h => by simp [forEachHandler]
  | handler :: rest, h => by
    simp only [forEachHandler]
    apply Outcome.andThen_trace_all
    · exact invoke_trace_notDequeued env h handler data
    · intro h1
      exact forEachHandler_trace_notDequeued env data rest h1

theorem forEachHandler_completion_ne_outOfFuel (env : Handlers δ) (data : δ) :
    ∀ (hs : List Nat) (h : HubEventEmitter δ),
    (forEachHandler env data hs h).completion ≠ Completion.outOfFuel
  | [], h => by simp [forEachHandler]
  | handler :: rest, h => by
    simp only [forEachHandler]
    apply Outcome.andThen_completion_ne
    · exact invoke_completion_ne_outOfFuel env h handler data
    · intro h1
      exact forEachHandler_completion_ne_outOfFuel env data rest h1

theorem dispatch_events {env : Handlers δ} (hne : NoEnqueue env) (h : HubEventEmitter δ)
    (event : String) (data : δ) (q : PriorityQueue (PriorityEvent δ)) (hq : h.events = q) :
    (h.dispatch env event data).hub.events = q := by
  unfold dispatch
  split
  · exact hq
  · exact forEachHandler_events hne data q _ h hq
  · exact hq

theorem dispatch_trace_notDequeued (env : Handlers δ) (h : HubEventEmitter δ)
    (event : String) (data : δ) :
    ∀ o ∈ (h.dispatch env event data).trace, Obs.notDequeued o := by
  unfold dispatch
  split
  · simp
  · exact forEachHandler_trace_notDequeued env data _ h
  · simp

theorem dispatch_completion_ne_outOfFuel (env : Handlers δ) (h : HubEventEmitter δ)
    (event : String) (data : δ) :
    (h.dispatch env event data).completion ≠ Completion.outOfFuel := by
  unfold dispatch
  split
  · simp
  · exact forEachHandler_completion_ne_outOfFuel env data _ h
  · simp

theorem emit_trace_notDequeued (em : EventEmitter δ) (event : String) (data : δ) :
    ∀ o ∈ (em.emit event data).1, Obs.notDequeued o := by
  unfold EventEmitter.emit
  split
  · simp
  · intro o ho
    simp only [List.mem_flatMap] at ho
    obtain ⟨l, _, hl⟩ := ho
    unfold Listener.call at hl
    split at hl
    · simp at hl; subst hl; trivial
    · simp at hl

theorem emit_completion_ne_outOfFuel (em : EventEmitter δ) (event : String) (data : δ) :
    (em.emit event data).2 ≠ Completion.outOfFuel := by
  unfold EventEmitter.emit
  split <;> simp

theorem deliver_events {env : Handlers δ} (hne : NoEnqueue env) (h : HubEventEmitter δ)
    (e : PriorityEvent δ) (q : PriorityQueue (PriorityEvent δ)) (hq : h.events = q) :
    (h.deliver env e).hub.events = q := by
  unfold deliver
  apply Outcome.andThen_hub_inv (fun h => h.events = q)
  · rw [log_hub]; exact hq
  · intro h1 hq1
    apply Outcome.andThen_hub_inv (fun h => h.events = q) hq1
    intro h2 hq2
    exact dispatch_events hne h2 _ _ q hq2

theorem deliver_trace_notDequeued (env : Handlers δ) (h : HubEventEmitter δ)
    (e : PriorityEvent δ) : ∀ o ∈ (h.deliver env e).trace, Obs.notDequeued o := by
  unfold deliver
  apply Outcome.andThen_trace_all
  · exact log_trace_notDequeued h _ trivial
  · intro h1
    apply Outcome.andThen_trace_all
    · exact emit_trace_notDequeued _ _ _
    · intro h2
      exact dispatch_trace_notDequeued env h2 _ _

theorem deliver_completion_ne_outOfFuel (env : Handlers δ) (h : HubEventEmitter δ)
    (e : PriorityEvent δ) : (h.deliver env e).completion ≠ Completion.outOfFuel := by
  unfold deliver
  apply Outcome.andThen_completion_ne
  · exact log_completion_ne_outOfFuel h _
  · intro h1
    apply Outcome.andThen_completion_ne
    · exact emit_completion_ne_outOfFuel _ _ _
    · intro h2
      exact dispatch_completion_ne_outOfFuel env h2 _ _

end HubEventEmitter
end JsEventHub

namespace JsEventHub
namespace HubEventEmitter

variable {δ : Type}

/-! ## The drain loop -/

theorem processLoop_of_empty (env : Handlers δ) (fuel : Nat) (h : HubEventEmitter δ)
    (h0 : h.events.length = 0) : processLoop env fuel h = ⟨h, [], Completion.normal⟩ := by
  cases fuel <;> simp [processLoop, h0]

theorem processLoop_step (env : Handlers δ) (fuel : Nat) (h : HubEventEmitter δ)
    (a : PriorityEvent δ) (t : List (PriorityEvent δ)) (hl : LengthOK h)
    (hd : h.events.data = a :: t) :
    processLoop env (fuel + 1) h =
      ((Outcome.mk (h.afterDequeue a t) [Obs.dequeued a] Completion.normal).andThen
        fun h => h.deliver env a).andThen fun h => processLoop env fuel h := by
  have hlen : h.events.length = t.length + 1 := by
    rw [hl, hd]; rfl
  have hfst := BinaryHeapStrategy.dequeue_cons_fst comparator a t
  rw [processLoop]
  simp only [hlen, Nat.zero_lt_succ, if_true, PriorityQueue.dequeue, Nat.succ_ne_zero,
    if_false, hd]
  rw [hfst]
  simp [afterDequeue, hlen, hd]

theorem processLoop_step_normal (env : Handlers δ) (fuel : Nat) (h : HubEventEmitter δ)
    (a : PriorityEvent δ) (t : List (PriorityEvent δ)) (hl : LengthOK h)
    (hd : h.events.data = a :: t)
    (hc : ((h.afterDequeue a t).deliver env a).completion = Completion.normal) :
    processLoop env (fuel + 1) h =
      ⟨(processLoop env fuel ((h.afterDequeue a t).deliver env a).hub).hub,
        Obs.dequeued a :: (((h.afterDequeue a t).deliver env a).trace ++
          (processLoop env fuel ((h.afterDequeue a t).deliver env a).hub).trace),
        (processLoop env fuel ((h.afterDequeue a t).deliver env a).hub).completion⟩ := by
  rw [processLoop_step env fuel h a t hl hd, Outcome.mk_andThen]
  simp [Outcome.andThen, hc]

theorem processLoop_step_abort (env : Handlers δ) (fuel : Nat) (h : HubEventEmitter δ)
    (a : PriorityEvent δ) (t : List (PriorityEvent δ)) (hl : LengthOK h)
    (hd : h.events.data = a :: t)
    (hc : ((h.afterDequeue a t).deliver env a).completion ≠ Completion.normal) :
    processLoop env (fuel + 1) h =
      ⟨((h.afterDequeue a t).deliver env a).hub,
        Obs.dequeued a :: ((h.afterDequeue a t).deliver env a).trace,
        ((h.afterDequeue a t).deliver env a).completion⟩ := by
  rw [processLoop_step env fuel h a t hl hd, Outcome.mk_andThen]
  unfold Outcome.andThen
  split
  · next h' => exact absurd h' hc
  · simp

theorem afterDequeue_lengthOK (h : HubEventEmitter δ) (a : PriorityEvent δ)
    (t : List (PriorityEvent δ)) (hl : LengthOK h) (hd : h.events.data = a :: t) :
    LengthOK (h.afterDequeue a t) := by
  have hp := (BinaryHeapStrategy.dequeue_cons_perm comparator a t).length_eq
  simp only [LengthOK, afterDequeue, hp]
  rw [hl, hd]
  rfl

/-- The conservation law of the drain: every entry of the queue is either dequeued once
or still in the queue; after a normal return the queue is empty; and the iteration bound
is not reached when it is at least the length of the queue. -/
theorem processLoop_conserve {env : Handlers δ} (hne : NoEnqueue env) :
    ∀ (fuel : Nat) (h : HubEventEmitter δ), LengthOK h →
      (h.events.data.length ≤ fuel →
        (processLoop env fuel h).completion ≠ Completion.outOfFuel) ∧
      LengthOK (processLoop env fuel h).hub ∧
      h.events.data.Perm
        (dispatched (processLoop env fuel h).trace ++ (processLoop env fuel h).hub.events.data) ∧
      ((processLoop env fuel h).completion = Completion.normal →
        (processLoop env fuel h).hub.events.data = [])
  | 0, h, hl => by
    by_cases h1 : h.events.length = 0
    · have h0 : h.events.data = [] := List.length_eq_zero.mp (by rw [← hl]; exact h1)
      rw [processLoop_of_empty env 0 h h1]
      simp [hl, h0, dispatched]
    · have h2 : h.events.length > 0 := by omega
      simp only [processLoop, h2, if_true, dispatched, List.nil_append]
      refine ⟨fun hf => ?_, hl, List.Perm.refl _, fun hn => by cases hn⟩
      rw [hl] at h2
      omega
  | fuel + 1, h, hl => by
    cases hd : h.events.data with
    | nil =>
      have h1 : h.events.length = 0 := by rw [hl, hd]; rfl
      rw [processLoop_of_empty env _ h h1]
      simp [hl, hd, dispatched]
    | cons a t =>
      have hev : (afterDequeue h a t |>.deliver env a).hub.events = (h.afterDequeue a t).events :=
        deliver_events hne _ a _ rfl
      have hl1 : LengthOK (afterDequeue h a t |>.deliver env a).hub := by
        have := afterDequeue_lengthOK h a t hl hd
        simp only [LengthOK, hev] at this ⊢
        exact this
      have hperm := BinaryHeapStrategy.dequeue_cons_perm comparator a t
      have hdata : (afterDequeue h a t |>.deliver env a).hub.events.data =
          (BinaryHeapStrategy.dequeue comparator (a :: t)).2 := by
        rw [hev]; rfl
      have hnd := dispatched_eq_nil (deliver_trace_notDequeued env (h.afterDequeue a t) a)
      by_cases hc : (afterDequeue h a t |>.deliver env a).completion = Completion.normal
      · have ih := processLoop_conserve hne fuel _ hl1
        rw [processLoop_step_normal env fuel h a t hl hd hc]
        simp only [List.cons_append, List.nil_append, dispatched, dispatched_append, hnd]
        refine ⟨fun hf => ih.1 ?_, ih.2.1, ?_, ih.2.2.2⟩
        · rw [hdata, hperm.length_eq]
          simpa using hf
        · refine List.Perm.cons a ?_
          rw [hdata] at ih
          exact hperm.symm.trans ih.2.2.1
      · rw [processLoop_step_abort env fuel h a t hl hd hc]
        simp only [List.cons_append, List.nil_append, dispatched, hnd]
        refine ⟨fun _ => deliver_completion_ne_outOfFuel env _ a, hl1, ?_,
          fun h => absurd h hc⟩
        rw [hdata]
        exact List.Perm.cons a hperm.symm

/-- When no handler enqueues, one more iteration than the length of the queue changes
nothing in the drain. -/
theorem processLoop_fuel {env : Handlers δ} (hne : NoEnqueue env) :
    ∀ (fuel : Nat) (h : HubEventEmitter δ), LengthOK h → h.events.data.length ≤ fuel →
      processLoop env (fuel + 1) h = processLoop env fuel h
  | 0, h, hl, hf => by
    have h0 : h.events.data = [] := List.length_eq_zero.mp (by omega)
    have h1 : h.events.length = 0 := by rw [hl, h0]; rfl
    rw [processLoop_of_empty env _ h h1, processLoop_of_empty env _ h h1]
  | fuel + 1, h, hl, hf => by
    cases hd : h.events.data with
    | nil =>
      have h1 : h.events.length = 0 := by rw [hl, hd]; rfl
      rw [processLoop_of_empty env _ h h1, processLoop_of_empty env _ h h1]
    | cons a t =>
      have hev : (afterDequeue h a t |>.deliver env a).hub.events = (h.afterDequeue a t).events :=
        deliver_events hne _ a _ rfl
      have hl1 : LengthOK (afterDequeue h a t |>.deliver env a).hub := by
        have := afterDequeue_lengthOK h a t hl hd
        simp only [LengthOK, hev] at this ⊢
        exact this
      have hperm := BinaryHeapStrategy.dequeue_cons_perm comparator a t
      have hdata : (afterDequeue h a t |>.deliver env a).hub.events.data =
          (BinaryHeapStrategy.dequeue comparator (a :: t)).2 := by
        rw [hev]; rfl
      by_cases hc : (afterDequeue h a t |>.deliver env a).completion = Completion.normal
      · rw [processLoop_step_normal env (fuel + 1) h a t hl hd hc,
          processLoop_step_normal env fuel h a t hl hd hc,
          processLoop_fuel hne fuel _ hl1 (by
            rw [hdata, hperm.length_eq]
            rw [hd] at hf
            simpa using hf)]
      · rw [processLoop_step_abort env (fuel + 1) h a t hl hd hc,
          processLoop_step_abort env fuel h a t hl hd hc]

/-- When no handler enqueues, the result of a drain is the same for every bound that is
at least the length of the queue. -/
theorem processLoop_enough {env : Handlers δ} (hne : NoEnqueue env) (h : HubEventEmitter δ)
    (hl : LengthOK h) :
    ∀ k, processLoop env (h.events.data.length + k) h =
      processLoop env h.events.data.length h
  | 0 => rfl
  | k + 1 => by
    rw [← Nat.add_assoc, processLoop_fuel hne _ h hl (Nat.le_add_right _ _)]
    exact processLoop_enough hne h hl k

end HubEventEmitter
end JsEventHub

namespace JsEventHub

namespace HubEventEmitter

variable {δ : Type}

theorem priority_le_of_value_le {p q : Priority} (hp : p.isFinite = true)
    (hq : q.isFinite = true) (h : p.value ≤ q.value) : Priority.le p q := by
  cases p <;> cases q <;> simp_all [Priority.le, Priority.value, Priority.isFinite]

theorem emitWithContext_hub (h : HubEventEmitter δ) (ctx : Context) (event : String)
    (data : δ) (priority : Priority) :
    (h.emitWithContext ctx event data priority).hub = h ∨
    (h.emitWithContext ctx event data priority).hub =
      { h with events := h.events.queue comparator ⟨event, priority, data⟩ } := by
  unfold emitWithContext log
  split
  · split
    · right; simp [Outcome.andThen]
    · left; simp [Outcome.andThen]
  · right; simp [Outcome.andThen]

theorem emitWithContext_queueOK (h : HubEventEmitter δ) (ctx : Context) (event : String)
    (data : δ) (priority : Priority) (hq : QueueOK h) (hp : priority.isFinite = true) :
    QueueOK (h.emitWithContext ctx event data priority).hub := by
  rcases emitWithContext_hub h ctx event data priority with e | e
  · rw [e]; exact hq
  · rw [e]
    obtain ⟨h1, h2, h3⟩ := hq
    refine ⟨?_, ?_, ?_⟩
    · simp only [LengthOK, PriorityQueue.queue, BinaryHeapStrategy.queue_length]
      rw [h1]
    · exact BinaryHeapStrategy.queue_isHeap _ _ h2 h3 hp
    · exact BinaryHeapStrategy.queue_allFinite _ _ h3 hp

theorem emitAll_queueOK : ∀ (cs : List (EmitArgs δ)) (h : HubEventEmitter δ), QueueOK h →
    (∀ c ∈ cs, c.priority.isFinite = true) → QueueOK (h.emitAll cs)
  | [], h, hq, _ => hq
  | c :: cs, h, hq, hp => by
    simp only [emitAll]
    exact emitAll_queueOK cs _ (emitWithContext_queueOK h _ _ _ _ hq (hp c (by simp)))
      (fun c hc => hp c (by simp [hc]))

theorem afterDequeue_queueOK (h : HubEventEmitter δ) (a : PriorityEvent δ)
    (t : List (PriorityEvent δ)) (hq : QueueOK h) (hd : h.events.data = a :: t) :
    QueueOK (h.afterDequeue a t) := by
  obtain ⟨h1, h2, h3⟩ := hq
  rw [hd] at h2 h3
  exact ⟨afterDequeue_lengthOK h a t h1 hd,
    BinaryHeapStrategy.dequeue_cons_isHeap a t h2 h3,
    BinaryHeapStrategy.dequeue_cons_allFinite a t h3⟩

/-- The drain dequeues in non-decreasing order of priority, and only entries of the
queue. -/
theorem processLoop_sorted {env : Handlers δ} (hne : NoEnqueue env) :
    ∀ (fuel : Nat) (h : HubEventEmitter δ), QueueOK h →
      (dispatched (processLoop env fuel h).trace).Pairwise
        (fun x y => Priority.le x.priority y.priority) ∧
      ∀ x ∈ dispatched (processLoop env fuel h).trace, x ∈ h.events.data
  | 0, h, _ => by simp [processLoop, dispatched]
  | fuel + 1, h, hq => by
    cases hd : h.events.data with
    | nil =>
      have h1 : h.events.length = 0 := by rw [hq.1, hd]; rfl
      rw [processLoop_of_empty env _ h h1]
      simp [dispatched]
    | cons a t =>
      have hq1 := afterDequeue_queueOK h a t hq hd
      have hev : (afterDequeue h a t |>.deliver env a).hub.events = (h.afterDequeue a t).events :=
        deliver_events hne _ a _ rfl
      have hq2 : QueueOK (afterDequeue h a t |>.deliver env a).hub := by
        simp only [QueueOK, LengthOK, hev] at hq1 ⊢
        exact hq1
      have hperm := BinaryHeapStrategy.dequeue_cons_perm comparator a t
      have hdata : (afterDequeue h a t |>.deliver env a).hub.events.data =
          (BinaryHeapStrategy.dequeue comparator (a :: t)).2 := by
        rw [hev]; rfl
      have hnd := dispatched_eq_nil (deliver_trace_notDequeued env (h.afterDequeue a t) a)
      by_cases hc : (afterDequeue h a t |>.deliver env a).completion = Completion.normal
      · have ih := processLoop_sorted hne fuel _ hq2
        rw [processLoop_step_normal env fuel h a t hq.1 hd hc]
        simp only [dispatched, dispatched_append, hnd, List.nil_append]
        have hsub : ∀ x ∈ dispatched (processLoop env fuel
            (afterDequeue h a t |>.deliver env a).hub).trace, x ∈ t := by
          intro x hx
          have := ih.2 x hx
          rw [hdata] at this
          exact hperm.mem_iff.mp this
        have hheap : IsHeap (a :: t) := hd ▸ hq.2.1
        have hfin : AllFinite (a :: t) := hd ▸ hq.2.2
        refine ⟨List.Pairwise.cons ?_ ih.1, ?_⟩
        · intro x hx
          have hxt := hsub x hx
          exact priority_le_of_value_le (hfin a (by simp)) (hfin x (by simp [hxt]))
            (BinaryHeapStrategy.value_le_of_isHeap hheap x (by simp [hxt]))
        · intro x hx
          rcases List.mem_cons.mp hx with rfl | hx
          · simp
          · simp [hsub x hx]
      · rw [processLoop_step_abort env fuel h a t hq.1 hd hc]
        simp [dispatched, hnd]

end HubEventEmitter
end JsEventHub

namespace JsEventHub
namespace HubEventEmitter

variable {δ : Type}

/-! ## Handlers that do not call back into the hub -/

theorem invoke_passive {env : Handlers δ} (hp : Passive env) (h : HubEventEmitter δ)
    (handler : Nat) (data : δ) :
    h.invoke env handler data =
      ⟨h, [Obs.handle handler data],
        if (env handler data).throws then Completion.thrown (JSError.thrownBy handler)
        else Completion.normal⟩ := by
  unfold invoke
  rw [hp handler data]
  simp only [calls, Outcome.mk_andThen]
  split <;> simp

theorem forEachHandler_passive {env : Handlers δ} (hp : Passive env) (data : δ) :
    ∀ (hs : List Nat) (h h' : HubEventEmitter δ),
      (forEachHandler env data hs h).hub = h ∧
      (forEachHandler env data hs h').trace = (forEachHandler env data hs h).trace ∧
      (forEachHandler env data hs h').completion = (forEachHandler env data hs h).completion
  | [], h, h' => by simp [forEachHandler]
  | handler :: rest, h, h' => by
    simp only [forEachHandler, invoke_passive hp]
    by_cases ht : (env handler data).throws = true
    · simp [ht, Outcome.andThen]
    · have ht' : (env handler data).throws = false := by simpa using ht
      simp only [ht', Bool.false_eq_true, if_false, Outcome.mk_andThen]
      have ih := forEachHandler_passive hp data rest h h'
      exact ⟨ih.1, by rw [ih.2.1], ih.2.2⟩

theorem forEachHandler_quiet {env : Handlers δ} (hp : Passive env) (data : δ) :
    ∀ (hs : List Nat) (h : HubEventEmitter δ), (∀ H ∈ hs, (env H data).throws = false) →
      forEachHandler env data hs h =
        ⟨h, hs.map (fun H => Obs.handle H data), Completion.normal⟩
  | [], h, _ => by simp [forEachHandler]
  | handler :: rest, h, hnt => by
    simp only [forEachHandler, invoke_passive hp, hnt handler (by simp), Bool.false_eq_true,
      if_false, Outcome.mk_andThen]
    rw [forEachHandler_quiet hp data rest h (fun H hH => hnt H (by simp [hH]))]
    simp

theorem forEachHandler_throw {env : Handlers δ} (hp : Passive env) (data : δ)
    (hs1 : List Nat) (Hi : Nat) (hs2 : List Nat) (h : HubEventEmitter δ)
    (hnt : ∀ H ∈ hs1, (env H data).throws = false) (ht : (env Hi data).throws = true) :
    forEachHandler env data (hs1 ++ Hi :: hs2) h =
      ⟨h, (hs1 ++ [Hi]).map (fun H => Obs.handle H data),
        Completion.thrown (JSError.thrownBy Hi)⟩ := by
  induction hs1 with
  | nil => simp [forEachHandler, invoke_passive hp, ht, Outcome.andThen]
  | cons H rest ih =>
    rw [List.cons_append, forEachHandler]
    simp only [invoke_passive hp, hnt H (by simp), Bool.false_eq_true, if_false,
      Outcome.mk_andThen]
    rw [ih (fun H' hH => hnt H' (by simp [hH]))]
    simp

theorem dispatch_passive {env : Handlers δ} (hp : Passive env) (h h' : HubEventEmitter δ)
    (hh : h'.handlers = h.handlers) (event : String) (data : δ) :
    (h.dispatch env event data).hub = h ∧
    (h'.dispatch env event data).trace = (h.dispatch env event data).trace ∧
    (h'.dispatch env event data).completion = (h.dispatch env event data).completion := by
  unfold dispatch
  have hl : h'.lookupHandlers event = h.lookupHandlers event := by
    unfold lookupHandlers
    rw [hh]
  rw [hl]
  split
  · simp
  · next hs _ => exact forEachHandler_passive hp data hs h _
  · simp

theorem deliver_passive_hub {env : Handlers δ} (hp : Passive env) (h : HubEventEmitter δ)
    (e : PriorityEvent δ) : (h.deliver env e).hub = h := by
  unfold deliver
  apply Outcome.andThen_hub_inv (fun x => x = h) (log_hub h _)
  intro h1 e1
  subst e1
  apply Outcome.andThen_hub_inv (fun x => x = h1) rfl
  intro h2 e2
  subst e2
  exact (dispatch_passive hp h2 h2 rfl _ _).1

theorem deliver_passive {env : Handlers δ} (hp : Passive env) (h h' : HubEventEmitter δ)
    (he : h'.eventEmitter = h.eventEmitter) (hh : h'.handlers = h.handlers)
    (hl : h'.logging = h.logging) (hg : h'.logger = h.logger) (e : PriorityEvent δ) :
    (h'.deliver env e).trace = (h.deliver env e).trace ∧
    (h'.deliver env e).completion = (h.deliver env e).completion := by
  have hd := dispatch_passive hp h h' hh e.event e.data
  unfold deliver log
  rw [hl, hg]
  by_cases hlog : h.logging = true
  · cases hlg : h.logger with
    | none => simp [hlog, Outcome.andThen]
    | some lg =>
      simp only [hlog, if_true, Outcome.mk_andThen, he]
      by_cases hem : (h.eventEmitter.emit e.event e.data).2 = Completion.normal
      · simp only [Outcome.andThen, hem]
        exact ⟨by rw [hd.2.1], hd.2.2⟩
      · simp only [Outcome.andThen]
        exact ⟨trivial, trivial⟩
  · simp only [hlog, Bool.false_eq_true, if_false, Outcome.mk_andThen, he]
    by_cases hem : (h.eventEmitter.emit e.event e.data).2 = Completion.normal
    · simp only [Outcome.andThen, hem]
      exact ⟨by rw [hd.2.1], hd.2.2⟩
    · simp only [Outcome.andThen]
      exact ⟨trivial, trivial⟩

end HubEventEmitter
end JsEventHub

namespace JsEventHub
namespace HubEventEmitter

variable {δ : Type}

/-! ## The shape of the trace of a drain -/

theorem sameRegistry_refl (h : HubEventEmitter δ) : SameRegistry h h :=
  ⟨rfl, rfl, rfl, rfl, rfl⟩

theorem afterDequeue_sameRegistry (h : HubEventEmitter δ) (a : PriorityEvent δ)
    (t : List (PriorityEvent δ)) : SameRegistry (h.afterDequeue a t) h :=
  ⟨rfl, rfl, rfl, rfl, rfl⟩

theorem sameRegistry_trans {h1 h2 h3 : HubEventEmitter δ} (a : SameRegistry h1 h2)
    (b : SameRegistry h2 h3) : SameRegistry h1 h3 :=
  ⟨a.1.trans b.1, a.2.1.trans b.2.1, a.2.2.1.trans b.2.2.1, a.2.2.2.1.trans b.2.2.2.1,
    a.2.2.2.2.trans b.2.2.2.2⟩

theorem deliver_sameRegistry {env : Handlers δ} (hp : Passive env) {h h0 : HubEventEmitter δ}
    (hs : SameRegistry h h0) (e : PriorityEvent δ) :
    (h.deliver env e).trace = (h0.deliver env e).trace ∧
    (h.deliver env e).completion = (h0.deliver env e).completion :=
  deliver_passive hp h0 h hs.1 hs.2.1 hs.2.2.1 hs.2.2.2.1 e

/-- With handlers that do not call back into the hub, the trace of a drain is, for each
dequeued entry in turn, the dequeue followed by the deliveries of that entry; the
registrations are the same before and after. -/
theorem processLoop_passive {env : Handlers δ} (hp : Passive env) (h0 : HubEventEmitter δ) :
    ∀ (fuel : Nat) (h : HubEventEmitter δ), SameRegistry h h0 → LengthOK h →
      (processLoop env fuel h).trace =
        (dispatched (processLoop env fuel h).trace).flatMap
          (fun e => Obs.dequeued e :: (h0.deliver env e).trace) ∧
      SameRegistry (processLoop env fuel h).hub h0 ∧
      ((processLoop env fuel h).completion = Completion.normal →
        ∀ e ∈ dispatched (processLoop env fuel h).trace,
          (h0.deliver env e).completion = Completion.normal)
  | 0, h, hs, _ => by simp [processLoop, dispatched, hs]
  | fuel + 1, h, hs, hl => by
    cases hd : h.events.data with
    | nil =>
      have h1 : h.events.length = 0 := by rw [hl, hd]; rfl
      rw [processLoop_of_empty env _ h h1]
      simp [dispatched, hs]
    | cons a t =>
      have hs1 : SameRegistry (h.afterDequeue a t) h0 :=
        sameRegistry_trans (afterDequeue_sameRegistry h a t) hs
      have hdel := deliver_sameRegistry hp hs1 a
      have hhub := deliver_passive_hub hp (h.afterDequeue a t) a
      have hnd := dispatched_eq_nil (deliver_trace_notDequeued env (h.afterDequeue a t) a)
      by_cases hc : ((h.afterDequeue a t).deliver env a).completion = Completion.normal
      · rw [processLoop_step_normal env fuel h a t hl hd hc]
        rw [hhub]
        have ih := processLoop_passive hp h0 fuel (h.afterDequeue a t) hs1
          (afterDequeue_lengthOK h a t hl hd)
        simp only [dispatched, dispatched_append, hnd, List.nil_append, List.flatMap_cons,
          List.cons_append, List.cons.injEq, true_and]
        refine ⟨?_, ih.2.1, ?_⟩
        · rw [← ih.1, hdel.1]
        · intro hn e he
          rcases List.mem_cons.mp he with rfl | he
          · rw [← hdel.2]; exact hc
          · exact ih.2.2 hn e he
      · rw [processLoop_step_abort env fuel h a t hl hd hc]
        simp only [dispatched, hnd, List.flatMap_cons, List.flatMap_nil, List.append_nil,
          List.cons.injEq, true_and]
        refine ⟨hdel.1, ?_, fun hn => absurd hn hc⟩
        rw [hhub]
        exact hs1

theorem delivered_flatMap {β : Type} (ch : Nat) (f : β → List (Obs δ)) (l : List β) :
    delivered ch (l.flatMap f) = l.flatMap (fun x => delivered ch (f x)) := by
  induction l with
  | nil => rfl
  | cons x xs ih => simp [List.flatMap_cons, delivered_append, ih]

theorem handled_flatMap {β : Type} (f : β → List (Obs δ)) (l : List β) :
    handled (l.flatMap f) = l.flatMap (fun x => handled (f x)) := by
  induction l with
  | nil => rfl
  | cons x xs ih => simp [List.flatMap_cons, handled_append, ih]

end HubEventEmitter
end JsEventHub

namespace JsEventHub
namespace HubEventEmitter

variable {δ : Type}

/-! ## What each part of a delivery can write to the trace -/

theorem log_trace_isLog (h : HubEventEmitter δ) (line : Obs δ) (hl : Obs.isLog line) :
    ∀ o ∈ (h.log line).trace, Obs.isLog o := by
  unfold log
  split
  · split <;> simp [hl]
  · simp

theorem call_trace_isLog (h : HubEventEmitter δ) (c : HubCall δ) :
    ∀ o ∈ (h.call c).trace, Obs.isLog o := by
  cases c <;> simp [call, onEvent_trace]
  unfold emitWithContext
  apply Outcome.andThen_trace_all
  · exact log_trace_isLog h _ trivial
  · simp

theorem calls_trace_isLog : ∀ (cs : List (HubCall δ)) (h : HubEventEmitter δ),
    ∀ o ∈ (h.calls cs).trace, Obs.isLog o
  | [], h => by simp [calls]
  | c :: cs, h => by
    simp only [calls]
    apply Outcome.andThen_trace_all
    · exact call_trace_isLog h c
    · intro h'
      exact calls_trace_isLog cs h'

theorem invoke_trace_cases (env : Handlers δ) (h : HubEventEmitter δ) (handler : Nat)
    (data : δ) :
    ∀ o ∈ (h.invoke env handler data).trace, Obs.isLog o ∨ o = Obs.handle handler data := by
  unfold invoke
  apply Outcome.andThen_trace_all
  · simp
  · intro h1
    apply Outcome.andThen_trace_all
    · intro o ho
      exact Or.inl (calls_trace_isLog _ h1 o ho)
    · intro h2
      split <;> simp

theorem forEachHandler_trace_cases (env : Handlers δ) (data : δ) :
    ∀ (hs : List Nat) (h : HubEventEmitter δ),
    ∀ o ∈ (forEachHandler env data hs h).trace,
      Obs.isLog o ∨ ∃ H ∈ hs, o = Obs.handle H data
  | [], h => by simp [forEachHandler]
  | handler :: rest, h => by
    simp only [forEachHandler]
    apply Outcome.andThen_trace_all
    · intro o ho
      rcases invoke_trace_cases env h handler data o ho with h1 | h1
      · exact Or.inl h1
      · exact Or.inr ⟨handler, by simp, h1⟩
    · intro h1 o ho
      rcases forEachHandler_trace_cases env data rest h1 o ho with h2 | ⟨H, hH, h2⟩
      · exact Or.inl h2
      · exact Or.inr ⟨H, by simp [hH], h2⟩

theorem dispatch_trace_cases (env : Handlers δ) (h : HubEventEmitter δ) (event : String)
    (data : δ) :
    ∀ o ∈ (h.dispatch env event data).trace,
      Obs.isLog o ∨ ∃ H ∈ h.registered event, o = Obs.handle H data := by
  unfold dispatch lookupHandlers registered
  cases hh : h.handlers event with
  | none =>
    by_cases hk : event ∈ objectPrototypeKeys <;> simp [hk]
  | some hs =>
    simp only [Option.getD_some]
    exact forEachHandler_trace_cases env data hs h

theorem call_mem_iff (l : Listener δ) (data : δ) (o : Obs δ) :
    o ∈ l.call data ↔ l.passes data ∧ o = Obs.data l.ch data := by
  unfold Listener.call Listener.passes
  simp only [Bool.or_eq_true, decide_eq_true_eq, List.any_eq_true]
  by_cases h : (l.filters.length = 0 ∨ ∃ x ∈ l.filters, x data = true)
  · rw [if_pos h]
    simp only [List.mem_singleton]
    exact ⟨fun ho => ⟨h, ho⟩, fun ho => ho.2⟩
  · rw [if_neg h]
    simp only [List.not_mem_nil, false_iff]
    exact fun ho => h ho.1

theorem emit_trace_cases (em : EventEmitter δ) (event : String) (data : δ) :
    ∀ o ∈ (em.emit event data).1,
      ∃ l ∈ em.events event, l.passes data ∧ o = Obs.data l.ch data := by
  unfold EventEmitter.emit
  split
  · simp
  · intro o ho
    simp only [List.mem_flatMap] at ho
    obtain ⟨l, hl, ho⟩ := ho
    exact ⟨l, hl, (call_mem_iff l data o).mp ho⟩

theorem delivered_eq_nil (ch : Nat) {tr : List (Obs δ)}
    (h : ∀ o ∈ tr, ∀ d, o ≠ Obs.data ch d) : delivered ch tr = [] := by
  induction tr with
  | nil => rfl
  | cons o t ih =>
    have h1 := h o (by simp)
    have h2 := ih (fun o ho => h o (by simp [ho]))
    cases o <;> simp_all [delivered]

theorem handled_eq_nil {tr : List (Obs δ)}
    (h : ∀ o ∈ tr, ∀ H d, o ≠ Obs.handle H d) : handled tr = [] := by
  induction tr with
  | nil => rfl
  | cons o t ih =>
    have h1 := h o (by simp)
    have h2 := ih (fun o ho => h o (by simp [ho]))
    cases o <;> simp_all [handled]

theorem delivered_of_isLog (ch : Nat) {tr : List (Obs δ)} (h : ∀ o ∈ tr, Obs.isLog o) :
    delivered ch tr = [] :=
  delivered_eq_nil ch (fun o ho d e => by have := h o ho; rw [e] at this; exact this)

theorem handled_of_isLog {tr : List (Obs δ)} (h : ∀ o ∈ tr, Obs.isLog o) :
    handled tr = [] :=
  handled_eq_nil (fun o ho H d e => by have := h o ho; rw [e] at this; exact this)

theorem delivered_dispatch (env : Handlers δ) (h : HubEventEmitter δ) (event : String)
    (data : δ) (ch : Nat) : delivered ch (h.dispatch env event data).trace = [] := by
  apply delivered_eq_nil
  intro o ho d e
  rcases dispatch_trace_cases env h event data o ho with h1 | ⟨H, _, h1⟩
  · rw [e] at h1; exact h1
  · rw [e] at h1; cases h1

theorem handled_emit (em : EventEmitter δ) (event : String) (data : δ) :
    handled (em.emit event data).1 = [] := by
  apply handled_eq_nil
  intro o ho H d e
  obtain ⟨l, _, _, h1⟩ := emit_trace_cases em event data o ho
  rw [e] at h1; cases h1

/-- What a delivery emits on a channel is what the emitter emits on it. -/
theorem delivered_deliver {env : Handlers δ} (h : HubEventEmitter δ) (hlog : LoggerOK h)
    (e : PriorityEvent δ) (ch : Nat) :
    delivered ch (h.deliver env e).trace =
      delivered ch (h.eventEmitter.emit e.event e.data).1 := by
  unfold deliver
  have h1 := log_normal hlog (Obs.logProcessing e.event e.priority)
  have h2 := log_hub h (Obs.logProcessing e.event e.priority)
  have h3 := delivered_of_isLog ch (log_trace_isLog h (Obs.logProcessing e.event e.priority) trivial)
  rw [Outcome.andThen_of_normal _ h1, h2]
  simp only [delivered_append, h3, List.nil_append]
  by_cases hem : (h.eventEmitter.emit e.event e.data).2 = Completion.normal
  · rw [Outcome.andThen_of_normal _ hem]
    simp [delivered_append, delivered_dispatch]
  · rw [Outcome.andThen_of_not_normal _ hem]

/-- The handlers a delivery invokes are those `dispatch` invokes, when the emitter does
not throw. -/
theorem handled_deliver {env : Handlers δ} (h : HubEventEmitter δ) (hlog : LoggerOK h)
    (e : PriorityEvent δ) :
    handled (h.deliver env e).trace =
      if (h.eventEmitter.emit e.event e.data).2 = Completion.normal then
        handled (h.dispatch env e.event e.data).trace
      else [] := by
  unfold deliver
  have h1 := log_normal hlog (Obs.logProcessing e.event e.priority)
  have h2 := log_hub h (Obs.logProcessing e.event e.priority)
  have h3 := handled_of_isLog (log_trace_isLog h (Obs.logProcessing e.event e.priority) trivial)
  rw [Outcome.andThen_of_normal _ h1, h2]
  simp only [handled_append, h3, List.nil_append]
  by_cases hem : (h.eventEmitter.emit e.event e.data).2 = Completion.normal
  · rw [Outcome.andThen_of_normal _ hem, if_pos hem]
    simp [handled_append, handled_emit]
  · rw [Outcome.andThen_of_not_normal _ hem, if_neg hem]
    exact handled_emit _ _ _

end HubEventEmitter
end JsEventHub

namespace JsEventHub
namespace HubEventEmitter

variable {δ : Type}

/-! ## Subscriptions -/

theorem delivered_call_self (l : Listener δ) (data : δ) :
    (l.passes data → delivered l.ch (l.call data) = [data]) ∧
    (¬ l.passes data → delivered l.ch (l.call data) = []) := by
  unfold Listener.call Listener.passes
  simp only [Bool.or_eq_true, decide_eq_true_eq, List.any_eq_true]
  constructor
  · intro hp
    rw [if_pos hp]
    simp [delivered]
  · intro hp
    rw [if_neg hp]
    rfl

theorem delivered_call_other (l : Listener δ) (data : δ) (ch : Nat) (hne : l.ch ≠ ch) :
    delivered ch (l.call data) = [] := by
  apply delivered_eq_nil
  intro o ho d e
  have := ((call_mem_iff l data o).mp ho).2
  rw [e] at this
  injection this with h1 _
  exact hne h1.symm

theorem delivered_calls_other (ls : List (Listener δ)) (data : δ) (ch : Nat)
    (hne : ∀ l ∈ ls, l.ch ≠ ch) :
    delivered ch (ls.flatMap (fun l => l.call data)) = [] := by
  rw [delivered_flatMap]
  induction ls with
  | nil => rfl
  | cons l ls ih =>
    simp only [List.flatMap_cons, delivered_call_other l data ch (hne l (by simp)),
      List.nil_append]
    exact ih (fun l hl => hne l (by simp [hl]))

/-- What the emitter emits on the channel of a subscription registered under `name`
when `name` is emitted: what the listener of that subscription emits. -/
theorem delivered_emit_subscribed (h : HubEventEmitter δ) (name : String) (l : Listener δ)
    (hs : Subscribed h name l) (data : δ) :
    (h.eventEmitter.emit name data).2 = Completion.normal ∧
    delivered l.ch (h.eventEmitter.emit name data).1 = delivered l.ch (l.call data) := by
  obtain ⟨before, after, he, hb, ha⟩ := hs
  unfold EventEmitter.emit
  have hlen : ¬ (name = "error" ∧ (h.eventEmitter.events name).length = 0) := by
    rw [he]
    simp
  rw [if_neg hlen, he]
  refine ⟨rfl, ?_⟩
  simp only [List.flatMap_append, List.flatMap_cons, delivered_append,
    delivered_calls_other before data l.ch hb, delivered_calls_other after data l.ch ha,
    List.nil_append, List.append_nil]

theorem emit_of_no_channel (em : EventEmitter δ) (event : String) (data : δ) (ch : Nat)
    (hne : ∀ l ∈ em.events event, l.ch ≠ ch) : delivered ch (em.emit event data).1 = [] := by
  unfold EventEmitter.emit
  split
  · rfl
  · exact delivered_calls_other _ data ch hne

theorem on_subscribed (h : HubEventEmitter δ) (hf : ChannelsFresh h) (name : String)
    (filters : List (δ → Bool)) :
    Subscribed (h.on name filters).2 name ⟨filters, (h.on name filters).1⟩ := by
  refine ⟨h.eventEmitter.events name, [], ?_, ?_, by simp⟩
  · simp [HubEventEmitter.on, EventEmitter.on]
  · intro x hx
    have := hf name x hx
    simp only [HubEventEmitter.on]
    omega

theorem on_channelsFresh (h : HubEventEmitter δ) (hf : ChannelsFresh h) (name : String)
    (filters : List (δ → Bool)) : ChannelsFresh (h.on name filters).2 := by
  intro k l hl
  simp only [HubEventEmitter.on, EventEmitter.on] at hl ⊢
  by_cases hk : k = name
  · rw [if_pos hk] at hl
    rcases List.mem_append.mp hl with h1 | h1
    · have := hf k l h1; omega
    · simp at h1; subst h1; simp
  · rw [if_neg hk] at hl
    have := hf k l hl; omega

theorem on_other_channels (h : HubEventEmitter δ) (hf : ChannelsFresh h) (name : String)
    (filters : List (δ → Bool)) (event : String) (hne : event ≠ name) :
    ∀ l ∈ (h.on name filters).2.eventEmitter.events event, l.ch ≠ (h.on name filters).1 := by
  intro l hl
  simp only [HubEventEmitter.on, EventEmitter.on, if_neg hne] at hl ⊢
  have := hf event l hl
  omega

theorem emitWithContext_of_loggerOK (h : HubEventEmitter δ) (hlog : LoggerOK h)
    (ctx : Context) (event : String) (data : δ) (priority : Priority) :
    (h.emitWithContext ctx event data priority).hub =
      { h with events := h.events.queue comparator ⟨event, priority, data⟩ } ∧
    (h.emitWithContext ctx event data priority).completion = Completion.normal := by
  unfold emitWithContext
  rw [Outcome.andThen_of_normal _ (log_normal hlog _), log_hub]
  simp

theorem emitWithContext_sameRegistry (h : HubEventEmitter δ) (ctx : Context)
    (event : String) (data : δ) (priority : Priority) :
    SameRegistry (h.emitWithContext ctx event data priority).hub h := by
  rcases emitWithContext_hub h ctx event data priority with e | e <;> rw [e]
  · exact sameRegistry_refl h
  · exact ⟨rfl, rfl, rfl, rfl, rfl⟩

theorem emitWithContext_lengthOK (h : HubEventEmitter δ) (hl : LengthOK h) (ctx : Context)
    (event : String) (data : δ) (priority : Priority) :
    LengthOK (h.emitWithContext ctx event data priority).hub := by
  rcases emitWithContext_hub h ctx event data priority with e | e <;> rw [e]
  · exact hl
  · simp only [LengthOK, PriorityQueue.queue, BinaryHeapStrategy.queue_length]
    rw [hl]

theorem loggerOK_of_sameRegistry {h h0 : HubEventEmitter δ} (hs : SameRegistry h h0)
    (hlog : LoggerOK h0) : LoggerOK h := by
  intro hl
  rw [hs.2.2.2.1]
  exact hlog (hs.2.2.1 ▸ hl)

theorem emitAll_sameRegistry : ∀ (cs : List (EmitArgs δ)) (h : HubEventEmitter δ),
    SameRegistry (h.emitAll cs) h
  | [], h => sameRegistry_refl h
  | c :: cs, h => by
    simp only [emitAll]
    exact sameRegistry_trans (emitAll_sameRegistry cs _) (emitWithContext_sameRegistry h _ _ _ _)

theorem emitAll_lengthOK : ∀ (cs : List (EmitArgs δ)) (h : HubEventEmitter δ), LengthOK h →
    LengthOK (h.emitAll cs)
  | [], h, hl => hl
  | c :: cs, h, hl => by
    simp only [emitAll]
    exact emitAll_lengthOK cs _ (emitWithContext_lengthOK h hl _ _ _ _)

/-- With the logger in order, every call enqueues: the queue afterwards holds the old
entries and one entry per call. -/
theorem emitAll_perm : ∀ (cs : List (EmitArgs δ)) (h : HubEventEmitter δ), LoggerOK h →
    (h.emitAll cs).events.data.Perm (h.events.data ++ cs.map EmitArgs.entry)
  | [], h, _ => by simp [emitAll]
  | c :: cs, h, hlog => by
    simp only [emitAll]
    have hs := emitWithContext_sameRegistry h c.ctx c.event c.data c.priority
    have ih := emitAll_perm cs _ (loggerOK_of_sameRegistry hs hlog)
    refine ih.trans ?_
    rw [(emitWithContext_of_loggerOK h hlog c.ctx c.event c.data c.priority).1]
    simp only [PriorityQueue.queue, List.map_cons]
    have hq := BinaryHeapStrategy.queue_perm comparator h.events.data c.entry
    refine (List.Perm.append_right _ hq).trans ?_
    simp only [EmitArgs.entry]
    exact (List.perm_middle).symm

theorem flatMap_ite_singleton {α β : Type} (p : α → Prop) [DecidablePred p] (f : α → β)
    (l : List α) :
    l.flatMap (fun x => if p x then [f x] else []) = (l.filter (fun x => decide (p x))).map f := by
  induction l with
  | nil => rfl
  | cons x xs ih =>
    simp only [List.flatMap_cons, ih, List.filter_cons]
    by_cases hx : p x <;> simp [hx]

end HubEventEmitter
end JsEventHub

namespace JsEventHub
namespace HubEventEmitter

variable {δ : Type}

theorem subscribedFresh_of_emitter {h h' : HubEventEmitter δ} {name : String}
    {l : Listener δ} (hs : SubscribedFresh h name l) (he : h'.eventEmitter = h.eventEmitter)
    (hn : h'.nextChannel = h.nextChannel) : SubscribedFresh h' name l := by
  obtain ⟨h1, h2, h3⟩ := hs
  refine ⟨?_, ?_, ?_⟩
  · intro k x hx
    rw [he] at hx
    rw [hn]
    exact h1 k x hx
  · unfold Subscribed
    rw [he]
    exact h2
  · rw [hn]; exact h3

theorem onEvent_emitter (h : HubEventEmitter δ) (event : String) (handler : Nat) :
    (h.onEvent event handler).hub.eventEmitter = h.eventEmitter ∧
    (h.onEvent event handler).hub.nextChannel = h.nextChannel ∧
    (h.onEvent event handler).hub.logging = h.logging ∧
    (h.onEvent event handler).hub.logger = h.logger := by
  unfold onEvent
  split <;> simp

theorem call_subscribedFresh (h : HubEventEmitter δ) (name : String) (l : Listener δ)
    (hs : SubscribedFresh h name l) (c : HubCall δ)
    (hc : HubCall.unsubscribes name c = false) :
    SubscribedFresh (h.call c).hub name l := by
  cases c with
  | setLogging enable => exact subscribedFresh_of_emitter hs rfl rfl
  | «on» event filters =>
    obtain ⟨h1, ⟨before, after, he, hb, ha⟩, h3⟩ := hs
    refine ⟨on_channelsFresh h h1 event filters, ?_, ?_⟩
    · by_cases hk : name = event
      · subst hk
        refine ⟨before, after ++ [⟨filters, h.nextChannel⟩], ?_, hb, ?_⟩
        · simp [call, HubEventEmitter.on, EventEmitter.on, he]
        · intro x hx
          rcases List.mem_append.mp hx with h4 | h4
          · exact ha x h4
          · simp at h4
            subst h4
            simp only []
            omega
      · refine ⟨before, after, ?_, hb, ha⟩
        simp [call, HubEventEmitter.on, EventEmitter.on, hk, he]
    · simp only [call, HubEventEmitter.on]
      omega
  | emitWithContext ctx event data priority =>
    have := emitWithContext_sameRegistry h ctx event data priority
    exact subscribedFresh_of_emitter hs this.1 this.2.2.2.2
  | onEvent event handler =>
    have := onEvent_emitter h event handler
    exact subscribedFresh_of_emitter hs this.1 this.2.1
  | off event =>
    have hne : ¬ event = name := by simpa [HubCall.unsubscribes] using hc
    obtain ⟨h1, ⟨before, after, he, hb, ha⟩, h3⟩ := hs
    refine ⟨?_, ⟨before, after, ?_, hb, ha⟩, h3⟩
    · intro k x hx
      simp only [call, off, EventEmitter.removeAllListeners] at hx ⊢
      by_cases hk : k = event
      · simp [hk] at hx
      · rw [if_neg hk] at hx
        exact h1 k x hx
    · simp only [call, off, EventEmitter.removeAllListeners]
      rw [if_neg (fun h' => hne h'.symm)]
      exact he
  | close => simp [HubCall.unsubscribes] at hc

theorem calls_subscribedFresh (name : String) (l : Listener δ) :
    ∀ (cs : List (HubCall δ)) (h : HubEventEmitter δ), SubscribedFresh h name l →
      (∀ c ∈ cs, HubCall.unsubscribes name c = false) →
      SubscribedFresh (h.calls cs).hub name l
  | [], h, hs, _ => hs
  | c :: cs, h, hs, hcs => by
    simp only [calls]
    apply Outcome.andThen_hub_inv (fun h => SubscribedFresh h name l)
    · exact call_subscribedFresh h name l hs c (hcs c (by simp))
    · intro h' hs'
      exact calls_subscribedFresh name l cs h' hs' (fun c hc => hcs c (by simp [hc]))

theorem on_subscribedFresh (h : HubEventEmitter δ) (hf : ChannelsFresh h) (name : String)
    (filters : List (δ → Bool)) :
    SubscribedFresh (h.on name filters).2 name ⟨filters, (h.on name filters).1⟩ :=
  ⟨on_channelsFresh h hf name filters, on_subscribed h hf name filters, by
    simp [HubEventEmitter.on]⟩

end HubEventEmitter
end JsEventHub

namespace JsEventHub
namespace HubEventEmitter

variable {δ : Type}

/-! ## Handler registration and dispatch -/

theorem onEvent_of_normal (h : HubEventEmitter δ) (event : String) (handler : Nat)
    (hc : (h.onEvent event handler).completion = Completion.normal) :
    (h.onEvent event handler).hub =
      { h with handlers := fun k =>
          if k = event then some (h.registered event ++ [handler]) else h.handlers k } := by
  unfold onEvent lookupHandlers registered at *
  cases hh : h.handlers event with
  | none =>
    rw [hh] at hc
    by_cases hk : event ∈ objectPrototypeKeys
    · simp [hk] at hc
    · simp [hk]
  | some hs => simp

theorem onEvent_registered_of_normal (h : HubEventEmitter δ) (event : String) (handler : Nat)
    (hc : (h.onEvent event handler).completion = Completion.normal) :
    (h.onEvent event handler).hub.handlers event = some (h.registered event ++ [handler]) := by
  rw [onEvent_of_normal h event handler hc]
  simp

/-- A run of successful `onEvent(name, H)` calls appends the handlers to the list of
`name`, in call order. -/
theorem calls_onEvent_registered (name : String) :
    ∀ (Hs : List Nat) (h : HubEventEmitter δ),
      (h.calls (Hs.map (HubCall.onEvent name))).completion = Completion.normal →
      Hs ≠ [] →
      (h.calls (Hs.map (HubCall.onEvent name))).hub.handlers name =
        some (h.registered name ++ Hs)
  | [], h, _, hne => absurd rfl hne
  | H :: rest, h, hc, _ => by
    simp only [List.map_cons, calls, call] at hc ⊢
    by_cases h1 : (h.onEvent name H).completion = Completion.normal
    · rw [Outcome.andThen_of_normal _ h1] at hc ⊢
      simp only at hc ⊢
      have hreg := onEvent_registered_of_normal h name H h1
      by_cases hr : rest = []
      · subst hr
        simp [calls, hreg]
      · rw [calls_onEvent_registered name rest _ hc hr]
        simp [registered, hreg]
    · rw [Outcome.andThen_of_not_normal _ h1] at hc
      exact absurd hc h1

theorem calls_onEvent_frame (name : String) :
    ∀ (Hs : List Nat) (h : HubEventEmitter δ),
      (h.calls (Hs.map (HubCall.onEvent name))).hub.eventEmitter = h.eventEmitter ∧
      (h.calls (Hs.map (HubCall.onEvent name))).hub.events = h.events ∧
      (h.calls (Hs.map (HubCall.onEvent name))).hub.logging = h.logging ∧
      (h.calls (Hs.map (HubCall.onEvent name))).hub.logger = h.logger
  | [], h => by simp [calls]
  | H :: rest, h => by
    simp only [List.map_cons, calls, call]
    apply Outcome.andThen_hub_inv (fun x => x.eventEmitter = h.eventEmitter ∧
      x.events = h.events ∧ x.logging = h.logging ∧ x.logger = h.logger)
    · have := onEvent_emitter h name H
      exact ⟨this.1, onEvent_events h name H, this.2.2.1, this.2.2.2⟩
    · intro h' hh
      have := calls_onEvent_frame name rest h'
      exact ⟨this.1.trans hh.1, this.2.1.trans hh.2.1, this.2.2.1.trans hh.2.2.1,
        this.2.2.2.trans hh.2.2.2⟩

theorem dispatch_of_registered {env : Handlers δ} (hp : Passive env) (hnt : NoThrow env)
    (h : HubEventEmitter δ) (event : String) (hs : List Nat)
    (hh : h.handlers event = some hs) (data : δ) :
    h.dispatch env event data =
      ⟨h, hs.map (fun H => Obs.handle H data), Completion.normal⟩ := by
  unfold dispatch lookupHandlers
  rw [hh]
  exact forEachHandler_quiet hp data hs h (fun H _ => hnt H data)

theorem handled_map_handle (hs : List Nat) (data : δ) :
    handled (hs.map (fun H => Obs.handle H data)) = hs.map (fun H => (H, data)) := by
  induction hs with
  | nil => rfl
  | cons H rest ih => simp [handled, ih]

/-- When `dispatch` returns normally with handlers that neither call back nor throw, it
has invoked the registered handlers in order. -/
theorem handled_dispatch_of_normal {env : Handlers δ} (hp : Passive env) (hnt : NoThrow env)
    (h : HubEventEmitter δ) (event : String) (data : δ)
    (hc : (h.dispatch env event data).completion = Completion.normal) :
    handled (h.dispatch env event data).trace =
      (h.registered event).map (fun H => (H, data)) := by
  cases hh : h.handlers event with
  | none =>
    unfold dispatch lookupHandlers registered at *
    rw [hh] at hc ⊢
    by_cases hk : event ∈ objectPrototypeKeys
    · simp [hk] at hc
    · simp [hk, handled]
  | some hs =>
    rw [dispatch_of_registered hp hnt h event hs hh data, handled_map_handle]
    simp [registered, hh]

theorem deliver_normal_parts {env : Handlers δ} (h : HubEventEmitter δ) (hlog : LoggerOK h)
    (e : PriorityEvent δ) (hc : (h.deliver env e).completion = Completion.normal) :
    (h.eventEmitter.emit e.event e.data).2 = Completion.normal ∧
    (h.dispatch env e.event e.data).completion = Completion.normal := by
  unfold deliver at hc
  have h1 := log_normal hlog (Obs.logProcessing e.event e.priority)
  have h2 := log_hub h (Obs.logProcessing e.event e.priority)
  rw [Outcome.andThen_of_normal _ h1, h2] at hc
  simp only at hc
  by_cases hem : (h.eventEmitter.emit e.event e.data).2 = Completion.normal
  · rw [Outcome.andThen_of_normal _ hem] at hc
    exact ⟨hem, hc⟩
  · rw [Outcome.andThen_of_not_normal _ hem] at hc
    exact absurd hc hem

theorem flatMap_congr_mem {α β : Type} {f g : α → List β} :
    ∀ (l : List α), (∀ x ∈ l, f x = g x) → l.flatMap f = l.flatMap g
  | [], _ => rfl
  | x :: xs, h => by
    simp only [List.flatMap_cons]
    rw [h x (by simp), flatMap_congr_mem xs (fun y hy => h y (by simp [hy]))]

/-- In a drain that returns normally, with handlers that neither call back nor throw,
the handler invocations are, for each dequeued entry in turn, the handlers registered
under its name in registration order, called with its payload. -/
theorem handled_processLoop {env : Handlers δ} (hp : Passive env) (hnt : NoThrow env)
    (h0 h : HubEventEmitter δ) (hs : SameRegistry h h0) (hl : LengthOK h)
    (hlog : LoggerOK h0) (fuel : Nat)
    (hc : (processLoop env fuel h).completion = Completion.normal) :
    handled (processLoop env fuel h).trace =
      (dispatched (processLoop env fuel h).trace).flatMap
        (fun e => (h0.registered e.event).map (fun H => (H, e.data))) := by
  have hshape := processLoop_passive hp h0 fuel h hs hl
  conv_lhs => rw [hshape.1]
  rw [handled_flatMap]
  apply flatMap_congr_mem
  intro e he
  have hn := hshape.2.2 hc e he
  have hparts := deliver_normal_parts h0 hlog e hn
  simp only [handled]
  rw [handled_deliver h0 hlog, if_pos hparts.1]
  exact handled_dispatch_of_normal hp hnt h0 e.event e.data hparts.2

end HubEventEmitter
end JsEventHub

namespace JsEventHub
namespace HubEventEmitter

variable {δ : Type}

/-! ## After `off` -/

theorem unheard_of_isLog (oldN : Nat) (oldH : List Nat) {o : Obs δ} (h : Obs.isLog o) :
    Obs.unheard oldN oldH o := by
  cases o <;> simp_all [Obs.isLog, Obs.unheard]

theorem tagged_append (cur : Option (PriorityEvent δ)) (t1 t2 : List (Obs δ)) :
    ∃ cur', tagged cur (t1 ++ t2) = tagged cur t1 ++ tagged cur' t2 := by
  induction t1 generalizing cur with
  | nil => exact ⟨cur, rfl⟩
  | cons o t ih =>
    obtain ⟨c, hc⟩ := ih (Obs.current cur o)
    exact ⟨c, by simp [tagged, hc]⟩

theorem silentFor_nil (name : String) (oldN : Nat) (oldH : List Nat) :
    SilentFor name oldN oldH ([] : List (Obs δ)) := by
  intro cur p hp
  simp [tagged] at hp

theorem silentFor_append {name : String} {oldN : Nat} {oldH : List Nat}
    {t1 t2 : List (Obs δ)} (h1 : SilentFor name oldN oldH t1)
    (h2 : SilentFor name oldN oldH t2) : SilentFor name oldN oldH (t1 ++ t2) := by
  intro cur p hp
  obtain ⟨c, hc⟩ := tagged_append cur t1 t2
  rw [hc] at hp
  rcases List.mem_append.mp hp with h | h
  · exact h1 cur p h
  · exact h2 c p h

theorem tagged_snd_mem (cur : Option (PriorityEvent δ)) (tr : List (Obs δ)) :
    ∀ p ∈ tagged cur tr, p.2 ∈ tr := by
  induction tr generalizing cur with
  | nil => simp [tagged]
  | cons o t ih =>
    intro p hp
    simp only [tagged, List.mem_cons] at hp
    rcases hp with rfl | hp
    · simp
    · simp [ih _ p hp]

theorem silentFor_of_all {name : String} {oldN : Nat} {oldH : List Nat}
    {tr : List (Obs δ)} (h : ∀ o ∈ tr, Obs.unheard oldN oldH o) :
    SilentFor name oldN oldH tr :=
  fun cur p hp _ _ _ => h p.2 (tagged_snd_mem cur tr p hp)

theorem tagged_of_notDequeued (cur : Option (PriorityEvent δ)) (tr : List (Obs δ))
    (h : ∀ o ∈ tr, Obs.notDequeued o) : ∀ p ∈ tagged cur tr, p.1 = cur := by
  induction tr with
  | nil => simp [tagged]
  | cons o t ih =>
    intro p hp
    have ho := h o (by simp)
    have hcur : Obs.current cur o = cur := by
      cases o <;> simp_all [Obs.current, Obs.notDequeued]
    simp only [tagged, hcur, List.mem_cons] at hp
    rcases hp with rfl | hp
    · rfl
    · exact ih (fun o ho => h o (by simp [ho])) p hp

/-- The observations of one loop iteration: the dequeue of `a` and then a trace without
dequeue in which, when `a` is an entry of `name`, nothing is heard. -/
theorem silentFor_iteration {name : String} {oldN : Nat} {oldH : List Nat}
    (a : PriorityEvent δ) (tr : List (Obs δ)) (hnd : ∀ o ∈ tr, Obs.notDequeued o)
    (h : a.event = name → ∀ o ∈ tr, Obs.unheard oldN oldH o) :
    SilentFor name oldN oldH (Obs.dequeued a :: tr) := by
  intro cur p hp e he hn
  simp only [tagged, Obs.current, List.mem_cons] at hp
  rcases hp with rfl | hp
  · simp [Obs.unheard]
  · have h1 := tagged_of_notDequeued (some a) tr hnd p hp
    rw [h1] at he
    injection he with he
    subst he
    exact h hn p.2 (tagged_snd_mem _ tr p hp)

theorem offInv_of_registry {name : String} {oldN : Nat} {oldH : List Nat}
    {h h' : HubEventEmitter δ} (hi : OffInv name oldN oldH h)
    (he : h'.eventEmitter = h.eventEmitter) (hh : h'.handlers = h.handlers)
    (hn : h'.nextChannel = h.nextChannel) : OffInv name oldN oldH h' := by
  unfold OffInv registered at *
  rw [he, hh, hn]
  exact hi

theorem call_offInv {name : String} {oldN : Nat} {oldH : List Nat} (h : HubEventEmitter δ)
    (hi : OffInv name oldN oldH h) (c : HubCall δ)
    (hc : HubCall.registers name oldH c = false) : OffInv name oldN oldH (h.call c).hub := by
  cases c with
  | setLogging enable => exact offInv_of_registry hi rfl rfl rfl
  | «on» event filters =>
    obtain ⟨h1, h2, h3⟩ := hi
    refine ⟨?_, ?_, h3⟩
    · intro l hl
      simp only [call, HubEventEmitter.on, EventEmitter.on] at hl
      by_cases hk : name = event
      · rw [if_pos hk] at hl
        rcases List.mem_append.mp hl with h4 | h4
        · exact h1 l h4
        · simp at h4
          subst h4
          exact h2
      · rw [if_neg hk] at hl
        exact h1 l hl
    · simp only [call, HubEventEmitter.on]
      omega
  | emitWithContext ctx event data priority =>
    have := emitWithContext_sameRegistry h ctx event data priority
    exact offInv_of_registry hi this.1 this.2.1 this.2.2.2.2
  | onEvent event handler =>
    by_cases hn : (h.onEvent event handler).completion = Completion.normal
    · obtain ⟨h1, h2, h3⟩ := hi
      simp only [call]
      rw [onEvent_of_normal h event handler hn]
      refine ⟨h1, h2, ?_⟩
      intro H hH
      simp only [registered] at hH
      by_cases hk : name = event
      · subst hk
        simp only [if_true, Option.getD_some] at hH
        rcases List.mem_append.mp hH with h4 | h4
        · exact h3 H h4
        · simp at h4
          subst h4
          simpa [HubCall.registers] using hc
      · rw [if_neg hk] at hH
        exact h3 H hH
    · have hhub : (h.onEvent event handler).hub = h := by
        unfold onEvent at hn ⊢
        split <;> simp_all
      simp only [call]
      rw [hhub]
      exact hi
  | off event =>
    obtain ⟨h1, h2, h3⟩ := hi
    refine ⟨?_, h2, ?_⟩
    · intro l hl
      simp only [call, off, EventEmitter.removeAllListeners] at hl
      by_cases hk : name = event
      · simp [hk] at hl
      · rw [if_neg hk] at hl
        exact h1 l hl
    · intro H hH
      simp only [call, off, registered] at hH
      by_cases hk : name = event
      · simp [hk] at hH
      · rw [if_neg hk] at hH
        exact h3 H hH
  | close =>
    obtain ⟨h1, h2, h3⟩ := hi
    refine ⟨?_, h2, ?_⟩
    · intro l hl
      simp [call, close, EventEmitter.removeAllListeners] at hl
    · intro H hH
      simp [call, close, registered] at hH

theorem calls_offInv {name : String} {oldN : Nat} {oldH : List Nat} :
    ∀ (cs : List (HubCall δ)) (h : HubEventEmitter δ), OffInv name oldN oldH h →
      (∀ c ∈ cs, HubCall.registers name oldH c = false) →
      OffInv name oldN oldH (h.calls cs).hub
  | [], h, hi, _ => hi
  | c :: cs, h, hi, hcs => by
    simp only [calls]
    apply Outcome.andThen_hub_inv (OffInv name oldN oldH)
    · exact call_offInv h hi c (hcs c (by simp))
    · intro h' hi'
      exact calls_offInv cs h' hi' (fun c hc => hcs c (by simp [hc]))

end HubEventEmitter
end JsEventHub

namespace JsEventHub
namespace HubEventEmitter

variable {δ : Type}

theorem invoke_offInv {name : String} {oldN : Nat} {oldH : List Nat} {env : Handlers δ}
    (henv : ∀ handler data, ∀ c ∈ (env handler data).calls,
      HubCall.registers name oldH c = false)
    (h : HubEventEmitter δ) (hi : OffInv name oldN oldH h) (handler : Nat) (data : δ) :
    OffInv name oldN oldH (h.invoke env handler data).hub := by
  unfold invoke
  apply Outcome.andThen_hub_inv (OffInv name oldN oldH) hi
  intro h1 hi1
  apply Outcome.andThen_hub_inv (OffInv name oldN oldH)
  · exact calls_offInv _ h1 hi1 (henv handler data)
  · intro h2 hi2
    split <;> exact hi2

theorem forEachHandler_offInv {name : String} {oldN : Nat} {oldH : List Nat}
    {env : Handlers δ}
    (henv : ∀ handler data, ∀ c ∈ (env handler data).calls,
      HubCall.registers name oldH c = false) (data : δ) :
    ∀ (hs : List Nat) (h : HubEventEmitter δ), OffInv name oldN oldH h →
      OffInv name oldN oldH (forEachHandler env data hs h).hub
  | [], h, hi => hi
  | handler :: rest, h, hi => by
    simp only [forEachHandler]
    apply Outcome.andThen_hub_inv (OffInv name oldN oldH)
    · exact invoke_offInv henv h hi handler data
    · intro h1 hi1
      exact forEachHandler_offInv henv data rest h1 hi1

theorem dispatch_offInv {name : String} {oldN : Nat} {oldH : List Nat} {env : Handlers δ}
    (henv : ∀ handler data, ∀ c ∈ (env handler data).calls,
      HubCall.registers name oldH c = false)
    (h : HubEventEmitter δ) (hi : OffInv name oldN oldH h) (event : String) (data : δ) :
    OffInv name oldN oldH (h.dispatch env event data).hub := by
  unfold dispatch
  split
  · exact hi
  · exact forEachHandler_offInv henv data _ h hi
  · exact hi

theorem deliver_offInv {name : String} {oldN : Nat} {oldH : List Nat} {env : Handlers δ}
    (henv : ∀ handler data, ∀ c ∈ (env handler data).calls,
      HubCall.registers name oldH c = false)
    (h : HubEventEmitter δ) (hi : OffInv name oldN oldH h) (e : PriorityEvent δ) :
    OffInv name oldN oldH (h.deliver env e).hub := by
  unfold deliver
  apply Outcome.andThen_hub_inv (OffInv name oldN oldH)
  · rw [log_hub]; exact hi
  · intro h1 hi1
    apply Outcome.andThen_hub_inv (OffInv name oldN oldH) hi1
    intro h2 hi2
    exact dispatch_offInv henv h2 hi2 _ _

/-- While an entry of `name` is delivered in a hub where `name` has only new
subscriptions and new handlers, nothing is heard on the old ones. -/
theorem deliver_unheard {name : String} {oldN : Nat} {oldH : List Nat} (env : Handlers δ)
    (h : HubEventEmitter δ) (hi : OffInv name oldN oldH h) (e : PriorityEvent δ)
    (he : e.event = name) : ∀ o ∈ (h.deliver env e).trace, Obs.unheard oldN oldH o := by
  unfold deliver
  apply Outcome.andThen_trace_inv (OffInv name oldN oldH) (Obs.unheard oldN oldH)
  · rw [log_hub]; exact hi
  · intro o ho
    exact unheard_of_isLog oldN oldH
      (log_trace_isLog h (Obs.logProcessing e.event e.priority) trivial o ho)
  · intro h1 hi1
    apply Outcome.andThen_trace_inv (OffInv name oldN oldH) (Obs.unheard oldN oldH) hi1
    · intro o ho
      obtain ⟨l, hl, _, rfl⟩ := emit_trace_cases h1.eventEmitter e.event e.data o ho
      rw [he] at hl
      have := hi1.1 l hl
      refine ⟨fun ch d hch heq => ?_, fun H d _ heq => by cases heq⟩
      injection heq with h3 _
      omega
    · intro h2 hi2 o ho
      rcases dispatch_trace_cases env h2 e.event e.data o ho with h3 | ⟨H, hH, rfl⟩
      · exact unheard_of_isLog oldN oldH h3
      · rw [he] at hH
        refine ⟨fun ch d _ heq => (by cases heq), fun H' d hH' heq => ?_⟩
        injection heq with h3 _
        subst h3
        exact hi2.2.2 H hH hH'

/-- Every drain started where `name` has only new subscriptions and new handlers ends
there, and is silent for the old ones while an entry of `name` is delivered. -/
theorem processLoop_silent {name : String} {oldN : Nat} {oldH : List Nat}
    {env : Handlers δ}
    (henv : ∀ handler data, ∀ c ∈ (env handler data).calls,
      HubCall.registers name oldH c = false) :
    ∀ (fuel : Nat) (h : HubEventEmitter δ), OffInv name oldN oldH h →
      OffInv name oldN oldH (processLoop env fuel h).hub ∧
      SilentFor name oldN oldH (processLoop env fuel h).trace
  | 0, h, hi => by
    simp only [processLoop]
    exact ⟨hi, silentFor_nil name oldN oldH⟩
  | fuel + 1, h, hi => by
    rw [processLoop]
    split
    · split
      · exact ⟨hi, silentFor_nil name oldN oldH⟩
      · exact ⟨offInv_of_registry hi rfl rfl rfl, silentFor_nil name oldN oldH⟩
      · next e q _ =>
        have hi0 : OffInv name oldN oldH { h with events := q } :=
          offInv_of_registry hi rfl rfl rfl
        rw [Outcome.mk_andThen]
        have hi1 := deliver_offInv henv _ hi0 e
        have hs1 : SilentFor name oldN oldH
            ([Obs.dequeued e] ++ (deliver env { h with events := q } e).trace) :=
          silentFor_iteration e _ (deliver_trace_notDequeued env _ e)
            (fun hn => deliver_unheard env _ hi0 e hn)
        by_cases hc : (deliver env { h with events := q } e).completion = Completion.normal
        · have ih := processLoop_silent henv fuel _ hi1
          simp only [Outcome.andThen, hc]
          exact ⟨ih.1, silentFor_append hs1 ih.2⟩
        · have hr : ∀ (k : HubEventEmitter δ → Outcome δ),
              (Outcome.mk (deliver env { h with events := q } e).hub
                ([Obs.dequeued e] ++ (deliver env { h with events := q } e).trace)
                (deliver env { h with events := q } e).completion).andThen k =
              Outcome.mk (deliver env { h with events := q } e).hub
                ([Obs.dequeued e] ++ (deliver env { h with events := q } e).trace)
                (deliver env { h with events := q } e).completion :=
            fun k => Outcome.andThen_of_not_normal k hc
          rw [hr]
          exact ⟨hi1, hs1⟩
    · exact ⟨hi, silentFor_nil name oldN oldH⟩

theorem call_silent {name : String} {oldN : Nat} {oldH : List Nat} (h : HubEventEmitter δ)
    (c : HubCall δ) : SilentFor name oldN oldH (h.call c).trace :=
  silentFor_of_all (fun o ho => unheard_of_isLog oldN oldH (call_trace_isLog h c o ho))

theorem run_silent {name : String} {oldN : Nat} {oldH : List Nat} {env : Handlers δ}
    (henv : ∀ handler data, ∀ c ∈ (env handler data).calls,
      HubCall.registers name oldH c = false) :
    ∀ (ops : List (Op δ)) (h : HubEventEmitter δ), OffInv name oldN oldH h →
      (∀ c, Op.call c ∈ ops → HubCall.registers name oldH c = false) →
      OffInv name oldN oldH (h.run env ops).1 ∧ SilentFor name oldN oldH (h.run env ops).2
  | [], h, hi, _ => ⟨hi, silentFor_nil name oldN oldH⟩
  | op :: ops, h, hi, hops => by
    simp only [run]
    have hstep : OffInv name oldN oldH (h.step env op).hub ∧
        SilentFor name oldN oldH (h.step env op).trace := by
      cases op with
      | call c => exact ⟨call_offInv h hi c (hops c (by simp)), call_silent h c⟩
      | processEvents fuel ctx => exact processLoop_silent henv fuel h hi
    have ih := run_silent henv ops _ hstep.1 (fun c hc => hops c (by simp [hc]))
    exact ⟨ih.1, silentFor_append hstep.2 ih.2⟩

theorem off_offInv (h : HubEventEmitter δ) (name : String) :
    OffInv name h.nextChannel (h.registered name) (h.off name) := by
  refine ⟨?_, Nat.le_refl _, ?_⟩
  · intro l hl
    simp [off, EventEmitter.removeAllListeners] at hl
  · intro H hH
    simp [off, registered] at hH

end HubEventEmitter
end JsEventHub

namespace JsEventHub
namespace HubEventEmitter

variable {δ : Type}

/-! ## The invariant of the hubs an application can build -/

theorem wellFormed_constructor (logging : Bool) :
    WellFormed (HubEventEmitter.constructor logging : HubEventEmitter δ) := by
  refine ⟨⟨rfl, ?_, ?_⟩, ?_, ?_⟩
  · intro i _ hi
    simp [HubEventEmitter.constructor, PriorityQueue.empty] at hi
  · intro e he
    simp [HubEventEmitter.constructor, PriorityQueue.empty] at he
  · intro hl
    simp only [HubEventEmitter.constructor] at hl ⊢
    simp [hl]
  · intro name l hl
    simp [HubEventEmitter.constructor, EventEmitter.create] at hl

theorem wellFormed_of_sameRegistry {h h' : HubEventEmitter δ} (hw : WellFormed h)
    (hs : SameRegistry h' h) (hq : QueueOK h') : WellFormed h' := by
  refine ⟨hq, loggerOK_of_sameRegistry hs hw.2.1, ?_⟩
  intro name l hl
  rw [hs.1] at hl
  rw [hs.2.2.2.2]
  exact hw.2.2 name l hl

theorem call_wellFormed (h : HubEventEmitter δ) (hw : WellFormed h) (c : HubCall δ)
    (hc : HubCall.finite c = true) : WellFormed (h.call c).hub := by
  cases c with
  | setLogging enable =>
    refine ⟨hw.1, ?_, hw.2.2⟩
    intro hl
    simp only [call, setLogging] at hl ⊢
    simp [hl]
  | «on» event filters =>
    exact ⟨hw.1, hw.2.1, on_channelsFresh h hw.2.2 event filters⟩
  | emitWithContext ctx event data priority =>
    exact wellFormed_of_sameRegistry hw (emitWithContext_sameRegistry h ctx event data priority)
      (emitWithContext_queueOK h ctx event data priority hw.1 hc)
  | onEvent event handler =>
    have hf := onEvent_emitter h event handler
    refine ⟨?_, ?_, ?_⟩
    · simp only [call, QueueOK, LengthOK, onEvent_events]
      exact hw.1
    · intro hl
      simp only [call] at hl ⊢
      rw [hf.2.2.2]
      exact hw.2.1 (hf.2.2.1 ▸ hl)
    · intro name l hl
      simp only [call] at hl ⊢
      rw [hf.1] at hl
      rw [hf.2.1]
      exact hw.2.2 name l hl
  | off event =>
    refine ⟨hw.1, hw.2.1, ?_⟩
    intro name l hl
    simp only [call, off, EventEmitter.removeAllListeners] at hl ⊢
    by_cases hk : name = event
    · simp [hk] at hl
    · rw [if_neg hk] at hl
      exact hw.2.2 name l hl
  | close =>
    refine ⟨hw.1, hw.2.1, ?_⟩
    intro name l hl
    simp [call, close, EventEmitter.removeAllListeners] at hl

theorem calls_wellFormed : ∀ (cs : List (HubCall δ)) (h : HubEventEmitter δ), WellFormed h →
    (∀ c ∈ cs, HubCall.finite c = true) → WellFormed (h.calls cs).hub
  | [], h, hw, _ => hw
  | c :: cs, h, hw, hcs => by
    simp only [calls]
    apply Outcome.andThen_hub_inv WellFormed
    · exact call_wellFormed h hw c (hcs c (by simp))
    · intro h' hw'
      exact calls_wellFormed cs h' hw' (fun c hc => hcs c (by simp [hc]))

theorem deliver_wellFormed {env : Handlers δ}
    (henv : ∀ handler data, ∀ c ∈ (env handler data).calls, HubCall.finite c = true)
    (h : HubEventEmitter δ) (hw : WellFormed h) (e : PriorityEvent δ) :
    WellFormed (h.deliver env e).hub := by
  have hinvoke : ∀ (h : HubEventEmitter δ) (handler : Nat) (data : δ), WellFormed h →
      WellFormed (h.invoke env handler data).hub := by
    intro h handler data hw
    unfold invoke
    apply Outcome.andThen_hub_inv WellFormed hw
    intro h1 hw1
    apply Outcome.andThen_hub_inv WellFormed
    · exact calls_wellFormed _ h1 hw1 (henv handler data)
    · intro h2 hw2
      split <;> exact hw2
  have hforEach : ∀ (data : δ) (hs : List Nat) (h : HubEventEmitter δ), WellFormed h →
      WellFormed (forEachHandler env data hs h).hub := by
    intro data hs
    induction hs with
    | nil => exact fun h hw => hw
    | cons handler rest ih =>
      intro h hw
      simp only [forEachHandler]
      apply Outcome.andThen_hub_inv WellFormed (hinvoke h handler data hw)
      exact fun h1 hw1 => ih h1 hw1
  unfold deliver
  apply Outcome.andThen_hub_inv WellFormed
  · rw [log_hub]; exact hw
  · intro h1 hw1
    apply Outcome.andThen_hub_inv WellFormed hw1
    intro h2 hw2
    unfold dispatch
    split
    · exact hw2
    · exact hforEach _ _ h2 hw2
    · exact hw2

theorem afterDequeue_wellFormed (h : HubEventEmitter δ) (hw : WellFormed h)
    (a : PriorityEvent δ) (t : List (PriorityEvent δ)) (hd : h.events.data = a :: t) :
    WellFormed (h.afterDequeue a t) :=
  wellFormed_of_sameRegistry hw (afterDequeue_sameRegistry h a t)
    (afterDequeue_queueOK h a t hw.1 hd)

theorem processLoop_wellFormed {env : Handlers δ}
    (henv : ∀ handler data, ∀ c ∈ (env handler data).calls, HubCall.finite c = true) :
    ∀ (fuel : Nat) (h : HubEventEmitter δ), WellFormed h →
      WellFormed (processLoop env fuel h).hub
  | 0, h, hw => by simp only [processLoop]; exact hw
  | fuel + 1, h, hw => by
    cases hd : h.events.data with
    | nil =>
      have h1 : h.events.length = 0 := by rw [hw.1.1, hd]; rfl
      rw [processLoop_of_empty env _ h h1]
      exact hw
    | cons a t =>
      rw [processLoop_step env fuel h a t hw.1.1 hd, Outcome.mk_andThen]
      have h1 := deliver_wellFormed henv _ (afterDequeue_wellFormed h hw a t hd) a
      exact @Outcome.andThen_hub_inv δ WellFormed (Outcome.mk _ _ _) _ h1
        (fun h2 hw2 => processLoop_wellFormed henv fuel h2 hw2)

/-- Every hub an application reaches from a well-formed one by calls and drains, with
finite priorities throughout, is well-formed. -/
theorem run_wellFormed {env : Handlers δ}
    (henv : ∀ handler data, ∀ c ∈ (env handler data).calls, HubCall.finite c = true) :
    ∀ (ops : List (Op δ)) (h : HubEventEmitter δ), WellFormed h →
      (∀ c, Op.call c ∈ ops → HubCall.finite c = true) → WellFormed (h.run env ops).1
  | [], h, hw, _ => hw
  | op :: ops, h, hw, hops => by
    simp only [run]
    have hstep : WellFormed (h.step env op).hub := by
      cases op with
      | call c => exact call_wellFormed h hw c (hops c (by simp))
      | processEvents fuel ctx => exact processLoop_wellFormed henv fuel h hw
    exact run_wellFormed henv ops _ hstep (fun c hc => hops c (by simp [hc]))

end HubEventEmitter
end JsEventHub

namespace JsEventHub
namespace HubEventEmitter

variable {δ : Type}

/-! ## What a subscription receives in a drain -/

theorem subInv_of_registry {name : String} {l : Listener δ} {h h' : HubEventEmitter δ}
    (hi : SubInv name l h) (he : h'.eventEmitter = h.eventEmitter)
    (hn : h'.nextChannel = h.nextChannel) (hlog : LoggerOK h') (hl : LengthOK h') :
    SubInv name l h' := by
  obtain ⟨h1, h2, h3, _, _⟩ := hi
  refine ⟨?_, ?_, ?_, hlog, hl⟩
  · unfold Subscribed
    rw [he]
    exact h1
  · rw [he]
    exact h2
  · rw [hn]
    exact h3

theorem call_subInv {name : String} {l : Listener δ} (h : HubEventEmitter δ)
    (hi : SubInv name l h) (c : HubCall δ) (hc : HubCall.unsubscribes name c = false) :
    SubInv name l (h.call c).hub := by
  cases c with
  | setLogging enable =>
    refine subInv_of_registry hi rfl rfl ?_ hi.2.2.2.2
    intro hl
    simp only [call, setLogging] at hl ⊢
    simp [hl]
  | «on» event filters =>
    obtain ⟨⟨before, after, he, hb, ha⟩, h2, h3, h4, h5⟩ := hi
    refine ⟨?_, ?_, ?_, h4, h5⟩
    · by_cases hk : name = event
      · subst hk
        refine ⟨before, after ++ [⟨filters, h.nextChannel⟩], ?_, hb, ?_⟩
        · simp [call, HubEventEmitter.on, EventEmitter.on, he]
        · intro x hx
          rcases List.mem_append.mp hx with h6 | h6
          · exact ha x h6
          · simp at h6
            subst h6
            simp only []
            omega
      · refine ⟨before, after, ?_, hb, ha⟩
        simp [call, HubEventEmitter.on, EventEmitter.on, hk, he]
    · intro m hm x hx
      simp only [call, HubEventEmitter.on, EventEmitter.on] at hx
      by_cases hk : m = event
      · rw [if_pos hk] at hx
        rcases List.mem_append.mp hx with h6 | h6
        · exact h2 m hm x h6
        · simp at h6
          subst h6
          simp only []
          omega
      · rw [if_neg hk] at hx
        exact h2 m hm x hx
    · simp only [call, HubEventEmitter.on]
      omega
  | emitWithContext ctx event data priority =>
    have hs := emitWithContext_sameRegistry h ctx event data priority
    exact subInv_of_registry hi hs.1 hs.2.2.2.2 (loggerOK_of_sameRegistry hs hi.2.2.2.1)
      (emitWithContext_lengthOK h hi.2.2.2.2 ctx event data priority)
  | onEvent event handler =>
    have hf := onEvent_emitter h event handler
    refine subInv_of_registry hi hf.1 hf.2.1 ?_ ?_
    · intro hl
      simp only [call] at hl ⊢
      rw [hf.2.2.2]
      exact hi.2.2.2.1 (hf.2.2.1 ▸ hl)
    · simp only [call, LengthOK, onEvent_events]
      exact hi.2.2.2.2
  | off event =>
    have hne : ¬ event = name := by simpa [HubCall.unsubscribes] using hc
    obtain ⟨⟨before, after, he, hb, ha⟩, h2, h3, h4, h5⟩ := hi
    refine ⟨⟨before, after, ?_, hb, ha⟩, ?_, h3, h4, h5⟩
    · simp only [call, off, EventEmitter.removeAllListeners]
      rw [if_neg (fun h' => hne h'.symm)]
      exact he
    · intro m hm x hx
      simp only [call, off, EventEmitter.removeAllListeners] at hx
      by_cases hk : m = event
      · simp [hk] at hx
      · rw [if_neg hk] at hx
        exact h2 m hm x hx
  | close => simp [HubCall.unsubscribes] at hc

theorem calls_subInv {name : String} {l : Listener δ} :
    ∀ (cs : List (HubCall δ)) (h : HubEventEmitter δ), SubInv name l h →
      (∀ c ∈ cs, HubCall.unsubscribes name c = false) → SubInv name l (h.calls cs).hub
  | [], h, hi, _ => hi
  | c :: cs, h, hi, hcs => by
    simp only [calls]
    apply Outcome.andThen_hub_inv (SubInv name l)
    · exact call_subInv h hi c (hcs c (by simp))
    · intro h' hi'
      exact calls_subInv cs h' hi' (fun c hc => hcs c (by simp [hc]))

theorem deliver_subInv {name : String} {l : Listener δ} {env : Handlers δ}
    (henv : KeepsSubscriptions name env) (h : HubEventEmitter δ) (hi : SubInv name l h)
    (e : PriorityEvent δ) : SubInv name l (h.deliver env e).hub := by
  have hinvoke : ∀ (h : HubEventEmitter δ) (handler : Nat) (data : δ), SubInv name l h →
      SubInv name l (h.invoke env handler data).hub := by
    intro h handler data hi
    unfold invoke
    apply Outcome.andThen_hub_inv (SubInv name l) hi
    intro h1 hi1
    apply Outcome.andThen_hub_inv (SubInv name l)
    · exact calls_subInv _ h1 hi1 (henv handler data)
    · intro h2 hi2
      split <;> exact hi2
  have hforEach : ∀ (data : δ) (hs : List Nat) (h : HubEventEmitter δ), SubInv name l h →
      SubInv name l (forEachHandler env data hs h).hub := by
    intro data hs
    induction hs with
    | nil => exact fun h hi => hi
    | cons handler rest ih =>
      intro h hi
      simp only [forEachHandler]
      apply Outcome.andThen_hub_inv (SubInv name l) (hinvoke h handler data hi)
      exact fun h1 hi1 => ih h1 hi1
  unfold deliver
  apply Outcome.andThen_hub_inv (SubInv name l)
  · rw [log_hub]; exact hi
  · intro h1 hi1
    apply Outcome.andThen_hub_inv (SubInv name l) hi1
    intro h2 hi2
    unfold dispatch
    split
    · exact hi2
    · exact hforEach _ _ h2 hi2
    · exact hi2

/-- What the delivery of one entry emits on the channel of the subscription: what its
listener emits for the payload when the entry has its name, nothing otherwise. -/
theorem delivered_deliver_subInv {name : String} {l : Listener δ} (env : Handlers δ)
    (h : HubEventEmitter δ) (hi : SubInv name l h) (e : PriorityEvent δ) :
    delivered l.ch (h.deliver env e).trace =
      if e.event = name then delivered l.ch (l.call e.data) else [] := by
  rw [delivered_deliver h hi.2.2.2.1]
  by_cases hk : e.event = name
  · rw [if_pos hk, hk]
    exact (delivered_emit_subscribed h name l hi.1 e.data).2
  · rw [if_neg hk]
    exact emit_of_no_channel _ _ _ _ (hi.2.1 e.event hk)

theorem afterDequeue_subInv {name : String} {l : Listener δ} (h : HubEventEmitter δ)
    (hi : SubInv name l h) (a : PriorityEvent δ) (t : List (PriorityEvent δ))
    (hd : h.events.data = a :: t) : SubInv name l (h.afterDequeue a t) :=
  subInv_of_registry hi rfl rfl hi.2.2.2.1 (afterDequeue_lengthOK h a t hi.2.2.2.2 hd)

/-- In every drain during which the subscription stays registered, the payloads emitted
on its channel are, for each dequeued entry of its name in turn, what its listener emits
for the payload of the entry. -/
theorem processLoop_delivered {name : String} {l : Listener δ} {env : Handlers δ}
    (henv : KeepsSubscriptions name env) :
    ∀ (fuel : Nat) (h : HubEventEmitter δ), SubInv name l h →
      SubInv name l (processLoop env fuel h).hub ∧
      delivered l.ch (processLoop env fuel h).trace =
        (dispatched (processLoop env fuel h).trace).flatMap
          (fun e => if e.event = name then delivered l.ch (l.call e.data) else [])
  | 0, h, hi => by
    simp only [processLoop, dispatched, delivered, List.flatMap_nil]
    exact ⟨hi, trivial⟩
  | fuel + 1, h, hi => by
    cases hd : h.events.data with
    | nil =>
      have h1 : h.events.length = 0 := by rw [hi.2.2.2.2, hd]; rfl
      rw [processLoop_of_empty env _ h h1]
      simp only [dispatched, delivered, List.flatMap_nil]
      exact ⟨hi, trivial⟩
    | cons a t =>
      have hi0 := afterDequeue_subInv h hi a t hd
      have hi1 := deliver_subInv henv _ hi0 a
      have hdel := delivered_deliver_subInv env _ hi0 a
      have hnd := dispatched_eq_nil (deliver_trace_notDequeued env (h.afterDequeue a t) a)
      by_cases hc : ((h.afterDequeue a t).deliver env a).completion = Completion.normal
      · rw [processLoop_step_normal env fuel h a t hi.2.2.2.2 hd hc]
        have ih := processLoop_delivered henv fuel _ hi1
        simp only [delivered, delivered_append, dispatched, dispatched_append, hnd,
          List.nil_append, List.flatMap_cons, hdel]
        exact ⟨ih.1, by rw [ih.2]⟩
      · rw [processLoop_step_abort env fuel h a t hi.2.2.2.2 hd hc]
        simp only [delivered, dispatched, hnd, List.flatMap_cons, List.flatMap_nil,
          List.append_nil, hdel]
        exact ⟨hi1, trivial⟩

theorem on_subInv (h : HubEventEmitter δ) (hf : ChannelsFresh h) (hlog : LoggerOK h)
    (hl : LengthOK h) (name : String) (filters : List (δ → Bool)) :
    SubInv name ⟨filters, (h.on name filters).1⟩ (h.on name filters).2 :=
  ⟨on_subscribed h hf name filters,
    fun m hm => on_other_channels h hf name filters m hm,
    by simp [HubEventEmitter.on], hlog, hl⟩

theorem emitAll_subInv {name : String} {l : Listener δ} :
    ∀ (cs : List (EmitArgs δ)) (h : HubEventEmitter δ), SubInv name l h →
      SubInv name l (h.emitAll cs)
  | [], h, hi => hi
  | c :: cs, h, hi => by
    simp only [emitAll]
    exact emitAll_subInv cs _
      (call_subInv h hi (HubCall.emitWithContext c.ctx c.event c.data c.priority) rfl)

end HubEventEmitter
end JsEventHub

namespace JsEventHub

open HubEventEmitter

variable {δ : Type}

/-! ## Auxiliary facts for the statements -/

theorem queueOK_constructor (logging : Bool) :
    QueueOK (HubEventEmitter.constructor logging : HubEventEmitter δ) := by
  refine ⟨rfl, ?_, ?_⟩
  · intro i _ hi
    simp [HubEventEmitter.constructor, PriorityQueue.empty] at hi
  · intro e he
    simp [HubEventEmitter.constructor, PriorityQueue.empty] at he

theorem noEnqueue_of_passive {env : Handlers δ} (hp : Passive env) : NoEnqueue env := by
  intro handler data c hc
  rw [hp handler data] at hc
  simp at hc

theorem passive_quiet : Passive Examples.quiet := fun _ _ => rfl

theorem channelsFresh_constructor (logging : Bool) :
    ChannelsFresh (HubEventEmitter.constructor logging : HubEventEmitter δ) := by
  intro name l hl
  simp [HubEventEmitter.constructor, EventEmitter.create] at hl

theorem loggerOK_constructor (logging : Bool) :
    LoggerOK (HubEventEmitter.constructor logging : HubEventEmitter δ) := by
  intro hl
  simp only [HubEventEmitter.constructor] at hl ⊢
  simp [hl]

/-- When `name` is emitted on the emitter, a subscription created by `on(name, f1, ..., fk)`
and still registered emits `data` with the payload exactly when one of the filters holds
of the payload, once; with no filter it emits every payload. -/
theorem subscription_emits_iff (h : HubEventEmitter δ)
    (hf : ChannelsFresh h) (name : String) (filters : List (δ → Bool))
    (cs : List (HubCall δ)) (hcs : ∀ c ∈ cs, HubCall.unsubscribes name c = false)
    (payload : δ) :
    (filters = [] →
      delivered (h.on name filters).1
        (((h.on name filters).2.calls cs).hub.eventEmitter.emit name payload).1 = [payload]) ∧
    (filters ≠ [] →
      (delivered (h.on name filters).1
          (((h.on name filters).2.calls cs).hub.eventEmitter.emit name payload).1 = [payload] ↔
        ∃ f ∈ filters, f payload = true) ∧
      (delivered (h.on name filters).1
          (((h.on name filters).2.calls cs).hub.eventEmitter.emit name payload).1 = [] ↔
        ∀ f ∈ filters, f payload = false)) := by
  have hs := calls_subscribedFresh name ⟨filters, (h.on name filters).1⟩ cs _
    (on_subscribedFresh h hf name filters) hcs
  have he := (delivered_emit_subscribed _ name _ hs.2.1 payload).2
  have hc := delivered_call_self ⟨filters, (h.on name filters).1⟩ payload
  simp only [Listener.passes] at he hc
  rw [he]
  constructor
  · intro h0
    exact hc.1 (Or.inl (by simp [h0]))
  · intro h0
    have hlen : ¬ filters.length = 0 := by simpa using h0
    constructor
    · constructor
      · intro h1
        by_contra h2
        rw [hc.2 (fun h3 => h3.elim hlen h2)] at h1
        cases h1
      · intro h1
        exact hc.1 (Or.inr h1)
    · constructor
      · intro h1 f hf1
        by_contra h2
        rw [hc.1 (Or.inr ⟨f, hf1, by simpa using h2⟩)] at h1
        cases h1
      · intro h1
        apply hc.2
        rintro (h2 | ⟨f, hf1, h2⟩)
        · exact hlen h2
        · rw [h1 f hf1] at h2
          cases h2

theorem noThrow_quiet : NoThrow Examples.quiet := fun _ _ => rfl

theorem channelsFresh_of_emitter {h h' : HubEventEmitter δ} (hf : ChannelsFresh h)
    (he : h'.eventEmitter = h.eventEmitter) (hn : h'.nextChannel = h.nextChannel) :
    ChannelsFresh h' := by
  intro name l hl
  rw [he] at hl
  rw [hn]
  exact hf name l hl

theorem channelsFresh_subscribedHub : ChannelsFresh Examples.subscribedHub := by
  have a : ChannelsFresh Examples.notifyHub :=
    channelsFresh_of_emitter (channelsFresh_constructor false) rfl rfl
  have b := on_channelsFresh Examples.notifyHub a "notify" []
  have s := emitAll_sameRegistry Examples.notifyEmits (Examples.notifyHub.on "notify" []).2
  exact channelsFresh_of_emitter b s.1 s.2.2.2.2

theorem deliver_completion_of_emit_normal {env : Handlers δ} (h : HubEventEmitter δ)
    (hlog : LoggerOK h) (e : PriorityEvent δ)
    (hem : (h.eventEmitter.emit e.event e.data).2 = Completion.normal) :
    (h.deliver env e).completion = (h.dispatch env e.event e.data).completion := by
  unfold deliver
  rw [Outcome.andThen_of_normal _ (log_normal hlog _), log_hub]
  simp only
  rw [Outcome.andThen_of_normal _ hem]

theorem emit_normal_of_listeners (em : EventEmitter δ) (event : String) (data : δ)
    (h : event = "error" → em.events event ≠ []) :
    (em.emit event data).2 = Completion.normal := by
  unfold EventEmitter.emit
  split
  · next hc => exact absurd (List.length_eq_zero.mp hc.2) (h hc.1)
  · rfl

theorem keepsSubscriptions_of_passive {env : Handlers δ} (hp : Passive env) (name : String) :
    KeepsSubscriptions name env := by
  intro handler data c hc
  rw [hp handler data] at hc
  simp at hc

theorem flatMap_listener_filter (name : String) (l : Listener δ)
    (es : List (PriorityEvent δ)) :
    es.flatMap (fun e => if e.event = name then delivered l.ch (l.call e.data) else []) =
      (es.filter (fun e => decide (e.event = name ∧
        (l.filters.length = 0 ∨ ∃ f ∈ l.filters, f e.data = true)))).map (fun e => e.data) := by
  rw [← flatMap_ite_singleton]
  apply flatMap_congr_mem
  intro e _
  have hc := delivered_call_self l e.data
  simp only [Listener.passes] at hc
  by_cases hk : e.event = name
  · by_cases hp : l.filters.length = 0 ∨ ∃ f ∈ l.filters, f e.data = true
    · rw [if_pos hk, if_pos ⟨hk, hp⟩, hc.1 hp]
    · rw [if_pos hk, if_neg (fun h => hp h.2), hc.2 hp]
  · rw [if_neg hk, if_neg (fun h => hk h.1)]

theorem deliver_normal {env : Handlers δ} (hp : Passive env) (hnt : NoThrow env)
    (h : HubEventEmitter δ) (hlog : LoggerOK h) (e : PriorityEvent δ)
    (hd : Deliverable h e.event) : (h.deliver env e).completion = Completion.normal := by
  rw [deliver_completion_of_emit_normal h hlog e
    (emit_normal_of_listeners h.eventEmitter e.event e.data hd.1)]
  have hl := hd.2
  unfold dispatch
  cases hh : h.lookupHandlers e.event with
  | undefined => rfl
  | array hs =>
    simp only
    rw [forEachHandler_quiet hp e.data hs h (fun H _ => hnt H e.data)]
  | inherited => exact absurd hh hl

/-- A drain returns normally when the handlers neither call back nor throw, the logger is
in order, and the hub can deliver every queued name. -/
theorem processLoop_normal {env : Handlers δ} (hp : Passive env) (hnt : NoThrow env)
    (h0 : HubEventEmitter δ) (hlog : LoggerOK h0) :
    ∀ (fuel : Nat) (h : HubEventEmitter δ), SameRegistry h h0 → LengthOK h →
      (∀ e ∈ h.events.data, Deliverable h0 e.event) → h.events.data.length ≤ fuel →
      (processLoop env fuel h).completion = Completion.normal
  | 0, h, _, hl, _, hf => by
    have h0' : h.events.data = [] := List.length_eq_zero.mp (by omega)
    have h1 : h.events.length = 0 := by rw [hl, h0']; rfl
    rw [processLoop_of_empty env 0 h h1]
  | fuel + 1, h, hs, hl, hd, hf => by
    cases hdat : h.events.data with
    | nil =>
      have h1 : h.events.length = 0 := by rw [hl, hdat]; rfl
      rw [processLoop_of_empty env _ h h1]
    | cons a t =>
      have hs1 : SameRegistry (h.afterDequeue a t) h0 :=
        sameRegistry_trans (afterDequeue_sameRegistry h a t) hs
      have hc : ((h.afterDequeue a t).deliver env a).completion = Completion.normal := by
        rw [(deliver_sameRegistry hp hs1 a).2]
        exact deliver_normal hp hnt h0 hlog a (hd a (by rw [hdat]; simp))
      have hhub := deliver_passive_hub hp (h.afterDequeue a t) a
      have hperm := BinaryHeapStrategy.dequeue_cons_perm comparator a t
      rw [processLoop_step_normal env fuel h a t hl hdat hc, hhub]
      apply processLoop_normal hp hnt h0 hlog fuel _ hs1 (afterDequeue_lengthOK h a t hl hdat)
      · intro e he
        apply hd e
        rw [hdat]
        exact List.mem_cons_of_mem _ (hperm.mem_iff.mp he)
      · have : (h.afterDequeue a t).events.data.length = t.length := hperm.length_eq
        rw [this]
        rw [hdat] at hf
        simpa using hf

end JsEventHub

namespace JsEventHub

variable {δ : Type}

/-! ## Two runs of the same program on related hubs -/

theorem Outcome.agree_andThen {R : HubEventEmitter δ → HubEventEmitter δ → Prop}
    {keep : Obs δ → Bool} {r r' : Outcome δ} {k k' : HubEventEmitter δ → Outcome δ}
    (h1 : Outcome.Agree R keep r r')
    (h2 : ∀ h h', R h h' → Outcome.Agree R keep (k h) (k' h')) :
    Outcome.Agree R keep (r.andThen k) (r'.andThen k') := by
  obtain ⟨hR, ht, hc⟩ := h1
  by_cases hn : r.completion = Completion.normal
  · have hn' : r'.completion = Completion.normal := hc ▸ hn
    rw [Outcome.andThen_of_normal k hn, Outcome.andThen_of_normal k' hn']
    obtain ⟨a, b, c⟩ := h2 _ _ hR
    exact ⟨a, by simp only [List.filter_append, ht, b], c⟩
  · have hn' : r'.completion ≠ Completion.normal := hc ▸ hn
    rw [Outcome.andThen_of_not_normal k hn, Outcome.andThen_of_not_normal k' hn']
    exact ⟨hR, ht, hc⟩

namespace HubEventEmitter

variable {R : HubEventEmitter δ → HubEventEmitter δ → Prop} {keep : Obs δ → Bool}

theorem calls_agree (S : Simulation R keep) :
    ∀ (cs : List (HubCall δ)) (h h' : HubEventEmitter δ), R h h' →
      Outcome.Agree R keep (h.calls cs) (h'.calls cs)
  | [], _, _, hR => ⟨hR, rfl, rfl⟩
  | c :: cs, h, h', hR => by
    simp only [calls]
    exact Outcome.agree_andThen (S.call h h' c hR) (fun h1 h1' hR1 => calls_agree S cs h1 h1' hR1)

theorem invoke_agree (S : Simulation R keep) (env : Handlers δ) (h h' : HubEventEmitter δ)
    (hR : R h h') (handler : Nat) (data : δ) :
    Outcome.Agree R keep (h.invoke env handler data) (h'.invoke env handler data) := by
  unfold invoke
  refine Outcome.agree_andThen ?_ ?_
  · exact ⟨hR, rfl, rfl⟩
  intro h1 h1' hR1
  refine Outcome.agree_andThen (calls_agree S _ h1 h1' hR1) ?_
  intro h2 h2' hR2
  split
  · exact ⟨hR2, rfl, rfl⟩
  · exact ⟨hR2, rfl, rfl⟩

theorem forEachHandler_agree (S : Simulation R keep) (env : Handlers δ) (data : δ) :
    ∀ (hs : List Nat) (h h' : HubEventEmitter δ), R h h' →
      Outcome.Agree R keep (forEachHandler env data hs h) (forEachHandler env data hs h')
  | [], _, _, hR => ⟨hR, rfl, rfl⟩
  | handler :: rest, h, h', hR => by
    simp only [forEachHandler]
    exact Outcome.agree_andThen (invoke_agree S env h h' hR handler data)
      (fun h1 h1' hR1 => forEachHandler_agree S env data rest h1 h1' hR1)

theorem lookupHandlers_agree (S : Simulation R keep) (h h' : HubEventEmitter δ) (hR : R h h')
    (event : String) : h.lookupHandlers event = h'.lookupHandlers event := by
  unfold lookupHandlers
  rw [S.handlers h h' hR]

theorem dispatch_agree (S : Simulation R keep) (env : Handlers δ) (h h' : HubEventEmitter δ)
    (hR : R h h') (event : String) (data : δ) :
    Outcome.Agree R keep (h.dispatch env event data) (h'.dispatch env event data) := by
  unfold dispatch
  rw [lookupHandlers_agree S h h' hR event]
  cases h'.lookupHandlers event with
  | undefined => exact ⟨hR, rfl, rfl⟩
  | array hs => exact forEachHandler_agree S env data hs h h' hR
  | inherited => exact ⟨hR, rfl, rfl⟩

theorem deliver_agree (S : Simulation R keep) (env : Handlers δ) (h h' : HubEventEmitter δ)
    (hR : R h h') (e : PriorityEvent δ) :
    Outcome.Agree R keep (h.deliver env e) (h'.deliver env e) := by
  unfold deliver
  refine Outcome.agree_andThen
    (S.log h h' (Obs.logProcessing e.event e.priority) trivial hR) ?_
  intro h1 h1' hR1
  refine Outcome.agree_andThen ?_ ?_
  · exact ⟨hR1, (S.emit h1 h1' _ _ hR1).1, (S.emit h1 h1' _ _ hR1).2⟩
  intro h2 h2' hR2
  exact dispatch_agree S env h2 h2' hR2 _ _

theorem processLoop_agree (S : Simulation R keep) (env : Handlers δ) :
    ∀ (fuel : Nat) (h h' : HubEventEmitter δ), R h h' →
      Outcome.Agree R keep (processLoop env fuel h) (processLoop env fuel h')
  | 0, h, h', hR => by
    simp only [processLoop]
    exact ⟨hR, rfl, by rw [S.events h h' hR]⟩
  | fuel + 1, h, h', hR => by
    have he := S.events h h' hR
    rw [processLoop, processLoop, ← he]
    by_cases hlen : h.events.length > 0
    · rw [if_pos hlen, if_pos hlen]
      cases h.events.dequeue comparator with
      | none => exact ⟨hR, rfl, rfl⟩
      | some p =>
        obtain ⟨o, q⟩ := p
        cases o with
        | none => exact ⟨S.setEvents h h' q hR, rfl, rfl⟩
        | some e =>
          refine Outcome.agree_andThen ?_ ?_
          · refine Outcome.agree_andThen ?_ ?_
            · exact ⟨S.setEvents h h' q hR, rfl, rfl⟩
            · intro h1 h1' hR1
              exact deliver_agree S env h1 h1' hR1 e
          · intro h1 h1' hR1
            exact processLoop_agree S env fuel h1 h1' hR1
    · rw [if_neg hlen, if_neg hlen]
      exact ⟨hR, rfl, rfl⟩

theorem step_agree (S : Simulation R keep) (env : Handlers δ) (h h' : HubEventEmitter δ)
    (hR : R h h') (op : Op δ) : Outcome.Agree R keep (h.step env op) (h'.step env op) := by
  cases op with
  | call c => exact S.call h h' c hR
  | processEvents fuel ctx => exact processLoop_agree S env fuel h h' hR

/-- The same operations performed on two related hubs leave related hubs and the same
selected observations. -/
theorem run_agree (S : Simulation R keep) (env : Handlers δ) :
    ∀ (ops : List (Op δ)) (h h' : HubEventEmitter δ), R h h' →
      R (h.run env ops).1 (h'.run env ops).1 ∧
      (h.run env ops).2.filter keep = (h'.run env ops).2.filter keep
  | [], _, _, hR => ⟨hR, rfl⟩
  | op :: ops, h, h', hR => by
    simp only [run]
    obtain ⟨a, b, _⟩ := step_agree S env h h' hR op
    obtain ⟨c, d⟩ := run_agree S env ops _ _ a
    exact ⟨c, by simp only [List.filter_append, b, d]⟩

end HubEventEmitter
end JsEventHub

namespace JsEventHub

variable {δ : Type}

/-! ## Logging does not influence dispatch -/

theorem filter_visible_of_isLog {tr : List (Obs δ)} (h : ∀ o ∈ tr, Obs.isLog o) :
    tr.filter Obs.visible = [] := by
  induction tr with
  | nil => rfl
  | cons o t ih =>
    have h1 := h o (by simp)
    have h2 := ih (fun o ho => h o (by simp [ho]))
    cases o <;> simp_all [Obs.isLog, Obs.visible]

theorem dispatched_filter_visible (tr : List (Obs δ)) :
    dispatched (tr.filter Obs.visible) = dispatched tr := by
  induction tr with
  | nil => rfl
  | cons o t ih => cases o <;> simp [List.filter_cons, Obs.visible, dispatched, ih]

theorem handled_filter_visible (tr : List (Obs δ)) :
    handled (tr.filter Obs.visible) = handled tr := by
  induction tr with
  | nil => rfl
  | cons o t ih => cases o <;> simp [List.filter_cons, Obs.visible, handled, ih]

theorem delivered_filter_visible (ch : Nat) (tr : List (Obs δ)) :
    delivered ch (tr.filter Obs.visible) = delivered ch tr := by
  induction tr with
  | nil => rfl
  | cons o t ih => cases o <;> simp [List.filter_cons, Obs.visible, delivered, ih]

namespace HubEventEmitter

theorem log_agree_logging (h h' : HubEventEmitter δ) (line : Obs δ) (hl : Obs.isLog line)
    (hR : SameButLogging h h') :
    Outcome.Agree SameButLogging Obs.visible (h.log line) (h'.log line) := by
  refine ⟨?_, ?_, ?_⟩
  · rw [log_hub, log_hub]; exact hR
  · rw [filter_visible_of_isLog (log_trace_isLog h line hl),
      filter_visible_of_isLog (log_trace_isLog h' line hl)]
  · rw [log_normal hR.2.2.2.2.1, log_normal hR.2.2.2.2.2]

theorem call_agree_logging (h h' : HubEventEmitter δ) (c : HubCall δ)
    (hR : SameButLogging h h') :
    Outcome.Agree SameButLogging Obs.visible (h.call c) (h'.call c) := by
  obtain ⟨he, hh, hq, hn, hl, hl'⟩ := hR
  cases c with
  | setLogging enable =>
    refine ⟨⟨he, hh, hq, hn, ?_, ?_⟩, rfl, rfl⟩
    · intro hx
      have hx' : enable = true := hx
      simp [call, setLogging, hx']
    · intro hx
      have hx' : enable = true := hx
      simp [call, setLogging, hx']
  | «on» event filters =>
    refine ⟨⟨?_, hh, hq, ?_, hl, hl'⟩, rfl, rfl⟩
    · simp [call, HubEventEmitter.on, he, hn]
    · simp [call, HubEventEmitter.on, hn]
  | emitWithContext ctx event data priority =>
    simp only [call, emitWithContext]
    refine Outcome.agree_andThen
      (log_agree_logging h h' (Obs.logEmitting event priority) trivial
        ⟨he, hh, hq, hn, hl, hl'⟩) ?_
    intro h1 h1' hR1
    refine ⟨⟨hR1.1, hR1.2.1, ?_, hR1.2.2.2.1, hR1.2.2.2.2.1, hR1.2.2.2.2.2⟩, rfl, rfl⟩
    show h1.events.queue comparator _ = h1'.events.queue comparator _
    rw [hR1.2.2.1]
  | onEvent event handler =>
    have hlk : h.lookupHandlers event = h'.lookupHandlers event := by
      unfold lookupHandlers
      rw [hh]
    simp only [call]
    unfold onEvent
    rw [hlk]
    cases h'.lookupHandlers event with
    | undefined => exact ⟨⟨he, by simp [hh], hq, hn, hl, hl'⟩, rfl, rfl⟩
    | array hs => exact ⟨⟨he, by simp [hh], hq, hn, hl, hl'⟩, rfl, rfl⟩
    | inherited => exact ⟨⟨he, hh, hq, hn, hl, hl'⟩, rfl, rfl⟩
  | off event =>
    exact ⟨⟨by simp [call, off, he], by simp [call, off, hh], hq, hn, hl, hl'⟩, rfl, rfl⟩
  | close =>
    exact ⟨⟨by simp [call, close, he], by simp [call, close], hq, hn, hl, hl'⟩, rfl, rfl⟩

/-- Hub code cannot tell two hubs apart that differ in their logging, except by the lines
it writes to the logger. -/
theorem simulation_logging : Simulation (SameButLogging : _ → HubEventEmitter δ → Prop)
    Obs.visible where
  call := call_agree_logging
  log := log_agree_logging
  emit := fun h h' event data hR => by rw [hR.1]; exact ⟨rfl, rfl⟩
  handlers := fun _ _ hR => hR.2.1
  events := fun _ _ hR => hR.2.2.1
  setEvents := fun _ _ _ hR => ⟨hR.1, hR.2.1, rfl, hR.2.2.2.1, hR.2.2.2.2.1, hR.2.2.2.2.2⟩

end HubEventEmitter
end JsEventHub

namespace JsEventHub

variable {δ : Type}

/-! ## Subscriptions do not influence one another -/

theorem delivered_filter_concerns (ch : Nat) (tr : List (Obs δ)) :
    delivered ch (tr.filter (Obs.concerns ch)) = delivered ch tr := by
  induction tr with
  | nil => rfl
  | cons o t ih =>
    cases o with
    | data c payload =>
      by_cases hc : c = ch
      · simp [List.filter_cons, Obs.concerns, delivered, ih, hc]
      · simp [List.filter_cons, Obs.concerns, delivered, ih, hc]
    | _ => simp [List.filter_cons, Obs.concerns, delivered, ih]

theorem dispatched_filter_concerns (ch : Nat) (tr : List (Obs δ)) :
    dispatched (tr.filter (Obs.concerns ch)) = dispatched tr := by
  induction tr with
  | nil => rfl
  | cons o t ih =>
    cases o with
    | data c payload =>
      by_cases hc : c = ch
      · simp [List.filter_cons, Obs.concerns, dispatched, ih, hc]
      · simp [List.filter_cons, Obs.concerns, dispatched, ih, hc]
    | _ => simp [List.filter_cons, Obs.concerns, dispatched, ih]

theorem handled_filter_concerns (ch : Nat) (tr : List (Obs δ)) :
    handled (tr.filter (Obs.concerns ch)) = handled tr := by
  induction tr with
  | nil => rfl
  | cons o t ih =>
    cases o with
    | data c payload =>
      by_cases hc : c = ch
      · simp [List.filter_cons, Obs.concerns, handled, ih, hc]
      · simp [List.filter_cons, Obs.concerns, handled, ih, hc]
    | _ => simp [List.filter_cons, Obs.concerns, handled, ih]

theorem filter_concerns_call (ch : Nat) (l : Listener δ) (data : δ) :
    (l.call data).filter (Obs.concerns ch) = if l.ch = ch then l.call data else [] := by
  unfold Listener.call
  by_cases hc : l.ch = ch
  · rw [if_pos hc]
    split <;> simp [Obs.concerns, hc]
  · rw [if_neg hc]
    split <;> simp [Obs.concerns, hc]

theorem filter_concerns_flatMap (ch : Nat) (data : δ) (ls : List (Listener δ)) :
    (ls.flatMap (fun l => l.call data)).filter (Obs.concerns ch) =
      (ls.filter (fun l => decide (l.ch = ch))).flatMap (fun l => l.call data) := by
  induction ls with
  | nil => rfl
  | cons l t ih =>
    simp only [List.flatMap_cons, List.filter_append, ih, filter_concerns_call,
      List.filter_cons]
    by_cases hc : l.ch = ch
    · simp [hc]
    · simp [hc]

theorem filter_concerns_of_isLog (ch : Nat) {tr : List (Obs δ)} (h : ∀ o ∈ tr, Obs.isLog o) :
    tr.filter (Obs.concerns ch) = tr := by
  apply List.filter_eq_self.mpr
  intro o ho
  have := h o ho
  cases o <;> simp_all [Obs.isLog, Obs.concerns]

namespace HubEventEmitter

theorem log_congr (h h' : HubEventEmitter δ) (line : Obs δ) (h1 : h.logging = h'.logging)
    (h2 : h.logger = h'.logger) :
    (h.log line).trace = (h'.log line).trace ∧
    (h.log line).completion = (h'.log line).completion := by
  unfold log
  rw [h1, h2]
  cases h'.logging <;> cases h'.logger <;> simp

theorem log_agree_channel (ch : Nat) (h h' : HubEventEmitter δ) (line : Obs δ)
    (_hl : Obs.isLog line) (hR : SameButOtherChannels ch h h') :
    Outcome.Agree (SameButOtherChannels ch) (Obs.concerns ch) (h.log line) (h'.log line) := by
  have hc := log_congr h h' line hR.2.2.1 hR.2.2.2.1
  refine ⟨?_, by rw [hc.1], hc.2⟩
  rw [log_hub, log_hub]
  exact hR

theorem emit_agree_channel (ch : Nat) (h h' : HubEventEmitter δ) (event : String) (data : δ)
    (hR : SameButOtherChannels ch h h') :
    (h.eventEmitter.emit event data).1.filter (Obs.concerns ch) =
      (h'.eventEmitter.emit event data).1.filter (Obs.concerns ch) ∧
    (h.eventEmitter.emit event data).2 = (h'.eventEmitter.emit event data).2 := by
  obtain ⟨_, _, _, _, herr, hflt, _, _⟩ := hR
  unfold EventEmitter.emit
  by_cases hev : event = "error"
  · subst hev
    by_cases hnil : h.eventEmitter.events "error" = []
    · have hnil' := herr.mp hnil
      simp [hnil, hnil']
    · have hnil' : h'.eventEmitter.events "error" ≠ [] := fun hx => hnil (herr.mpr hx)
      simp only [List.length_eq_zero, hnil, hnil', and_false, if_false]
      exact ⟨by rw [filter_concerns_flatMap, filter_concerns_flatMap, hflt], trivial⟩
  · simp only [hev, false_and, if_false]
    exact ⟨by rw [filter_concerns_flatMap, filter_concerns_flatMap, hflt], trivial⟩

theorem call_agree_channel (ch : Nat) (h h' : HubEventEmitter δ) (c : HubCall δ)
    (hR : SameButOtherChannels ch h h') :
    Outcome.Agree (SameButOtherChannels ch) (Obs.concerns ch) (h.call c) (h'.call c) := by
  obtain ⟨hh, hq, hlg, hlr, herr, hflt, hc, hc'⟩ := hR
  cases c with
  | setLogging enable =>
    exact ⟨⟨hh, hq, rfl, rfl, herr, hflt, hc, hc'⟩, rfl, rfl⟩
  | «on» event filters =>
    refine ⟨⟨hh, hq, hlg, hlr, ?_, ?_, Nat.lt_succ_of_lt hc, Nat.lt_succ_of_lt hc'⟩, rfl, rfl⟩
    · by_cases hev : "error" = event
      · simp [call, HubEventEmitter.on, EventEmitter.on, hev]
      · simpa [call, HubEventEmitter.on, EventEmitter.on, hev] using herr
    · intro m
      have h1 : ¬ h.nextChannel = ch := by omega
      have h2 : ¬ h'.nextChannel = ch := by omega
      by_cases hm : m = event
      · simp [call, HubEventEmitter.on, EventEmitter.on, hm, List.filter_append, h1, h2,
          ← hflt event]
      · simpa [call, HubEventEmitter.on, EventEmitter.on, hm] using hflt m
  | emitWithContext ctx event data priority =>
    simp only [call, emitWithContext]
    refine Outcome.agree_andThen
      (log_agree_channel ch h h' (Obs.logEmitting event priority) trivial
        ⟨hh, hq, hlg, hlr, herr, hflt, hc, hc'⟩) ?_
    intro h1 h1' hR1
    obtain ⟨a1, a2, a3, a4, a5, a6, a7, a8⟩ := hR1
    refine ⟨⟨a1, ?_, a3, a4, a5, a6, a7, a8⟩, rfl, rfl⟩
    show h1.events.queue comparator _ = h1'.events.queue comparator _
    rw [a2]
  | onEvent event handler =>
    have hlk : h.lookupHandlers event = h'.lookupHandlers event := by
      unfold lookupHandlers
      rw [hh]
    simp only [call]
    unfold onEvent
    rw [hlk]
    cases h'.lookupHandlers event with
    | undefined => exact ⟨⟨by simp [hh], hq, hlg, hlr, herr, hflt, hc, hc'⟩, rfl, rfl⟩
    | array hs => exact ⟨⟨by simp [hh], hq, hlg, hlr, herr, hflt, hc, hc'⟩, rfl, rfl⟩
    | inherited => exact ⟨⟨hh, hq, hlg, hlr, herr, hflt, hc, hc'⟩, rfl, rfl⟩
  | off event =>
    refine ⟨⟨by simp [call, off, hh], hq, hlg, hlr, ?_, ?_, hc, hc'⟩, rfl, rfl⟩
    · by_cases hev : "error" = event
      · simp [call, off, EventEmitter.removeAllListeners, hev]
      · simpa [call, off, EventEmitter.removeAllListeners, hev] using herr
    · intro m
      by_cases hm : m = event
      · simp [call, off, EventEmitter.removeAllListeners, hm]
      · simpa [call, off, EventEmitter.removeAllListeners, hm] using hflt m
  | close =>
    refine ⟨⟨rfl, hq, hlg, hlr, ?_, ?_, hc, hc'⟩, rfl, rfl⟩
    · simp [call, close, EventEmitter.removeAllListeners]
    · intro m
      simp [call, close, EventEmitter.removeAllListeners]

/-- Hub code cannot tell two hubs apart that differ in the subscriptions on channels
other than `ch`, except by the `data` emissions on those channels. -/
theorem simulation_channel (ch : Nat) :
    Simulation (SameButOtherChannels ch : _ → HubEventEmitter δ → Prop)
      (Obs.concerns ch) where
  call := call_agree_channel ch
  log := log_agree_channel ch
  emit := emit_agree_channel ch
  handlers := fun _ _ hR => hR.1
  events := fun _ _ hR => hR.2.1
  setEvents := fun _ _ _ hR =>
    ⟨hR.1, rfl, hR.2.2.1, hR.2.2.2.1, hR.2.2.2.2.1, hR.2.2.2.2.2.1, hR.2.2.2.2.2.2.1,
      hR.2.2.2.2.2.2.2⟩

/-- A second subscription under a name that has one already leaves the hub the same to
whoever listens on the channel of the first. -/
theorem on_sameButOtherChannels (h : HubEventEmitter δ) (name : String)
    (filters1 filters2 : List (δ → Bool)) :
    SameButOtherChannels (h.on name filters1).1 (h.on name filters1).2
      ((h.on name filters1).2.on name filters2).2 := by
  refine ⟨rfl, rfl, rfl, rfl, ?_, ?_, ?_, ?_⟩
  · by_cases hev : "error" = name
    · simp [HubEventEmitter.on, EventEmitter.on, hev]
    · simp [HubEventEmitter.on, EventEmitter.on, hev]
  · intro m
    by_cases hm : m = name
    · simp [HubEventEmitter.on, EventEmitter.on, hm, List.filter_append]
    · simp [HubEventEmitter.on, EventEmitter.on, hm]
  · simp [HubEventEmitter.on]
  · simp [HubEventEmitter.on]
    omega

end HubEventEmitter
end JsEventHub

namespace JsEventHub

variable {δ : Type}

/-! ## The logger is in step with the logging flag -/

theorem Outcome.loggerSafe_andThen {r : Outcome δ} {k : HubEventEmitter δ → Outcome δ}
    (h1 : r.LoggerSafe) (h2 : ∀ h, LoggerInv h → (k h).LoggerSafe) :
    (r.andThen k).LoggerSafe := by
  by_cases hc : r.completion = Completion.normal
  · rw [Outcome.andThen_of_normal k hc]
    exact ⟨(h2 _ h1.1).1, (h2 _ h1.1).2⟩
  · rw [Outcome.andThen_of_not_normal k hc]
    exact h1

theorem loggerOK_of_loggerInv {h : HubEventEmitter δ} (hi : LoggerInv h) : LoggerOK h :=
  fun hl => hi.mpr hl

namespace HubEventEmitter

theorem loggerInv_constructor (logging : Bool) :
    LoggerInv (HubEventEmitter.constructor logging : HubEventEmitter δ) := by
  cases logging <;> simp [LoggerInv, constructor]

theorem loggerInv_setLogging (h : HubEventEmitter δ) (enable : Bool) :
    LoggerInv (h.setLogging enable) := by
  cases enable <;> simp [LoggerInv, setLogging]

theorem log_loggerSafe (h : HubEventEmitter δ) (hi : LoggerInv h) (line : Obs δ) :
    (h.log line).LoggerSafe := by
  refine ⟨by rw [log_hub]; exact hi, ?_⟩
  rw [log_normal (loggerOK_of_loggerInv hi)]
  simp [nullLogger]

theorem call_loggerSafe (h : HubEventEmitter δ) (hi : LoggerInv h) (c : HubCall δ) :
    (h.call c).LoggerSafe := by
  cases c with
  | setLogging enable => exact ⟨loggerInv_setLogging h enable, by simp [call, nullLogger]⟩
  | «on» event filters => exact ⟨hi, by simp [call, nullLogger]⟩
  | emitWithContext ctx event data priority =>
    simp only [call, emitWithContext]
    apply Outcome.loggerSafe_andThen (log_loggerSafe h hi _)
    intro h1 hi1
    exact ⟨hi1, by simp [nullLogger]⟩
  | onEvent event handler =>
    simp only [call]
    have hf := onEvent_emitter h event handler
    refine ⟨?_, ?_⟩
    · unfold LoggerInv
      rw [hf.2.2.1, hf.2.2.2]
      exact hi
    · unfold onEvent
      split <;> simp [nullLogger]
  | off event => exact ⟨hi, by simp [call, nullLogger]⟩
  | close => exact ⟨hi, by simp [call, nullLogger]⟩

theorem calls_loggerSafe : ∀ (cs : List (HubCall δ)) (h : HubEventEmitter δ), LoggerInv h →
    (h.calls cs).LoggerSafe
  | [], _, hi => ⟨hi, by simp [calls, nullLogger]⟩
  | c :: cs, h, hi => by
    simp only [calls]
    exact Outcome.loggerSafe_andThen (call_loggerSafe h hi c)
      (fun h1 hi1 => calls_loggerSafe cs h1 hi1)

theorem invoke_loggerSafe (env : Handlers δ) (h : HubEventEmitter δ) (hi : LoggerInv h)
    (handler : Nat) (data : δ) : (h.invoke env handler data).LoggerSafe := by
  unfold invoke
  refine Outcome.loggerSafe_andThen ?_ ?_
  · exact ⟨hi, by simp [nullLogger]⟩
  intro h1 hi1
  refine Outcome.loggerSafe_andThen (calls_loggerSafe _ h1 hi1) ?_
  intro h2 hi2
  split
  · exact ⟨hi2, by simp [nullLogger]⟩
  · exact ⟨hi2, by simp [nullLogger]⟩

theorem forEachHandler_loggerSafe (env : Handlers δ) (data : δ) :
    ∀ (hs : List Nat) (h : HubEventEmitter δ), LoggerInv h →
      (forEachHandler env data hs h).LoggerSafe
  | [], _, hi => ⟨hi, by simp [forEachHandler, nullLogger]⟩
  | handler :: rest, h, hi => by
    simp only [forEachHandler]
    exact Outcome.loggerSafe_andThen (invoke_loggerSafe env h hi handler data)
      (fun h1 hi1 => forEachHandler_loggerSafe env data rest h1 hi1)

theorem dispatch_loggerSafe (env : Handlers δ) (h : HubEventEmitter δ) (hi : LoggerInv h)
    (event : String) (data : δ) : (h.dispatch env event data).LoggerSafe := by
  unfold dispatch
  split
  · exact ⟨hi, by simp [nullLogger]⟩
  · exact forEachHandler_loggerSafe env data _ h hi
  · exact ⟨hi, by simp [nullLogger]⟩

theorem emit_completion_ne_nullLogger (em : EventEmitter δ) (event : String) (data : δ) :
    (em.emit event data).2 ≠ nullLogger := by
  unfold EventEmitter.emit
  split <;> simp [nullLogger]

theorem deliver_loggerSafe (env : Handlers δ) (h : HubEventEmitter δ) (hi : LoggerInv h)
    (e : PriorityEvent δ) : (h.deliver env e).LoggerSafe := by
  unfold deliver
  refine Outcome.loggerSafe_andThen (log_loggerSafe h hi _) ?_
  intro h1 hi1
  refine Outcome.loggerSafe_andThen ?_ ?_
  · exact ⟨hi1, emit_completion_ne_nullLogger _ _ _⟩
  intro h2 hi2
  exact dispatch_loggerSafe env h2 hi2 _ _

theorem processLoop_loggerSafe (env : Handlers δ) :
    ∀ (fuel : Nat) (h : HubEventEmitter δ), LoggerInv h → (processLoop env fuel h).LoggerSafe
  | 0, h, hi => by
    simp only [processLoop]
    refine ⟨hi, ?_⟩
    split <;> simp [nullLogger]
  | fuel + 1, h, hi => by
    rw [processLoop]
    split
    · split
      · exact ⟨hi, by simp [nullLogger]⟩
      · exact ⟨hi, by simp [nullLogger]⟩
      · next e q _ =>
        refine Outcome.loggerSafe_andThen ?_ ?_
        · refine Outcome.loggerSafe_andThen ?_ ?_
          · exact ⟨hi, by simp [nullLogger]⟩
          · intro h1 hi1
            exact deliver_loggerSafe env h1 hi1 e
        · intro h1 hi1
          exact processLoop_loggerSafe env fuel h1 hi1
    · exact ⟨hi, by simp [nullLogger]⟩

theorem step_loggerSafe (env : Handlers δ) (h : HubEventEmitter δ) (hi : LoggerInv h)
    (op : Op δ) : (h.step env op).LoggerSafe := by
  cases op with
  | call c => exact call_loggerSafe h hi c
  | processEvents fuel ctx => exact processLoop_loggerSafe env fuel h hi

theorem run_loggerInv (env : Handlers δ) :
    ∀ (ops : List (Op δ)) (h : HubEventEmitter δ), LoggerInv h → LoggerInv (h.run env ops).1
  | [], _, hi => hi
  | op :: ops, h, hi => by
    simp only [run]
    exact run_loggerInv env ops _ (step_loggerSafe env h hi op).1

end HubEventEmitter
end JsEventHub

namespace JsEventHub

variable {δ : Type}

/-! ## The order of the deliveries of a drain -/

theorem inOrder_handlePart (a : PriorityEvent δ) (rest : List (Obs δ))
    (hr : ∀ hd, InOrder (some a) hd rest) :
    ∀ (tr : List (Obs δ)), HandlePart a.data tr → ∀ hd, InOrder (some a) hd (tr ++ rest)
  | [], _, hd => hr hd
  | o :: tr, hp, hd => by
    have ih := inOrder_handlePart a rest hr tr (fun o ho => hp o (by simp [ho]))
    rcases hp o (by simp) with hl | ⟨H, rfl⟩
    · cases o with
      | logEmitting event priority => exact ih hd
      | logProcessing event priority => exact ih hd
      | dequeued e => exact absurd hl (by simp [Obs.isLog])
      | data ch payload => exact absurd hl (by simp [Obs.isLog])
      | handle handler payload => exact absurd hl (by simp [Obs.isLog])
    · exact ⟨rfl, ih true⟩

theorem inOrder_emitPart (a : PriorityEvent δ) (rest : List (Obs δ))
    (hr : InOrder (some a) false rest) :
    ∀ (tr : List (Obs δ)), EmitPart a.data tr → InOrder (some a) false (tr ++ rest)
  | [], _ => hr
  | o :: tr, hp => by
    have ih := inOrder_emitPart a rest hr tr (fun o ho => hp o (by simp [ho]))
    rcases hp o (by simp) with hl | ⟨ch, rfl⟩
    · cases o with
      | logEmitting event priority => exact ih
      | logProcessing event priority => exact ih
      | dequeued e => exact absurd hl (by simp [Obs.isLog])
      | data ch payload => exact absurd hl (by simp [Obs.isLog])
      | handle handler payload => exact absurd hl (by simp [Obs.isLog])
    · exact ⟨rfl, rfl, ih⟩

namespace HubEventEmitter

/-- The observations of one delivery: first log lines and `data` emissions of the
payload, then log lines and handler calls with the payload. -/
theorem deliver_trace_split (env : Handlers δ) (h : HubEventEmitter δ) (e : PriorityEvent δ) :
    ∃ t1 t2, (h.deliver env e).trace = t1 ++ t2 ∧ EmitPart e.data t1 ∧
      HandlePart e.data t2 := by
  have hlogs : EmitPart e.data (h.log (Obs.logProcessing e.event e.priority)).trace :=
    fun o ho => Or.inl (log_trace_isLog h (Obs.logProcessing e.event e.priority) trivial o ho)
  have hem : ∀ h1 : HubEventEmitter δ, EmitPart e.data (h1.eventEmitter.emit e.event e.data).1 := by
    intro h1 o ho
    obtain ⟨l, _, _, rfl⟩ := emit_trace_cases h1.eventEmitter e.event e.data o ho
    exact Or.inr ⟨l.ch, rfl⟩
  have hdisp : ∀ h1 : HubEventEmitter δ, HandlePart e.data (h1.dispatch env e.event e.data).trace := by
    intro h1 o ho
    rcases dispatch_trace_cases env h1 e.event e.data o ho with hl | ⟨H, _, rfl⟩
    · exact Or.inl hl
    · exact Or.inr ⟨H, rfl⟩
  have happ : ∀ {t1 t2 : List (Obs δ)}, EmitPart e.data t1 → EmitPart e.data t2 →
      EmitPart e.data (t1 ++ t2) := by
    intro t1 t2 h1 h2 o ho
    rcases List.mem_append.mp ho with hx | hx
    · exact h1 o hx
    · exact h2 o hx
  have hnil : HandlePart e.data ([] : List (Obs δ)) := fun o ho => by simp at ho
  unfold deliver
  by_cases hc1 : (h.log (Obs.logProcessing e.event e.priority)).completion = Completion.normal
  · rw [Outcome.andThen_of_normal _ hc1]
    simp only
    by_cases hc2 : ((h.log (Obs.logProcessing e.event e.priority)).hub.eventEmitter.emit
        e.event e.data).2 = Completion.normal
    · rw [Outcome.andThen_of_normal _ hc2]
      simp only
      exact ⟨_, _, (List.append_assoc _ _ _).symm, happ hlogs (hem _), hdisp _⟩
    · rw [Outcome.andThen_of_not_normal _ hc2]
      simp only
      exact ⟨_, [], (List.append_nil _).symm, happ hlogs (hem _), hnil⟩
  · rw [Outcome.andThen_of_not_normal _ hc1]
    exact ⟨_, [], (List.append_nil _).symm, hlogs, hnil⟩

theorem inOrder_deliver (env : Handlers δ) (h : HubEventEmitter δ) (e : PriorityEvent δ)
    (rest : List (Obs δ)) (hr : ∀ cur hd, InOrder cur hd rest) :
    InOrder (some e) false ((h.deliver env e).trace ++ rest) := by
  obtain ⟨t1, t2, heq, h1, h2⟩ := deliver_trace_split env h e
  rw [heq, List.append_assoc]
  exact inOrder_emitPart e _ (inOrder_handlePart e rest (fun hd => hr _ hd) t2 h2 false) t1 h1

/-- In every drain the deliveries are in order, whatever was being delivered before. -/
theorem processLoop_inOrder (env : Handlers δ) :
    ∀ (fuel : Nat) (h : HubEventEmitter δ) (cur : Option (PriorityEvent δ)) (hd : Bool),
      InOrder cur hd (processLoop env fuel h).trace
  | 0, h, _, _ => by
    simp only [processLoop]
    trivial
  | fuel + 1, h, cur, hd => by
    rw [processLoop]
    split
    · split
      · trivial
      · trivial
      · next e q _ =>
        rw [Outcome.mk_andThen]
        by_cases hc : (deliver env { h with events := q } e).completion = Completion.normal
        · simp only [Outcome.andThen, hc, List.singleton_append, List.cons_append]
          exact inOrder_deliver env _ e _ (fun c b => processLoop_inOrder env fuel _ c b)
        · have hr : ∀ (k : HubEventEmitter δ → Outcome δ),
              (Outcome.mk (deliver env { h with events := q } e).hub
                ([Obs.dequeued e] ++ (deliver env { h with events := q } e).trace)
                (deliver env { h with events := q } e).completion).andThen k =
              Outcome.mk (deliver env { h with events := q } e).hub
                ([Obs.dequeued e] ++ (deliver env { h with events := q } e).trace)
                (deliver env { h with events := q } e).completion :=
            fun k => Outcome.andThen_of_not_normal k hc
          rw [hr]
          simp only [List.singleton_append]
          have := inOrder_deliver env { h with events := q } e [] (fun _ _ => trivial)
          rw [List.append_nil] at this
          exact this
    · trivial

end HubEventEmitter
end JsEventHub

namespace JsEventHub

variable {δ : Type}

/-! ## The handlers called for one entry -/

namespace HubEventEmitter

theorem handled_invoke (env : Handlers δ) (h : HubEventEmitter δ) (handler : Nat)
    (data : δ) : handled (h.invoke env handler data).trace = [(handler, data)] := by
  unfold invoke
  rw [Outcome.mk_andThen]
  simp only [List.singleton_append, handled]
  rw [handled_of_isLog]
  apply Outcome.andThen_trace_all
  · exact calls_trace_isLog _ h
  · intro h1 o ho
    split at ho <;> simp at ho

/-- The loop `forEach` calls the handlers of the array it was started on, in order, and
all of them when it returns, whatever the handlers do to the registrations. -/
theorem handled_forEachHandler (env : Handlers δ) (data : δ) :
    ∀ (hs : List Nat) (h : HubEventEmitter δ),
      handled (forEachHandler env data hs h).trace <+: hs.map (fun H => (H, data)) ∧
      ((forEachHandler env data hs h).completion = Completion.normal →
        handled (forEachHandler env data hs h).trace = hs.map (fun H => (H, data)))
  | [], h => by simp [forEachHandler, handled]
  | handler :: rest, h => by
    simp only [forEachHandler, List.map_cons]
    by_cases hc : (h.invoke env handler data).completion = Completion.normal
    · have ih := handled_forEachHandler env data rest (h.invoke env handler data).hub
      rw [Outcome.andThen_of_normal _ hc]
      simp only [handled_append, handled_invoke, List.singleton_append]
      exact ⟨(List.prefix_cons_inj _).mpr ih.1, fun hn => by rw [ih.2 hn]⟩
    · rw [Outcome.andThen_of_not_normal _ hc, handled_invoke]
      exact ⟨by simp [List.prefix_cons_iff], fun hn => absurd hn hc⟩

theorem handled_dispatch (env : Handlers δ) (h : HubEventEmitter δ) (event : String)
    (data : δ) :
    handled (h.dispatch env event data).trace <+:
        (h.registered event).map (fun H => (H, data)) ∧
      ((h.dispatch env event data).completion = Completion.normal →
        handled (h.dispatch env event data).trace =
          (h.registered event).map (fun H => (H, data))) := by
  unfold dispatch lookupHandlers registered
  cases h.handlers event with
  | none =>
    by_cases hk : event ∈ objectPrototypeKeys
    · simp [hk, handled]
    · simp [hk, handled]
  | some hs => exact handled_forEachHandler env data hs h

/-- One delivery calls the handlers that were registered under the name of the entry
when the delivery started, in registration order, and all of them when it returns. -/
theorem handled_deliver_snapshot (env : Handlers δ) (h : HubEventEmitter δ)
    (hlog : LoggerOK h) (e : PriorityEvent δ) :
    handled (h.deliver env e).trace <+: (h.registered e.event).map (fun H => (H, e.data)) ∧
      ((h.deliver env e).completion = Completion.normal →
        handled (h.deliver env e).trace =
          (h.registered e.event).map (fun H => (H, e.data))) := by
  rw [handled_deliver h hlog e]
  refine ⟨?_, fun hn => ?_⟩
  · split
    · exact (handled_dispatch env h e.event e.data).1
    · exact List.nil_prefix
  · have hp := deliver_normal_parts h hlog e hn
    rw [if_pos hp.1]
    exact (handled_dispatch env h e.event e.data).2 hp.2

end HubEventEmitter

/-! ## A priority that is not a number -/

namespace BinaryHeapStrategy

theorem less_nan (x : PriorityEvent δ) (hx : x.priority = Priority.nan)
    (o : Option (PriorityEvent δ)) : less comparator (some x) o = false := by
  cases o with
  | none => rfl
  | some b => simp [less, comparator, hx, Priority.sub, Priority.ltZero]

/-- An entry whose priority is `NaN` is left where `push` put it: at the end of the
array. -/
theorem queue_nan (data : List (PriorityEvent δ)) (x : PriorityEvent δ)
    (hx : x.priority = Priority.nan) : queue comparator data x = data ++ [x] := by
  unfold queue bubbleUp
  simp only [List.length_append, List.length_singleton, Nat.add_sub_cancel]
  cases hlen : data.length with
  | zero => rfl
  | succ n =>
    simp only [bubbleUpLoop]
    have hget : (data ++ [x])[n + 1]? = some x := by
      rw [← hlen]
      simp
    rw [hget, less_nan x hx]
    simp

end BinaryHeapStrategy
end JsEventHub

namespace JsEventHub

variable {δ : Type}

/-! ## Lemmas on single operations -/

theorem EventEmitter.emit_fst (em : EventEmitter δ) (event : String) (data : δ) :
    (em.emit event data).1 = (em.events event).flatMap (fun l => l.call data) := by
  unfold EventEmitter.emit
  split
  · next hc =>
    have hnil : em.events event = [] := List.length_eq_zero.mp hc.2
    simp [hnil]
  · rfl

namespace HubEventEmitter

/-- The observations of one delivery in a hub whose logger is in order: the log line,
what the listeners of the name emit, in registration order, then what `dispatch` does. -/
theorem deliver_trace_exact (env : Handlers δ) (h : HubEventEmitter δ) (hlog : LoggerOK h)
    (e : PriorityEvent δ) :
    (h.deliver env e).trace =
      (h.log (Obs.logProcessing e.event e.priority)).trace ++
        (h.eventEmitter.events e.event).flatMap (fun l => l.call e.data) ++
        (if (h.eventEmitter.emit e.event e.data).2 = Completion.normal then
          (h.dispatch env e.event e.data).trace else []) := by
  unfold deliver
  rw [Outcome.andThen_of_normal _ (log_normal hlog _)]
  simp only [log_hub]
  by_cases hc : (h.eventEmitter.emit e.event e.data).2 = Completion.normal
  · rw [Outcome.andThen_of_normal _ hc, if_pos hc]
    simp only [EventEmitter.emit_fst, List.append_assoc]
  · rw [Outcome.andThen_of_not_normal _ hc, if_neg hc]
    simp only [EventEmitter.emit_fst, List.append_nil]

theorem onEvent_normal (h : HubEventEmitter δ) (event : String) (handler : Nat)
    (hn : h.lookupHandlers event ≠ HandlersLookup.inherited) :
    (h.onEvent event handler).completion = Completion.normal := by
  unfold onEvent
  cases hl : h.lookupHandlers event with
  | undefined => rfl
  | array hs => rfl
  | inherited => exact absurd hl hn

theorem lookupHandlers_of_own (h : HubEventEmitter δ) (event : String) (hs : List Nat)
    (hh : h.handlers event = some hs) :
    h.lookupHandlers event ≠ HandlersLookup.inherited := by
  unfold lookupHandlers
  rw [hh]
  simp

/-- The first entry a drain dequeues is the entry at the root of the heap. -/
theorem dispatched_processLoop_cons (env : Handlers δ) (fuel : Nat) (h : HubEventEmitter δ)
    (a : PriorityEvent δ) (t : List (PriorityEvent δ)) (hl : LengthOK h)
    (hd : h.events.data = a :: t) :
    (dispatched (processLoop env (fuel + 1) h).trace).head? = some a := by
  by_cases hc : ((h.afterDequeue a t).deliver env a).completion = Completion.normal
  · rw [processLoop_step_normal env fuel h a t hl hd hc]
    simp [dispatched]
  · rw [processLoop_step_abort env fuel h a t hl hd hc]
    simp [dispatched]

end HubEventEmitter
end JsEventHub

namespace JsEventHub
namespace HubEventEmitter

variable {δ : Type}

/-! ## Drains started by handlers -/

theorem acts_of_calls (drain : HubEventEmitter δ → Outcome δ) :
    ∀ (as : List (Action δ)) (h : HubEventEmitter δ), (∀ a ∈ as, a.hubCall ≠ none) →
      h.acts drain as = h.calls (as.filterMap Action.hubCall)
  | [], _, _ => rfl
  | a :: rest, h, hall => by
    cases a with
    | call c =>
      have ih : ∀ h1 : HubEventEmitter δ,
          h1.acts drain rest = h1.calls (rest.filterMap Action.hubCall) :=
        fun h1 => acts_of_calls drain rest h1 (fun a ha => hall a (by simp [ha]))
      simp only [acts, act, List.filterMap_cons, Action.hubCall, calls, ih]
    | processEvents ctx => exact absurd rfl (hall (Action.processEvents ctx) (by simp))

theorem invokeNested_of_noReentry {env : ReentrantHandlers δ} (hnr : NoReentry env)
    (drain : HubEventEmitter δ → Outcome δ) (h : HubEventEmitter δ) (handler : Nat)
    (data : δ) :
    h.invokeNested drain env handler data = h.invoke (withoutDrains env) handler data := by
  have hacts : ∀ h1 : HubEventEmitter δ, h1.acts drain (env handler data).actions =
      h1.calls ((env handler data).actions.filterMap Action.hubCall) :=
    fun h1 => acts_of_calls drain _ h1 (hnr handler data)
  simp only [invokeNested, invoke, withoutDrains, hacts]

theorem forEachHandlerNested_of_noReentry {env : ReentrantHandlers δ} (hnr : NoReentry env)
    (drain : HubEventEmitter δ → Outcome δ) (data : δ) :
    ∀ (hs : List Nat) (h : HubEventEmitter δ),
      forEachHandlerNested drain env data hs h =
        forEachHandler (withoutDrains env) data hs h
  | [], _ => rfl
  | handler :: rest, h => by
    have ih : ∀ h1 : HubEventEmitter δ, forEachHandlerNested drain env data rest h1 =
        forEachHandler (withoutDrains env) data rest h1 :=
      fun h1 => forEachHandlerNested_of_noReentry hnr drain data rest h1
    simp only [forEachHandlerNested, forEachHandler, invokeNested_of_noReentry hnr, ih]

theorem dispatchNested_of_noReentry {env : ReentrantHandlers δ} (hnr : NoReentry env)
    (drain : HubEventEmitter δ → Outcome δ) (h : HubEventEmitter δ) (event : String)
    (data : δ) :
    h.dispatchNested drain env event data = h.dispatch (withoutDrains env) event data := by
  unfold dispatchNested dispatch
  cases h.lookupHandlers event with
  | undefined => rfl
  | array hs => exact forEachHandlerNested_of_noReentry hnr drain data hs h
  | inherited => rfl

theorem deliverNested_of_noReentry {env : ReentrantHandlers δ} (hnr : NoReentry env)
    (drain : HubEventEmitter δ → Outcome δ) (h : HubEventEmitter δ) (e : PriorityEvent δ) :
    h.deliverNested drain env e = h.deliver (withoutDrains env) e := by
  simp only [deliverNested, deliver, dispatchNested_of_noReentry hnr]

/-- With handlers that start no drain, the drain is the drain of their hub calls. -/
theorem processLoopNested_of_noReentry {env : ReentrantHandlers δ} (hnr : NoReentry env) :
    ∀ (fuel : Nat) (h : HubEventEmitter δ),
      processLoopNested env fuel h = processLoop (withoutDrains env) fuel h
  | 0, _ => rfl
  | fuel + 1, h => by
    have ih : ∀ h1 : HubEventEmitter δ,
        processLoopNested env fuel h1 = processLoop (withoutDrains env) fuel h1 :=
      fun h1 => processLoopNested_of_noReentry hnr fuel h1
    rw [processLoopNested, processLoop]
    simp only [deliverNested_of_noReentry hnr, ih]

theorem processLoopNested_of_empty (env : ReentrantHandlers δ) (fuel : Nat)
    (h : HubEventEmitter δ) (h0 : h.events.length = 0) :
    processLoopNested env fuel h = ⟨h, [], Completion.normal⟩ := by
  cases fuel <;> simp [processLoopNested, h0]

theorem processLoopNested_step (env : ReentrantHandlers δ) (fuel : Nat)
    (h : HubEventEmitter δ) (a : PriorityEvent δ) (t : List (PriorityEvent δ))
    (hl : LengthOK h) (hd : h.events.data = a :: t) :
    processLoopNested env (fuel + 1) h =
      ((Outcome.mk (h.afterDequeue a t) [Obs.dequeued a] Completion.normal).andThen
        fun h => h.deliverNested (processLoopNested env fuel) env a).andThen
          fun h => processLoopNested env fuel h := by
  have hlen : h.events.length = t.length + 1 := by
    rw [hl, hd]; rfl
  have hfst := BinaryHeapStrategy.dequeue_cons_fst comparator a t
  rw [processLoopNested]
  simp only [hlen, Nat.zero_lt_succ, if_true, PriorityQueue.dequeue, Nat.succ_ne_zero,
    if_false, hd]
  rw [hfst]
  simp [afterDequeue, hlen, hd]

/-- One iteration of the loop with handlers that may start a drain: the entry at the root
is dequeued and delivered, and the loop goes on when the delivery returns. -/
theorem processLoopNested_step_trace (env : ReentrantHandlers δ) (fuel : Nat)
    (h : HubEventEmitter δ) (a : PriorityEvent δ) (t : List (PriorityEvent δ))
    (hl : LengthOK h) (hd : h.events.data = a :: t) :
    (processLoopNested env (fuel + 1) h).trace =
      Obs.dequeued a ::
        (((h.afterDequeue a t).deliverNested (processLoopNested env fuel) env a).trace ++
          if ((h.afterDequeue a t).deliverNested (processLoopNested env fuel) env
              a).completion = Completion.normal then
            (processLoopNested env fuel
              ((h.afterDequeue a t).deliverNested (processLoopNested env fuel) env
                a).hub).trace
          else []) := by
  rw [processLoopNested_step env fuel h a t hl hd, Outcome.mk_andThen]
  by_cases hc : ((h.afterDequeue a t).deliverNested (processLoopNested env fuel) env
      a).completion = Completion.normal
  · simp [Outcome.andThen, hc]
  · rw [if_neg hc]
    unfold Outcome.andThen
    split
    · next h' => exact absurd h' hc
    · simp

/-- The observations of one delivery with handlers that may start a drain, in a hub
whose logger is in order: the log line, what the listeners of the name emit, in
registration order, and only then what `dispatch` does. -/
theorem deliverNested_trace_exact (drain : HubEventEmitter δ → Outcome δ)
    (env : ReentrantHandlers δ) (h : HubEventEmitter δ) (hlog : LoggerOK h)
    (e : PriorityEvent δ) :
    (h.deliverNested drain env e).trace =
      (h.log (Obs.logProcessing e.event e.priority)).trace ++
        (h.eventEmitter.events e.event).flatMap (fun l => l.call e.data) ++
        (if (h.eventEmitter.emit e.event e.data).2 = Completion.normal then
          (h.dispatchNested drain env e.event e.data).trace else []) := by
  unfold deliverNested
  rw [Outcome.andThen_of_normal _ (log_normal hlog _)]
  simp only [log_hub]
  by_cases hc : (h.eventEmitter.emit e.event e.data).2 = Completion.normal
  · rw [Outcome.andThen_of_normal _ hc, if_pos hc]
    simp only [EventEmitter.emit_fst, List.append_assoc]
  · rw [Outcome.andThen_of_not_normal _ hc, if_neg hc]
    simp only [EventEmitter.emit_fst, List.append_nil]

end HubEventEmitter
end JsEventHub

namespace JsEventHub

variable {δ : Type}

/-! ## A handler that throws ends the drain -/

theorem Outcome.abortsAfterThrow_of_no_handle (env : Handlers δ) {r : Outcome δ}
    (h : ∀ o ∈ r.trace, ∀ H d, o ≠ Obs.handle H d) : r.AbortsAfterThrow env := by
  intro pre H d post htr _
  exact absurd rfl (h (Obs.handle H d) (by rw [htr]; simp) H d)

theorem Outcome.abortsAfterThrow_of_isLog (env : Handlers δ) {r : Outcome δ}
    (h : ∀ o ∈ r.trace, Obs.isLog o) : r.AbortsAfterThrow env :=
  Outcome.abortsAfterThrow_of_no_handle env (fun o ho H d heq => by
    have := h o ho
    rw [heq] at this
    exact this)

theorem Outcome.abortsAfterThrow_andThen (env : Handlers δ) {r : Outcome δ}
    {k : HubEventEmitter δ → Outcome δ} (h1 : r.AbortsAfterThrow env)
    (h2 : ∀ h, (k h).AbortsAfterThrow env) : (r.andThen k).AbortsAfterThrow env := by
  by_cases hc : r.completion = Completion.normal
  · rw [Outcome.andThen_of_normal k hc]
    intro pre H d post htr ht
    simp only at htr
    rcases List.append_eq_append_iff.mp htr with ⟨a', _, ha2⟩ | ⟨c', hc1, hc2⟩
    · exact h2 _ a' H d post ha2 ht
    · cases c' with
      | nil =>
        rw [List.nil_append] at hc2
        exact h2 _ [] H d post hc2.symm ht
      | cons x c'' =>
        rw [List.cons_append] at hc2
        injection hc2 with hx _
        subst hx
        have hthrown := (h1 pre H d c'' hc1 ht).1
        rw [hc] at hthrown
        rcases hthrown with hx | ⟨w, hx⟩ <;> cases hx
  · rw [Outcome.andThen_of_not_normal k hc]
    exact h1

namespace HubEventEmitter

theorem call_completion_cases (h : HubEventEmitter δ) (c : HubCall δ) :
    (h.call c).completion = Completion.normal ∨
      ∃ what, (h.call c).completion = Completion.thrown (JSError.typeError what) := by
  cases c with
  | setLogging enable => exact Or.inl rfl
  | «on» event filters => exact Or.inl rfl
  | emitWithContext ctx event data priority =>
    simp only [call, emitWithContext]
    by_cases hc : (h.log (Obs.logEmitting event priority)).completion = Completion.normal
    · rw [Outcome.andThen_of_normal _ hc]
      exact Or.inl rfl
    · rw [Outcome.andThen_of_not_normal _ hc]
      unfold log at hc ⊢
      split
      · split
        · exact Or.inl rfl
        · exact Or.inr ⟨_, rfl⟩
      · exact Or.inl rfl
  | onEvent event handler =>
    simp only [call]
    unfold onEvent
    split
    · exact Or.inl rfl
    · exact Or.inl rfl
    · exact Or.inr ⟨_, rfl⟩
  | off event => exact Or.inl rfl
  | close => exact Or.inl rfl

theorem calls_completion_cases : ∀ (cs : List (HubCall δ)) (h : HubEventEmitter δ),
    (h.calls cs).completion = Completion.normal ∨
      ∃ what, (h.calls cs).completion = Completion.thrown (JSError.typeError what)
  | [], _ => Or.inl rfl
  | c :: cs, h => by
    simp only [calls]
    by_cases hc : (h.call c).completion = Completion.normal
    · rw [Outcome.andThen_of_normal _ hc]
      exact calls_completion_cases cs _
    · rw [Outcome.andThen_of_not_normal _ hc]
      rcases call_completion_cases h c with hx | hx
      · exact absurd hx hc
      · exact Or.inr hx

theorem invoke_abortsAfterThrow (env : Handlers δ) (h : HubEventEmitter δ) (handler : Nat)
    (data : δ) : (h.invoke env handler data).AbortsAfterThrow env := by
  have hlogs : ∀ o ∈ ((h.calls (env handler data).calls).andThen fun h =>
      if (env handler data).throws then
        (⟨h, [], Completion.thrown (JSError.thrownBy handler)⟩ : Outcome δ)
      else ⟨h, [], Completion.normal⟩).trace, Obs.isLog o := by
    apply Outcome.andThen_trace_all
    · exact calls_trace_isLog _ h
    · intro h1 o ho
      split at ho <;> simp at ho
  have hcomp : (env handler data).throws = true →
      (((h.calls (env handler data).calls).andThen fun h =>
        if (env handler data).throws then
          (⟨h, [], Completion.thrown (JSError.thrownBy handler)⟩ : Outcome δ)
        else ⟨h, [], Completion.normal⟩).completion =
          Completion.thrown (JSError.thrownBy handler) ∨
        ∃ what, ((h.calls (env handler data).calls).andThen fun h =>
          if (env handler data).throws then
            (⟨h, [], Completion.thrown (JSError.thrownBy handler)⟩ : Outcome δ)
          else ⟨h, [], Completion.normal⟩).completion =
            Completion.thrown (JSError.typeError what)) := by
    intro ht
    by_cases hc : (h.calls (env handler data).calls).completion = Completion.normal
    · rw [Outcome.andThen_of_normal _ hc]
      simp [ht]
    · rw [Outcome.andThen_of_not_normal _ hc]
      rcases calls_completion_cases (env handler data).calls h with hx | hx
      · exact absurd hx hc
      · exact Or.inr hx
  unfold invoke
  rw [Outcome.mk_andThen]
  intro pre H d post htr ht
  simp only [List.singleton_append] at htr
  cases pre with
  | nil =>
    rw [List.nil_append] at htr
    injection htr with hx hpost
    injection hx with hH hd
    subst hH hd hpost
    exact ⟨hcomp ht, hlogs⟩
  | cons x pre' =>
    rw [List.cons_append] at htr
    injection htr with _ hrest
    have hmem : Obs.handle H d ∈ ((h.calls (env handler data).calls).andThen fun h =>
        if (env handler data).throws then
          (⟨h, [], Completion.thrown (JSError.thrownBy handler)⟩ : Outcome δ)
        else ⟨h, [], Completion.normal⟩).trace := by
      rw [hrest]; simp
    exact absurd (hlogs _ hmem) (by simp [Obs.isLog])

theorem forEachHandler_abortsAfterThrow (env : Handlers δ) (data : δ) :
    ∀ (hs : List Nat) (h : HubEventEmitter δ),
      (forEachHandler env data hs h).AbortsAfterThrow env
  | [], _ => Outcome.abortsAfterThrow_of_isLog env (fun o ho => by simp [forEachHandler] at ho)
  | handler :: rest, h => by
    simp only [forEachHandler]
    exact Outcome.abortsAfterThrow_andThen env (invoke_abortsAfterThrow env h handler data)
      (fun h1 => forEachHandler_abortsAfterThrow env data rest h1)

theorem dispatch_abortsAfterThrow (env : Handlers δ) (h : HubEventEmitter δ)
    (event : String) (data : δ) : (h.dispatch env event data).AbortsAfterThrow env := by
  unfold dispatch
  split
  · exact Outcome.abortsAfterThrow_of_isLog env (fun o ho => by simp at ho)
  · exact forEachHandler_abortsAfterThrow env data _ h
  · exact Outcome.abortsAfterThrow_of_isLog env (fun o ho => by simp at ho)

theorem deliver_abortsAfterThrow (env : Handlers δ) (h : HubEventEmitter δ)
    (e : PriorityEvent δ) : (h.deliver env e).AbortsAfterThrow env := by
  unfold deliver
  refine Outcome.abortsAfterThrow_andThen env ?_ ?_
  · exact Outcome.abortsAfterThrow_of_isLog env (log_trace_isLog h _ trivial)
  intro h1
  refine Outcome.abortsAfterThrow_andThen env ?_ ?_
  · apply Outcome.abortsAfterThrow_of_no_handle
    intro o ho H d heq
    obtain ⟨l, _, _, hx⟩ := emit_trace_cases h1.eventEmitter e.event e.data o ho
    rw [heq] at hx
    cases hx
  intro h2
  exact dispatch_abortsAfterThrow env h2 _ _

/-- In every drain, a handler that throws ends the drain. -/
theorem processLoop_abortsAfterThrow (env : Handlers δ) :
    ∀ (fuel : Nat) (h : HubEventEmitter δ), (processLoop env fuel h).AbortsAfterThrow env
  | 0, h => Outcome.abortsAfterThrow_of_isLog env (fun o ho => by simp [processLoop] at ho)
  | fuel + 1, h => by
    rw [processLoop]
    split
    · split
      · exact Outcome.abortsAfterThrow_of_isLog env (fun o ho => by simp at ho)
      · exact Outcome.abortsAfterThrow_of_isLog env (fun o ho => by simp at ho)
      · next e q _ =>
        refine Outcome.abortsAfterThrow_andThen env ?_ ?_
        · refine Outcome.abortsAfterThrow_andThen env ?_ ?_
          · apply Outcome.abortsAfterThrow_of_no_handle
            intro o ho H d heq
            simp at ho
            rw [heq] at ho
            cases ho
          · intro h1
            exact deliver_abortsAfterThrow env h1 e
        · intro h1
          exact processLoop_abortsAfterThrow env fuel h1
    · exact Outcome.abortsAfterThrow_of_isLog env (fun o ho => by simp at ho)

end HubEventEmitter
end JsEventHub

namespace JsEventHub
namespace HubEventEmitter

variable {δ : Type}

/-! ## Entries stay in the queue until they are dequeued -/

theorem queueHolds_of_events {entries : List (PriorityEvent δ)} {h h' : HubEventEmitter δ}
    (hq : QueueHolds entries h) (he : h'.events = h.events) : QueueHolds entries h' := by
  unfold QueueHolds LengthOK at *
  rw [he]
  exact hq

theorem call_queueHolds {entries : List (PriorityEvent δ)} (h : HubEventEmitter δ)
    (hq : QueueHolds entries h) (c : HubCall δ) : QueueHolds entries (h.call c).hub := by
  cases c with
  | setLogging enable => exact queueHolds_of_events hq rfl
  | «on» event filters => exact queueHolds_of_events hq rfl
  | emitWithContext ctx event data priority =>
    simp only [call]
    refine ⟨emitWithContext_lengthOK h hq.1 ctx event data priority, ?_⟩
    rcases emitWithContext_hub h ctx event data priority with hx | hx
    · rw [hx]
      exact hq.2
    · rw [hx]
      have hp := BinaryHeapStrategy.queue_perm comparator h.events.data
        (⟨event, priority, data⟩ : PriorityEvent δ)
      exact (hq.2.trans (List.sublist_cons_self _ _).subperm).trans hp.symm.subperm
  | onEvent event handler =>
    exact queueHolds_of_events hq (onEvent_events h event handler)
  | off event => exact queueHolds_of_events hq rfl
  | close => exact queueHolds_of_events hq rfl

theorem calls_queueHolds {entries : List (PriorityEvent δ)} :
    ∀ (cs : List (HubCall δ)) (h : HubEventEmitter δ), QueueHolds entries h →
      QueueHolds entries (h.calls cs).hub
  | [], _, hq => hq
  | c :: cs, h, hq => by
    simp only [calls]
    apply Outcome.andThen_hub_inv (QueueHolds entries)
    · exact call_queueHolds h hq c
    · intro h1 hq1
      exact calls_queueHolds cs h1 hq1

theorem invoke_queueHolds {entries : List (PriorityEvent δ)} (env : Handlers δ)
    (h : HubEventEmitter δ) (hq : QueueHolds entries h) (handler : Nat) (data : δ) :
    QueueHolds entries (h.invoke env handler data).hub := by
  unfold invoke
  apply Outcome.andThen_hub_inv (QueueHolds entries) hq
  intro h1 hq1
  apply Outcome.andThen_hub_inv (QueueHolds entries)
  · exact calls_queueHolds _ h1 hq1
  · intro h2 hq2
    split <;> exact hq2

theorem forEachHandler_queueHolds {entries : List (PriorityEvent δ)} (env : Handlers δ)
    (data : δ) :
    ∀ (hs : List Nat) (h : HubEventEmitter δ), QueueHolds entries h →
      QueueHolds entries (forEachHandler env data hs h).hub
  | [], _, hq => hq
  | handler :: rest, h, hq => by
    simp only [forEachHandler]
    apply Outcome.andThen_hub_inv (QueueHolds entries)
    · exact invoke_queueHolds env h hq handler data
    · intro h1 hq1
      exact forEachHandler_queueHolds env data rest h1 hq1

theorem dispatch_queueHolds {entries : List (PriorityEvent δ)} (env : Handlers δ)
    (h : HubEventEmitter δ) (hq : QueueHolds entries h) (event : String) (data : δ) :
    QueueHolds entries (h.dispatch env event data).hub := by
  unfold dispatch
  split
  · exact hq
  · exact forEachHandler_queueHolds env data _ h hq
  · exact hq

theorem deliver_queueHolds {entries : List (PriorityEvent δ)} (env : Handlers δ)
    (h : HubEventEmitter δ) (hq : QueueHolds entries h) (e : PriorityEvent δ) :
    QueueHolds entries (h.deliver env e).hub := by
  unfold deliver
  apply Outcome.andThen_hub_inv (QueueHolds entries)
  · rw [log_hub]; exact hq
  · intro h1 hq1
    apply Outcome.andThen_hub_inv (QueueHolds entries) hq1
    intro h2 hq2
    exact dispatch_queueHolds env h2 hq2 _ _

/-- In every drain, whatever the handlers do, every entry that was in the queue is
either dequeued or still in the queue when the drain ends. -/
theorem processLoop_keeps (env : Handlers δ) :
    ∀ (fuel : Nat) (h : HubEventEmitter δ), LengthOK h →
      LengthOK (processLoop env fuel h).hub ∧
      h.events.data.Subperm
        (dispatched (processLoop env fuel h).trace ++ (processLoop env fuel h).hub.events.data)
  | 0, h, hl => by
    simp only [processLoop, dispatched, List.nil_append]
    exact ⟨hl, List.Subperm.refl _⟩
  | fuel + 1, h, hl => by
    cases hd : h.events.data with
    | nil =>
      have h1 : h.events.length = 0 := by rw [hl, hd]; rfl
      rw [processLoop_of_empty env _ h h1]
      simp only [dispatched, List.nil_append, hd]
      exact ⟨hl, List.Subperm.refl _⟩
    | cons a t =>
      have hl0 := afterDequeue_lengthOK h a t hl hd
      have hq1 : QueueHolds (h.afterDequeue a t).events.data
          ((h.afterDequeue a t).deliver env a).hub :=
        deliver_queueHolds env _ ⟨hl0, List.Subperm.refl _⟩ a
      have hperm : (h.afterDequeue a t).events.data.Perm t :=
        BinaryHeapStrategy.dequeue_cons_perm comparator a t
      have hnd := dispatched_eq_nil (deliver_trace_notDequeued env (h.afterDequeue a t) a)
      by_cases hc : ((h.afterDequeue a t).deliver env a).completion = Completion.normal
      · have ih := processLoop_keeps env fuel _ hq1.1
        rw [processLoop_step_normal env fuel h a t hl hd hc]
        simp only [List.cons_append, dispatched, dispatched_append, hnd, List.nil_append]
        exact ⟨ih.1, (List.subperm_cons a).mpr
          ((hperm.symm.subperm.trans hq1.2).trans ih.2)⟩
      · rw [processLoop_step_abort env fuel h a t hl hd hc]
        simp only [List.cons_append, dispatched, hnd, List.nil_append]
        exact ⟨hq1.1, (List.subperm_cons a).mpr (hperm.symm.subperm.trans hq1.2)⟩

end HubEventEmitter
end JsEventHub

namespace JsEventHub

open HubEventEmitter

variable {δ : Type}

/-! ## What holds when the hub raises no error of its own -/

/-- A subscription created by `on(name)` with no filter receives, in a drain that follows
any sequence of enqueues, exactly the payloads of the dequeued entries whose event is
`name`, in dispatch order, as long as no handler removes it.  When moreover no handler
enqueues, the loop ends within as many iterations as the queue has entries, and when the
drain returns the dequeued entries are the entries that were in the queue and one entry
per enqueue. -/
theorem unfiltered_subscription_receives_dispatched (env : Handlers δ) (name : String)
    (henv : KeepsSubscriptions name env) (h : HubEventEmitter δ) (hl : LengthOK h)
    (hlog : LoggerOK h) (hf : ChannelsFresh h) (emits : List (EmitArgs δ)) (fuel : Nat)
    (ctx : Context) :
    delivered (h.on name []).1
        (((h.on name []).2.emitAll emits).processEvents env fuel ctx).trace =
      ((dispatched (((h.on name []).2.emitAll emits).processEvents env fuel ctx).trace).filter
        (fun e => decide (e.event = name))).map (fun e => e.data) ∧
    (NoEnqueue env →
      (((h.on name []).2.emitAll emits).events.length ≤ fuel →
        (((h.on name []).2.emitAll emits).processEvents env fuel ctx).completion ≠
          Completion.outOfFuel) ∧
      ((((h.on name []).2.emitAll emits).processEvents env fuel ctx).completion =
          Completion.normal →
        (dispatched (((h.on name []).2.emitAll emits).processEvents env fuel ctx).trace).Perm
          (h.events.data ++ emits.map EmitArgs.entry))) := by
  have hi := emitAll_subInv emits _ (on_subInv h hf hlog hl name [])
  refine ⟨?_, fun hne => ?_⟩
  · unfold processEvents
    rw [(processLoop_delivered henv fuel _ hi).2, flatMap_listener_filter]
    simp
  · have hl2 := hi.2.2.2.2
    have hcons := processLoop_conserve hne fuel _ hl2
    refine ⟨fun hfuel => hcons.1 (by rw [← hl2]; exact hfuel), fun hn => ?_⟩
    have hnil := hcons.2.2.2 hn
    have hperm := hcons.2.2.1
    unfold processEvents at hn ⊢
    rw [hnil, List.append_nil] at hperm
    exact hperm.symm.trans (emitAll_perm emits _ hlog)

/-- After `onEvent(name, H1)`, ..., `onEvent(name, Hn)` have returned, the handler list of
`name` is the former list followed by `H1, ..., Hn`; every `dispatch` of `name` invokes
that list in order; and in every later drain that returns, of a hub with these
registrations, the handler invocations are for each dequeued entry in turn the handlers
of its name in registration order.  The handlers neither call back nor throw. -/
theorem handlers_run_in_registration_order (env : Handlers δ) (hp : Passive env)
    (hnt : NoThrow env) (h : HubEventEmitter δ) (hlog : LoggerOK h) (name : String)
    (Hs : List Nat) (hne : Hs ≠ [])
    (hreg : (h.calls (Hs.map (HubCall.onEvent name))).completion = Completion.normal) :
    (h.calls (Hs.map (HubCall.onEvent name))).hub.registered name
        = h.registered name ++ Hs ∧
    (∀ data, (h.calls (Hs.map (HubCall.onEvent name))).hub.dispatch env name data =
      ⟨(h.calls (Hs.map (HubCall.onEvent name))).hub,
        (h.registered name ++ Hs).map (fun H => Obs.handle H data), Completion.normal⟩) ∧
    (∀ (h2 : HubEventEmitter δ) (fuel : Nat) (ctx : Context),
      SameRegistry h2 (h.calls (Hs.map (HubCall.onEvent name))).hub → LengthOK h2 →
      SameRegistry (h2.processEvents env fuel ctx).hub
          (h.calls (Hs.map (HubCall.onEvent name))).hub ∧
        ((h2.processEvents env fuel ctx).completion = Completion.normal →
          handled (h2.processEvents env fuel ctx).trace =
            (dispatched (h2.processEvents env fuel ctx).trace).flatMap
              (fun e => ((h.calls (Hs.map (HubCall.onEvent name))).hub.registered e.event).map
                (fun H => (H, e.data))))) := by
  have hown := calls_onEvent_registered name Hs h hreg hne
  have hframe := calls_onEvent_frame name Hs h
  have hlog' : LoggerOK (h.calls (Hs.map (HubCall.onEvent name))).hub := by
    intro hl
    rw [hframe.2.2.2]
    exact hlog (hframe.2.2.1 ▸ hl)
  refine ⟨by simp [registered, hown], ?_, ?_⟩
  · intro data
    exact dispatch_of_registered hp hnt _ name _ hown data
  · intro h2 fuel ctx hs hl
    exact ⟨(processLoop_passive hp _ fuel h2 hs hl).2.1,
      fun hc => handled_processLoop hp hnt _ h2 hs hl hlog' fuel hc⟩

/-- When the entry at the root of the queue is dispatched and the handler `Hi` of its name
throws, the handlers before it having returned, `processEvents` throws the exception of
`Hi` with exactly the handlers up to `Hi` called, that entry dequeued and the other
entries in the queue.  The handlers do not call back into the hub. -/
theorem failing_handler_aborts_first_iteration (env : Handlers δ) (hp : Passive env)
    (h : HubEventEmitter δ) (hl : LengthOK h) (hlog : LoggerOK h) (a : PriorityEvent δ)
    (t : List (PriorityEvent δ)) (hd : h.events.data = a :: t) (hs1 : List Nat) (Hi : Nat)
    (hs2 : List Nat) (hreg : h.handlers a.event = some (hs1 ++ Hi :: hs2))
    (hnt : ∀ H ∈ hs1, (env H a.data).throws = false) (ht : (env Hi a.data).throws = true)
    (hem : a.event = "error" → h.eventEmitter.events a.event ≠ []) (fuel : Nat)
    (ctx : Context) :
    (h.processEvents env (fuel + 1) ctx).completion =
        Completion.thrown (JSError.thrownBy Hi) ∧
    handled (h.processEvents env (fuel + 1) ctx).trace =
        (hs1 ++ [Hi]).map (fun H => (H, a.data)) ∧
    dispatched (h.processEvents env (fuel + 1) ctx).trace = [a] ∧
    (h.processEvents env (fuel + 1) ctx).hub.events.data.Perm t ∧
    (h.processEvents env (fuel + 1) ctx).hub.events.length = t.length := by
  have hsr := afterDequeue_sameRegistry h a t
  have hdel := deliver_sameRegistry hp hsr a
  have hhub := deliver_passive_hub hp (h.afterDequeue a t) a
  have hemn := emit_normal_of_listeners h.eventEmitter a.event a.data hem
  have hdisp : h.dispatch env a.event a.data =
      ⟨h, (hs1 ++ [Hi]).map (fun H => Obs.handle H a.data),
        Completion.thrown (JSError.thrownBy Hi)⟩ := by
    unfold dispatch lookupHandlers
    rw [hreg]
    exact forEachHandler_throw hp a.data hs1 Hi hs2 h hnt ht
  have hcomp : ((h.afterDequeue a t).deliver env a).completion =
      Completion.thrown (JSError.thrownBy Hi) := by
    rw [hdel.2, deliver_completion_of_emit_normal h hlog a hemn, hdisp]
  have hnd := dispatched_eq_nil (deliver_trace_notDequeued env (h.afterDequeue a t) a)
  have hlen : h.events.length = t.length + 1 := by
    rw [hl, hd]; rfl
  unfold processEvents
  rw [processLoop_step_abort env fuel h a t hl hd (by rw [hcomp]; simp)]
  refine ⟨hcomp, ?_, ?_, ?_, ?_⟩
  · simp only [handled]
    rw [hdel.1, handled_deliver h hlog, if_pos hemn, hdisp, handled_map_handle]
  · simp [dispatched, hnd]
  · rw [hhub]
    exact BinaryHeapStrategy.dequeue_cons_perm comparator a t
  · rw [hhub]
    simp only [afterDequeue, hlen]
    rfl

/-- With handlers that do not enqueue, each entry in the queue when `processEvents` starts
is dequeued once by the call or still in the queue when it ends; when the call returns
the dequeued entries are a permutation of the entries that were in the queue, the queue
is empty, and a second `processEvents` dequeues nothing.  The call returns when the
handlers neither call back nor throw, the logger is in order and the hub can deliver
every queued name. -/
theorem every_entry_consumed_once_of_normal (env : Handlers δ) (hne : NoEnqueue env)
    (h : HubEventEmitter δ) (hl : LengthOK h) (fuel : Nat) (ctx : Context)
    (hfuel : h.events.length ≤ fuel) :
    (h.processEvents env fuel ctx).completion ≠ Completion.outOfFuel ∧
    h.events.data.Perm (dispatched (h.processEvents env fuel ctx).trace ++
      (h.processEvents env fuel ctx).hub.events.data) ∧
    ((h.processEvents env fuel ctx).completion = Completion.normal →
      (dispatched (h.processEvents env fuel ctx).trace).Perm h.events.data ∧
      (h.processEvents env fuel ctx).hub.events.length = 0 ∧
      ∀ (fuel2 : Nat) (ctx2 : Context),
        (h.processEvents env fuel ctx).hub.processEvents env fuel2 ctx2 =
          ⟨(h.processEvents env fuel ctx).hub, [], Completion.normal⟩) ∧
    (Passive env → NoThrow env → LoggerOK h →
      (∀ e ∈ h.events.data, Deliverable h e.event) →
      (h.processEvents env fuel ctx).completion = Completion.normal) := by
  have hc := processLoop_conserve hne fuel h hl
  unfold processEvents
  refine ⟨hc.1 (by rw [← hl]; exact hfuel), hc.2.2.1, fun hn => ?_, fun hp hnt hlog hd => ?_⟩
  · have hnil := hc.2.2.2 hn
    have hlen : (processLoop env fuel h).hub.events.length = 0 := by
      rw [hc.2.1, hnil]; rfl
    have hperm := hc.2.2.1
    rw [hnil, List.append_nil] at hperm
    exact ⟨hperm.symm, hlen, fun fuel2 _ => processLoop_of_empty env fuel2 _ hlen⟩
  · exact processLoop_normal hp hnt h hlog fuel h (sameRegistry_refl h) hl hd
      (by rw [← hl]; exact hfuel)

/-- As far as the payloads of dispatched entries go, subscriptions are independent.  The
channel `on` returns is used by no subscription made before; a second subscription never
changes which dispatched payloads are emitted on the channel of a first one; and while
the subscriptions of `name` are not removed, each channel receives the payloads of the
dequeued entries of `name` that pass its own filters.  What the `newListener` event adds
to a channel is not counted here (`onNotifying`). -/
theorem subscriptions_independent_for_dispatched (env : Handlers δ) (h : HubEventEmitter δ)
    (hf : ChannelsFresh h) (name : String) (filters1 filters2 : List (δ → Bool)) :
    (∀ m, ∀ l ∈ h.eventEmitter.events m, l.ch ≠ (h.on name filters1).1) ∧
    (∀ m, ∀ l ∈ (h.on name filters1).2.eventEmitter.events m,
      l.ch ≠ ((h.on name filters1).2.on name filters2).1) ∧
    (∀ ops : List (Op δ),
      delivered (h.on name filters1).1
          (((h.on name filters1).2.on name filters2).2.run env ops).2 =
        delivered (h.on name filters1).1 ((h.on name filters1).2.run env ops).2) ∧
    (LoggerOK h → LengthOK h → KeepsSubscriptions name env →
      ∀ cs : List (HubCall δ), (∀ c ∈ cs, HubCall.unsubscribes name c = false) →
      ∀ (fuel : Nat) (ctx : Context),
        delivered (h.on name filters1).1
            ((((h.on name filters1).2.on name filters2).2.calls cs).hub.processEvents env fuel
              ctx).trace =
          ((dispatched ((((h.on name filters1).2.on name filters2).2.calls cs).hub.processEvents
              env fuel ctx).trace).filter
            (fun e => decide (e.event = name ∧
              (filters1.length = 0 ∨ ∃ f ∈ filters1, f e.data = true)))).map
            (fun e => e.data) ∧
        delivered ((h.on name filters1).2.on name filters2).1
            ((((h.on name filters1).2.on name filters2).2.calls cs).hub.processEvents env fuel
              ctx).trace =
          ((dispatched ((((h.on name filters1).2.on name filters2).2.calls cs).hub.processEvents
              env fuel ctx).trace).filter
            (fun e => decide (e.event = name ∧
              (filters2.length = 0 ∨ ∃ f ∈ filters2, f e.data = true)))).map
            (fun e => e.data)) := by
  have hf1 := on_channelsFresh h hf name filters1
  refine ⟨fun m l hl => Nat.ne_of_lt (hf m l hl), fun m l hl => Nat.ne_of_lt (hf1 m l hl),
    fun ops => ?_, fun hlog hl henv cs hcs fuel ctx => ⟨?_, ?_⟩⟩
  · have hsim := (run_agree (simulation_channel (h.on name filters1).1) env ops _ _
      (on_sameButOtherChannels h name filters1 filters2)).2
    rw [← delivered_filter_concerns, ← hsim, delivered_filter_concerns]
  · have hi1 := on_subInv h hf hlog hl name filters1
    have hi2 : SubInv name ⟨filters1, (h.on name filters1).1⟩
        ((h.on name filters1).2.on name filters2).2 :=
      call_subInv _ hi1 (HubCall.on name filters2) rfl
    have hi3 := calls_subInv cs _ hi2 hcs
    unfold processEvents
    rw [(processLoop_delivered henv fuel _ hi3).2]
    exact flatMap_listener_filter name ⟨filters1, (h.on name filters1).1⟩ _
  · have hi2 := on_subInv (h.on name filters1).2 hf1 hlog hl name filters2
    have hi3 := calls_subInv cs _ hi2 hcs
    unfold processEvents
    rw [(processLoop_delivered henv fuel _ hi3).2]
    exact flatMap_listener_filter name
      ⟨filters2, ((h.on name filters1).2.on name filters2).1⟩ _

/-- For a name that `this.handlers` does not inherit from `Object.prototype` without having
it as an own property, `onEvent(name, handler)` appends: the handler list of `name`
becomes the old list followed by `handler`, twice the same handler puts it in the list
twice and `dispatch` calls it twice, and the handler lists of the other names, the
subscriptions, the queue and the logging are unchanged. -/
theorem onEvent_appends_of_not_inherited (h : HubEventEmitter δ) (name : String) (handler : Nat)
    (hn : h.lookupHandlers name ≠ HandlersLookup.inherited) :
    (h.onEvent name handler).completion = Completion.normal ∧
    (h.onEvent name handler).hub.registered name = h.registered name ++ [handler] ∧
    (∀ m, m ≠ name → (h.onEvent name handler).hub.handlers m = h.handlers m) ∧
    (h.onEvent name handler).hub.eventEmitter = h.eventEmitter ∧
    (h.onEvent name handler).hub.events = h.events ∧
    (h.onEvent name handler).hub.logging = h.logging ∧
    (h.onEvent name handler).hub.logger = h.logger ∧
    ((h.onEvent name handler).hub.onEvent name handler).completion = Completion.normal ∧
    ((h.onEvent name handler).hub.onEvent name handler).hub.registered name =
      h.registered name ++ [handler, handler] ∧
    ∀ (env : Handlers δ) (data : δ),
      (((h.onEvent name handler).hub.onEvent name handler).hub.dispatch env name
        data).completion = Completion.normal →
      handled (((h.onEvent name handler).hub.onEvent name handler).hub.dispatch env name
        data).trace = (h.registered name ++ [handler, handler]).map (fun H => (H, data)) := by
  have hc := onEvent_normal h name handler hn
  have hreg := onEvent_registered_of_normal h name handler hc
  have hfr := onEvent_emitter h name handler
  have hn2 := lookupHandlers_of_own _ name _ hreg
  have hc2 := onEvent_normal (h.onEvent name handler).hub name handler hn2
  have hreg2 := onEvent_registered_of_normal (h.onEvent name handler).hub name handler hc2
  have hr1 : (h.onEvent name handler).hub.registered name = h.registered name ++ [handler] := by
    simp [registered, hreg]
  have hr2 : ((h.onEvent name handler).hub.onEvent name handler).hub.registered name =
      h.registered name ++ [handler, handler] := by
    simp [registered, hreg2, hreg]
  refine ⟨hc, hr1, ?_, hfr.1, onEvent_events h name handler, hfr.2.2.1, hfr.2.2.2, hc2, hr2,
    fun env data hd => ?_⟩
  · intro m hm
    rw [onEvent_of_normal h name handler hc]
    simp [hm]
  · rw [(handled_dispatch env _ name data).2 hd, hr2]

end JsEventHub

namespace JsEventHub
namespace HubEventEmitter

variable {δ : Type}

/-! ## The trace of a drain, entry by entry -/

/-- The trace of a drain, with handlers that start no drain, is made of one block per
dequeued entry: the dequeue, then log lines and `data` emissions of its payload, then
log lines and handler calls with its payload. -/
theorem processLoop_blocks (env : Handlers δ) :
    ∀ (fuel : Nat) (h : HubEventEmitter δ),
      ∃ blocks : List (PriorityEvent δ × List (Obs δ) × List (Obs δ)),
        (processLoop env fuel h).trace =
          blocks.flatMap (fun b => Obs.dequeued b.1 :: (b.2.1 ++ b.2.2)) ∧
        ∀ b ∈ blocks, EmitPart b.1.data b.2.1 ∧ HandlePart b.1.data b.2.2
  | 0, h => ⟨[], by simp [processLoop], by simp⟩
  | fuel + 1, h => by
    rw [processLoop]
    split
    · split
      · exact ⟨[], by simp, by simp⟩
      · exact ⟨[], by simp, by simp⟩
      · next e q _ =>
        rw [Outcome.mk_andThen]
        obtain ⟨t1, t2, heq, h1, h2⟩ := deliver_trace_split env { h with events := q } e
        by_cases hc : (deliver env { h with events := q } e).completion = Completion.normal
        · obtain ⟨blocks, hb1, hb2⟩ := processLoop_blocks env fuel
            (deliver env { h with events := q } e).hub
          refine ⟨(e, t1, t2) :: blocks, ?_, ?_⟩
          · simp only [Outcome.andThen, hc, List.singleton_append, List.cons_append,
              List.flatMap_cons, hb1, heq, List.nil_append]
          · intro b hb
            rcases List.mem_cons.mp hb with rfl | hb'
            · exact ⟨h1, h2⟩
            · exact hb2 b hb'
        · have hr : ∀ (k : HubEventEmitter δ → Outcome δ),
              (Outcome.mk (deliver env { h with events := q } e).hub
                ([Obs.dequeued e] ++ (deliver env { h with events := q } e).trace)
                (deliver env { h with events := q } e).completion).andThen k =
              Outcome.mk (deliver env { h with events := q } e).hub
                ([Obs.dequeued e] ++ (deliver env { h with events := q } e).trace)
                (deliver env { h with events := q } e).completion :=
            fun k => Outcome.andThen_of_not_normal k hc
          rw [hr]
          refine ⟨[(e, t1, t2)], ?_, ?_⟩
          · simp only [List.singleton_append, List.flatMap_cons, List.flatMap_nil,
              List.append_nil, heq]
          · intro b hb
            rcases List.mem_singleton.mp hb with rfl
            exact ⟨h1, h2⟩
    · exact ⟨[], by simp, by simp⟩

end HubEventEmitter
end JsEventHub

namespace JsEventHub

open HubEventEmitter

variable {δ : Type}

/-! ## The statements of the specification -/

/-- C1: after any sequence of `emitWithContext` calls with finite priorities on a hub
whose queued priorities are finite, `processEvents` dequeues the entries in non-decreasing
priority order: an entry dispatched before another has a priority `<=` the other's.  The
handlers are assumed not to enqueue; the loop then ends within as many iterations as
the queue has entries. -/
theorem C1_drain_in_priority_order (env : Handlers δ) (hne : NoEnqueue env)
    (h : HubEventEmitter δ) (hq : QueueOK h) (emits : List (EmitArgs δ))
    (hp : ∀ c ∈ emits, c.priority.isFinite = true) (fuel : Nat) (ctx : Context) :
    (dispatched ((h.emitAll emits).processEvents env fuel ctx).trace).Pairwise
        (fun x y => Priority.le x.priority y.priority) ∧
      ((h.emitAll emits).events.length ≤ fuel →
        ((h.emitAll emits).processEvents env fuel ctx).completion ≠ Completion.outOfFuel) := by
  have hq' := emitAll_queueOK emits h hq hp
  refine ⟨(processLoop_sorted hne fuel _ hq').1, fun hf => ?_⟩
  exact (processLoop_conserve hne fuel _ hq'.1).1 (by rw [← hq'.1]; exact hf)

/-- C1 on the first scenario of the specification: `build` enqueued with priority `5`
then with priority `1` is dispatched as priority `1`, then priority `5`. -/
theorem C1_drain_in_priority_order_witness :
    NoEnqueue Examples.quiet ∧ QueueOK Examples.hub0 ∧
      (∀ c ∈ Examples.buildEmits, c.priority.isFinite = true) ∧
      dispatched ((Examples.hub0.emitAll Examples.buildEmits).processEvents Examples.quiet 2
          Examples.ctx).trace
        = [⟨"build", Priority.num 1, 8⟩, ⟨"build", Priority.num 5, 7⟩] ∧
      ((dispatched ((Examples.hub0.emitAll Examples.buildEmits).processEvents Examples.quiet 2
          Examples.ctx).trace).Pairwise (fun x y => Priority.le x.priority y.priority) ∧
        ((Examples.hub0.emitAll Examples.buildEmits).events.length ≤ 2 →
          ((Examples.hub0.emitAll Examples.buildEmits).processEvents Examples.quiet 2
            Examples.ctx).completion ≠ Completion.outOfFuel)) :=
  ⟨noEnqueue_of_passive passive_quiet, queueOK_constructor false, by decide, by decide,
    C1_drain_in_priority_order Examples.quiet (noEnqueue_of_passive passive_quiet)
      Examples.hub0 (queueOK_constructor false) Examples.buildEmits (by decide) 2
      Examples.ctx⟩

/-- C2: in every drain, a subscription created by `on(name, f1, ..., fk)` and still
registered (no `off(name)` and no `close()` since, by the application or by a handler)
emits `data` with the payload of a dequeued entry exactly when the entry has the event
`name` and there is no filter or at least one filter holds of the payload (a logical
or): the payloads emitted on the returned channel are those of the dequeued entries that
qualify, in dispatch order, once each. -/
theorem C2_subscription_delivers_iff_some_filter (env : Handlers δ) (name : String)
    (henv : KeepsSubscriptions name env) (h : HubEventEmitter δ) (hf : ChannelsFresh h)
    (hlog : LoggerOK h) (hl : LengthOK h) (filters : List (δ → Bool))
    (cs : List (HubCall δ)) (hcs : ∀ c ∈ cs, HubCall.unsubscribes name c = false)
    (fuel : Nat) (ctx : Context) :
    delivered (h.on name filters).1
        (((h.on name filters).2.calls cs).hub.processEvents env fuel ctx).trace =
      ((dispatched (((h.on name filters).2.calls cs).hub.processEvents env fuel ctx).trace).filter
        (fun e => decide (e.event = name ∧
          (filters.length = 0 ∨ ∃ f ∈ filters, f e.data = true)))).map (fun e => e.data) := by
  have hi := calls_subInv cs _ (on_subInv h hf hlog hl name filters) hcs
  unfold processEvents
  rw [(processLoop_delivered henv fuel _ hi).2]
  exact flatMap_listener_filter name ⟨filters, (h.on name filters).1⟩ _

/-- C2 on the second scenario of the specification: a subscription to `alert` with the
filter `level > 5` receives nothing from a drain of one `alert` entry of level `3`. -/
theorem C2_subscription_delivers_iff_some_filter_witness :
    KeepsSubscriptions "alert" Examples.quiet ∧ ChannelsFresh Examples.hub0 ∧
      LoggerOK Examples.hub0 ∧ LengthOK Examples.hub0 ∧
      (∀ c ∈ [HubCall.emitWithContext Examples.ctx "alert" (3 : Int) (Priority.num 1)],
        HubCall.unsubscribes "alert" c = false) ∧
      delivered (Examples.hub0.on "alert" [Examples.levelAbove5]).1
        (((Examples.hub0.on "alert" [Examples.levelAbove5]).2.calls
          [HubCall.emitWithContext Examples.ctx "alert" 3 (Priority.num 1)]).hub.processEvents
            Examples.quiet 1 Examples.ctx).trace = [] ∧
      dispatched (((Examples.hub0.on "alert" [Examples.levelAbove5]).2.calls
          [HubCall.emitWithContext Examples.ctx "alert" 3 (Priority.num 1)]).hub.processEvents
            Examples.quiet 1 Examples.ctx).trace = [⟨"alert", Priority.num 1, 3⟩] ∧
      delivered (Examples.hub0.on "alert" [Examples.levelAbove5]).1
        (((Examples.hub0.on "alert" [Examples.levelAbove5]).2.calls
          [HubCall.emitWithContext Examples.ctx "alert" 3 (Priority.num 1)]).hub.processEvents
            Examples.quiet 1 Examples.ctx).trace =
        ((dispatched (((Examples.hub0.on "alert" [Examples.levelAbove5]).2.calls
          [HubCall.emitWithContext Examples.ctx "alert" 3 (Priority.num 1)]).hub.processEvents
            Examples.quiet 1 Examples.ctx).trace).filter
          (fun e => decide (e.event = "alert" ∧
            ([Examples.levelAbove5].length = 0 ∨
              ∃ f ∈ [Examples.levelAbove5], f e.data = true)))).map (fun e => e.data) :=
  ⟨keepsSubscriptions_of_passive passive_quiet "alert", channelsFresh_constructor false,
    loggerOK_constructor false, rfl, by simp [HubCall.unsubscribes], by decide, by decide,
    C2_subscription_delivers_iff_some_filter Examples.quiet "alert"
      (keepsSubscriptions_of_passive passive_quiet "alert") Examples.hub0
      (channelsFresh_constructor false) (loggerOK_constructor false) rfl
      [Examples.levelAbove5]
      [HubCall.emitWithContext Examples.ctx "alert" 3 (Priority.num 1)]
      (by simp [HubCall.unsubscribes]) 1 Examples.ctx⟩

/-- C3: the claim fails when the hub itself throws during the drain.  With a
subscription to `notify` with no filter, a `constructor` event enqueued with priority `1`
and a `notify` event enqueued with priority `2`, the drain dequeues the `constructor`
entry and throws a `TypeError` from `dispatch`: the `notify` entry stays in the queue and
its payload is not emitted on the channel. -/
theorem C3_enqueued_event_not_received :
    (((Examples.hub0.on "notify" []).2.emitAll Examples.constructorThenNotify).processEvents
        Examples.quiet 2 Examples.ctx).completion =
      Completion.thrown (JSError.typeError "handlers.forEach is not a function") ∧
    dispatched
      (((Examples.hub0.on "notify" []).2.emitAll Examples.constructorThenNotify).processEvents
        Examples.quiet 2 Examples.ctx).trace = [⟨"constructor", Priority.num 1, 0⟩] ∧
    delivered (Examples.hub0.on "notify" []).1
      (((Examples.hub0.on "notify" []).2.emitAll Examples.constructorThenNotify).processEvents
        Examples.quiet 2 Examples.ctx).trace = [] ∧
    (((Examples.hub0.on "notify" []).2.emitAll Examples.constructorThenNotify).processEvents
        Examples.quiet 2 Examples.ctx).hub.events.data = [⟨"notify", Priority.num 2, 9⟩] := by
  decide

/-- C4: the claim fails for the event names `toString` and `error`.  `onEvent("toString",
H1)` throws a `TypeError` and registers nothing.  `onEvent("error", H1)` registers `H1`,
but with no subscription to `error` the drain of an `error` entry dequeues the entry and
throws from the emitter before `dispatch` is reached: `H1` is not invoked. -/
theorem C4_handlers_not_invoked_for_special_names :
    (Examples.hub0.onEvent "toString" 1).completion =
      Completion.thrown (JSError.typeError "this.handlers[event].push is not a function") ∧
    (Examples.hub0.onEvent "toString" 1).hub.registered "toString" = [] ∧
    (Examples.hub0.onEvent "error" 1).completion = Completion.normal ∧
    (Examples.hub0.onEvent "error" 1).hub.registered "error" = [1] ∧
    (((Examples.hub0.onEvent "error" 1).hub.emitAll Examples.errorEmits).processEvents
        Examples.quiet 1 Examples.ctx).completion =
      Completion.thrown JSError.unhandledError ∧
    dispatched (((Examples.hub0.onEvent "error" 1).hub.emitAll Examples.errorEmits).processEvents
        Examples.quiet 1 Examples.ctx).trace = [⟨"error", Priority.num 1, 0⟩] ∧
    handled (((Examples.hub0.onEvent "error" 1).hub.emitAll Examples.errorEmits).processEvents
        Examples.quiet 1 Examples.ctx).trace = [] := by
  decide

/-- C5: `off(name)` leaves `name` with no subscription and no handler, and changes
nothing else: the subscriptions and handlers of every other name, the queue, the logging
flag and the logger are as before. -/
theorem C5_off_removes_only_that_name (h : HubEventEmitter δ) (name : String) :
    (h.off name).eventEmitter.events name = [] ∧
    (h.off name).handlers name = none ∧
    (∀ m, m ≠ name →
      (h.off name).eventEmitter.events m = h.eventEmitter.events m ∧
      (h.off name).handlers m = h.handlers m) ∧
    (h.off name).events = h.events ∧
    (h.off name).logging = h.logging ∧
    (h.off name).logger = h.logger := by
  refine ⟨by simp [off, EventEmitter.removeAllListeners], by simp [off], ?_, rfl, rfl, rfl⟩
  intro m hm
  simp [off, EventEmitter.removeAllListeners, hm]

/-- C6: after `off(name)`, in every later sequence of calls and drains, nothing is
heard by the subscriptions and the handler registrations that `name` had before the
call: while an entry of `name` is delivered, whether it was queued before `off` or
enqueued after it, no `data` is emitted on a channel of those subscriptions and no
handler of those registrations is called.  The handler objects concerned are assumed not
to be registered under `name` again. -/
theorem C6_off_silences_old_registrations (env : Handlers δ) (h : HubEventEmitter δ)
    (hf : ChannelsFresh h) (name : String) (ops : List (Op δ))
    (henv : ∀ handler data, ∀ c ∈ (env handler data).calls,
      HubCall.registers name (h.registered name) c = false)
    (hops : ∀ c, Op.call c ∈ ops → HubCall.registers name (h.registered name) c = false) :
    ∀ p ∈ tagged none ((h.off name).run env ops).2, ∀ e, p.1 = some e → e.event = name →
      (∀ l ∈ h.eventEmitter.events name, ∀ d, p.2 ≠ Obs.data l.ch d) ∧
      (∀ H ∈ h.registered name, ∀ d, p.2 ≠ Obs.handle H d) := by
  intro p hp e he hn
  have hs := (run_silent henv ops (h.off name) (off_offInv h name) hops).2 none p hp e he hn
  exact ⟨fun l hl d => hs.1 l.ch d (hf name l hl), fun H hH d => hs.2 H d hH⟩

/-- C6 on the fourth scenario: with a subscription and two handlers under `notify` and a
`notify` entry queued, after `off("notify")` a drain, a further enqueue and a second
drain dequeue both entries and deliver them to nobody. -/
theorem C6_off_silences_old_registrations_witness :
    ChannelsFresh Examples.subscribedHub ∧
      Examples.subscribedHub.registered "notify" = [1, 2] ∧
      ((Examples.subscribedHub.off "notify").run Examples.quiet Examples.laterOps).2 =
        [Obs.dequeued ⟨"notify", Priority.num 1, 9⟩,
         Obs.dequeued ⟨"notify", Priority.num 2, 10⟩] ∧
      (∀ p ∈ tagged none
          ((Examples.subscribedHub.off "notify").run Examples.quiet Examples.laterOps).2,
        ∀ e, p.1 = some e → e.event = "notify" →
          (∀ l ∈ Examples.subscribedHub.eventEmitter.events "notify",
            ∀ d, p.2 ≠ Obs.data l.ch d) ∧
          (∀ H ∈ Examples.subscribedHub.registered "notify", ∀ d, p.2 ≠ Obs.handle H d)) :=
  ⟨channelsFresh_subscribedHub, by decide, by decide,
    C6_off_silences_old_registrations Examples.quiet Examples.subscribedHub
      channelsFresh_subscribedHub "notify" Examples.laterOps
      (fun _ _ c hc => by simp [Examples.quiet] at hc)
      (fun c hc => by
        simp [Examples.laterOps] at hc
        subst hc
        rfl)⟩

/-- C7: `close()` leaves every name with no subscription and no handler, and leaves the
queue exactly as it was: the same entries and the same length. -/
theorem C7_close_clears_registrations_keeps_queue (h : HubEventEmitter δ) :
    (∀ name, h.close.eventEmitter.events name = [] ∧ h.close.handlers name = none) ∧
    h.close.events = h.events ∧
    h.close.events.data.Perm h.events.data ∧
    h.close.events.length = h.events.length ∧
    h.close.logging = h.logging ∧
    h.close.logger = h.logger :=
  ⟨fun _ => ⟨rfl, rfl⟩, rfl, List.Perm.refl _, rfl, rfl, rfl⟩

/-- C8: the claim fails for the event names `constructor` and `error`.  With no
subscription and no handler registered, a drain of one `constructor` entry pops the entry
and then throws a `TypeError` from `dispatch`, and a drain of one `error` entry pops the
entry and then throws from the emitter; a drain of one `notify` entry returns normally.
In all three no listener and no handler is invoked and the queue is empty afterwards. -/
theorem C8_unregistered_special_names_throw :
    ((Examples.hub0.emitAll Examples.constructorEmits).processEvents Examples.quiet 1
        Examples.ctx).completion =
      Completion.thrown (JSError.typeError "handlers.forEach is not a function") ∧
    ((Examples.hub0.emitAll Examples.constructorEmits).processEvents Examples.quiet 1
        Examples.ctx).trace = [Obs.dequeued ⟨"constructor", Priority.num 1, 0⟩] ∧
    ((Examples.hub0.emitAll Examples.constructorEmits).processEvents Examples.quiet 1
        Examples.ctx).hub.events.length = 0 ∧
    ((Examples.hub0.emitAll Examples.errorEmits).processEvents Examples.quiet 1
        Examples.ctx).completion = Completion.thrown JSError.unhandledError ∧
    ((Examples.hub0.emitAll Examples.errorEmits).processEvents Examples.quiet 1
        Examples.ctx).trace = [Obs.dequeued ⟨"error", Priority.num 1, 0⟩] ∧
    ((Examples.hub0.emitAll Examples.errorEmits).processEvents Examples.quiet 1
        Examples.ctx).hub.events.length = 0 ∧
    ((Examples.hub0.emitAll Examples.notifyEmits).processEvents Examples.quiet 1
        Examples.ctx).completion = Completion.normal ∧
    ((Examples.hub0.emitAll Examples.notifyEmits).processEvents Examples.quiet 1
        Examples.ctx).trace = [Obs.dequeued ⟨"notify", Priority.num 1, 9⟩] := by
  decide

/-- C9 fails as stated: with `H1` (which throws) and `H2` registered under `notify` and
two `notify` entries queued, the drain calls `H1` for the first entry and throws; `H2` is
not invoked, the second entry is not dispatched, and `processEvents` throws. -/
theorem C9_failing_handler_not_isolated :
    (2, 9) ∉ handled ((Examples.notifyHub.emitAll Examples.twoNotifyEmits).processEvents
      Examples.failing 2 Examples.ctx).trace ∧
    (⟨"notify", Priority.num 2, 10⟩ : PriorityEvent Int) ∉
      dispatched ((Examples.notifyHub.emitAll Examples.twoNotifyEmits).processEvents
        Examples.failing 2 Examples.ctx).trace ∧
    ((Examples.notifyHub.emitAll Examples.twoNotifyEmits).processEvents
      Examples.failing 2 Examples.ctx).completion =
        Completion.thrown (JSError.thrownBy 1) := by
  decide

/-- C9 as amended: a failing handler is not isolated.  In every `processEvents` call, as
soon as a handler `Hi` whose body throws has been called, the call throws, the exception
of `Hi` or the `TypeError` of a hub call `Hi` made before: what is observed after the
call of `Hi` is at most lines written to the logger, so that no handler registered after
`Hi` is invoked, no subscription is notified and no further entry is dequeued; and every
entry that was in the queue is either dequeued or still in the queue, whatever the
handlers do; with handlers that do not enqueue these are all the entries there are. -/
theorem C9_failing_handler_aborts_drain (env : Handlers δ) (h : HubEventEmitter δ)
    (hl : LengthOK h) (fuel : Nat) (ctx : Context) (pre post : List (Obs δ)) (Hi : Nat)
    (d : δ) (htr : (h.processEvents env fuel ctx).trace = pre ++ Obs.handle Hi d :: post)
    (ht : (env Hi d).throws = true) :
    ((h.processEvents env fuel ctx).completion = Completion.thrown (JSError.thrownBy Hi) ∨
      ∃ what, (h.processEvents env fuel ctx).completion =
        Completion.thrown (JSError.typeError what)) ∧
    (∀ o ∈ post, Obs.isLog o) ∧
    handled post = [] ∧
    dispatched post = [] ∧
    (∀ ch, delivered ch post = []) ∧
    LengthOK (h.processEvents env fuel ctx).hub ∧
    h.events.data.Subperm (dispatched (h.processEvents env fuel ctx).trace ++
      (h.processEvents env fuel ctx).hub.events.data) ∧
    (NoEnqueue env →
      h.events.data.Perm (dispatched (h.processEvents env fuel ctx).trace ++
        (h.processEvents env fuel ctx).hub.events.data)) := by
  have ha := processLoop_abortsAfterThrow env fuel h pre Hi d post htr ht
  have hk := processLoop_keeps env fuel h hl
  have hnd : ∀ o ∈ post, Obs.notDequeued o := by
    intro o ho
    have := ha.2 o ho
    cases o <;> simp_all [Obs.isLog, Obs.notDequeued]
  exact ⟨ha.1, ha.2, handled_of_isLog ha.2, dispatched_eq_nil hnd,
    fun ch => delivered_of_isLog ch ha.2, hk.1, hk.2,
    fun hne => (processLoop_conserve hne fuel h hl).2.2.1⟩

/-- C9 as amended, with `H1` and `H2` registered under `notify` and two `notify` entries
queued, `H2` throwing on the payload of the second: the first entry is handled by `H1`
and `H2`, the second by `H1` and `H2`, and the call throws the exception of `H2`. -/
theorem C9_failing_handler_aborts_drain_witness :
    LengthOK (Examples.notifyHub.emitAll Examples.twoNotifyEmits) ∧
      ((Examples.notifyHub.emitAll Examples.twoNotifyEmits).processEvents
          Examples.failingOnSecond 2 Examples.ctx).trace =
        [Obs.dequeued ⟨"notify", Priority.num 1, 9⟩, Obs.handle 1 9, Obs.handle 2 9,
          Obs.dequeued ⟨"notify", Priority.num 2, 10⟩, Obs.handle 1 10] ++
          Obs.handle 2 10 :: [] ∧
      (Examples.failingOnSecond 2 10).throws = true ∧
      ((Examples.notifyHub.emitAll Examples.twoNotifyEmits).processEvents
          Examples.failingOnSecond 2 Examples.ctx).completion =
        Completion.thrown (JSError.thrownBy 2) ∧
      (Examples.notifyHub.emitAll Examples.twoNotifyEmits).events.data.Subperm
        (dispatched ((Examples.notifyHub.emitAll Examples.twoNotifyEmits).processEvents
            Examples.failingOnSecond 2 Examples.ctx).trace ++
          ((Examples.notifyHub.emitAll Examples.twoNotifyEmits).processEvents
            Examples.failingOnSecond 2 Examples.ctx).hub.events.data) :=
  ⟨by unfold LengthOK; decide, by decide, by decide, by decide,
    (C9_failing_handler_aborts_drain Examples.failingOnSecond
      (Examples.notifyHub.emitAll Examples.twoNotifyEmits) (by unfold LengthOK; decide) 2
      Examples.ctx
      [Obs.dequeued ⟨"notify", Priority.num 1, 9⟩, Obs.handle 1 9, Obs.handle 2 9,
        Obs.dequeued ⟨"notify", Priority.num 2, 10⟩, Obs.handle 1 10]
      [] 2 10 (by decide) (by decide)).2.2.2.2.2.2.1⟩

/-- C10: the claim fails when the hub itself throws during the drain.  With a
`constructor` entry and a `notify` entry in the queue and handlers that do nothing, the
drain dequeues the `constructor` entry and throws a `TypeError` from `dispatch`: the
entries dispatched are not a permutation of the queue, the `notify` entry is left in
the queue, and a second `processEvents` dispatches it. -/
theorem C10_entry_left_when_hub_throws :
    (Examples.hub0.emitAll Examples.constructorThenNotify).events.data =
      [⟨"constructor", Priority.num 1, 0⟩, ⟨"notify", Priority.num 2, 9⟩] ∧
    ((Examples.hub0.emitAll Examples.constructorThenNotify).processEvents Examples.quiet 2
        Examples.ctx).completion =
      Completion.thrown (JSError.typeError "handlers.forEach is not a function") ∧
    dispatched ((Examples.hub0.emitAll Examples.constructorThenNotify).processEvents
        Examples.quiet 2 Examples.ctx).trace = [⟨"constructor", Priority.num 1, 0⟩] ∧
    ((Examples.hub0.emitAll Examples.constructorThenNotify).processEvents Examples.quiet 2
        Examples.ctx).hub.events.data = [⟨"notify", Priority.num 2, 9⟩] ∧
    dispatched (((Examples.hub0.emitAll Examples.constructorThenNotify).processEvents
        Examples.quiet 2 Examples.ctx).hub.processEvents Examples.quiet 2
          Examples.ctx).trace = [⟨"notify", Priority.num 2, 9⟩] := by
  decide

end JsEventHub

namespace JsEventHub

open HubEventEmitter

variable {δ : Type}

/-- C11 fails as stated: with `H1` and `H2` registered under `notify`, two `notify`
entries queued and `H1` calling `processEvents` whenever it is called, the second entry
is dequeued and handled while the first is being handled, and `H2` is called for the
first entry only afterwards. -/
theorem C11_nested_drain_interleaves_deliveries :
    ((Examples.notifyHub.emitAll Examples.twoNotifyEmits).processEventsNested
        Examples.reentering 2 Examples.ctx).trace =
      [Obs.dequeued ⟨"notify", Priority.num 1, 9⟩, Obs.handle 1 9,
        Obs.dequeued ⟨"notify", Priority.num 2, 10⟩, Obs.handle 1 10, Obs.handle 2 10,
        Obs.handle 2 9] ∧
    ¬ InOrder none false
      ((Examples.notifyHub.emitAll Examples.twoNotifyEmits).processEventsNested
        Examples.reentering 2 Examples.ctx).trace := by
  have htr : ((Examples.notifyHub.emitAll Examples.twoNotifyEmits).processEventsNested
      Examples.reentering 2 Examples.ctx).trace =
      [Obs.dequeued ⟨"notify", Priority.num 1, 9⟩, Obs.handle 1 9,
        Obs.dequeued ⟨"notify", Priority.num 2, 10⟩, Obs.handle 1 10, Obs.handle 2 10,
        Obs.handle 2 9] := by decide
  refine ⟨htr, ?_⟩
  rw [htr]
  simp [InOrder]

/-- C11 as amended.  For every dequeued entry, also in a drain started by a handler, all
subscriptions of its name are notified before any handler of that name is invoked: one
iteration of the loop dequeues the root `a`, writes the log line, runs every listener
registered under the name of `a` in registration order, only then runs `dispatch`, and
goes on to the next dequeue when `dispatch` is over.  And when no handler calls
`processEvents`, all deliveries for one entry are complete before the next entry is
dequeued: every `data` emission and every handler call of the drain carries the payload
of the entry dequeued last, and no `data` emission for an entry follows a handler call
for it; the trace is made of one block per dequeued entry, the dequeue followed by the
`data` emissions of its payload and then by the handler calls with its payload. -/
theorem C11_subscriptions_before_handlers (env : ReentrantHandlers δ)
    (h : HubEventEmitter δ) (fuel : Nat) (ctx : Context) :
    (∀ a t, LengthOK h → LoggerOK h → h.events.data = a :: t →
      (h.processEventsNested env (fuel + 1) ctx).trace =
        Obs.dequeued a ::
          (((h.afterDequeue a t).deliverNested (processLoopNested env fuel) env a).trace ++
            if ((h.afterDequeue a t).deliverNested (processLoopNested env fuel) env
                a).completion = Completion.normal then
              (((h.afterDequeue a t).deliverNested (processLoopNested env fuel) env
                a).hub.processEventsNested env fuel ctx).trace
            else []) ∧
      ((h.afterDequeue a t).deliverNested (processLoopNested env fuel) env a).trace =
        (h.log (Obs.logProcessing a.event a.priority)).trace ++
          (h.eventEmitter.events a.event).flatMap (fun l => l.call a.data) ++
          (if (h.eventEmitter.emit a.event a.data).2 = Completion.normal then
            ((h.afterDequeue a t).dispatchNested (processLoopNested env fuel) env a.event
              a.data).trace
          else [])) ∧
    (NoReentry env →
      InOrder none false (h.processEventsNested env fuel ctx).trace ∧
      ∃ blocks : List (PriorityEvent δ × List (Obs δ) × List (Obs δ)),
        (h.processEventsNested env fuel ctx).trace =
          blocks.flatMap (fun b => Obs.dequeued b.1 :: (b.2.1 ++ b.2.2)) ∧
        ∀ b ∈ blocks, EmitPart b.1.data b.2.1 ∧ HandlePart b.1.data b.2.2) := by
  refine ⟨fun a t hl hlog hd => ⟨?_, ?_⟩, fun hnr => ?_⟩
  · unfold processEventsNested
    exact processLoopNested_step_trace env fuel h a t hl hd
  · have hlog' : LoggerOK (h.afterDequeue a t) := hlog
    rw [deliverNested_trace_exact _ env (h.afterDequeue a t) hlog' a,
      (log_congr (h.afterDequeue a t) h _ rfl rfl).1]
    rfl
  · unfold processEventsNested
    rw [processLoopNested_of_noReentry hnr]
    exact ⟨processLoop_inOrder _ fuel h none false, processLoop_blocks _ fuel h⟩

/-- C11 as amended, on the hub with a subscription and the handlers `H1`, `H2` under
`notify`: the drain of one `notify` entry emits `data` on the channel, then calls `H1`, then
`H2`. -/
theorem C11_subscriptions_before_handlers_witness :
    NoReentry Examples.quietNested ∧
      (Examples.subscribedHub.processEventsNested Examples.quietNested 1 Examples.ctx).trace =
        [Obs.dequeued ⟨"notify", Priority.num 1, 9⟩, Obs.data 0 9, Obs.handle 1 9,
          Obs.handle 2 9] ∧
      InOrder none false
        (Examples.subscribedHub.processEventsNested Examples.quietNested 1
          Examples.ctx).trace :=
  ⟨fun _ _ a ha => by simp [Examples.quietNested] at ha, by decide,
    ((C11_subscriptions_before_handlers Examples.quietNested Examples.subscribedHub 1
      Examples.ctx).2 (fun _ _ a ha => by simp [Examples.quietNested] at ha)).1⟩

/-- C12 fails as stated: `emitWithContext` with the priority `NaN` on a new hub returns
normally and the queue then holds the entry. -/
theorem C12_malformed_priority_not_rejected :
    (Examples.hub0.emitWithContext Examples.ctx "build" 7 Priority.nan).completion =
      Completion.normal ∧
    (Examples.hub0.emitWithContext Examples.ctx "build" 7 Priority.nan).hub.events.data =
      [⟨"build", Priority.nan, 7⟩] ∧
    (Examples.hub0.emitWithContext Examples.ctx "build" 7 Priority.nan).hub.events.length = 1 ∧
    Examples.hub0.events.length = 0 := by
  decide

/-- C12 as amended: `emitWithContext` does not reject a malformed priority.  For a
priority that is not a number the call returns normally and the entry is queued, at the
end of the array of the queue, whose length grows by one; the registrations and the
logging are as before. -/
theorem C12_malformed_priority_is_queued (h : HubEventEmitter δ) (hlog : LoggerOK h)
    (ctx : Context) (event : String) (data : δ) :
    (h.emitWithContext ctx event data Priority.nan).completion = Completion.normal ∧
    (h.emitWithContext ctx event data Priority.nan).hub.events.data =
      h.events.data ++ [⟨event, Priority.nan, data⟩] ∧
    (h.emitWithContext ctx event data Priority.nan).hub.events.length =
      h.events.length + 1 ∧
    SameRegistry (h.emitWithContext ctx event data Priority.nan).hub h := by
  have he := emitWithContext_of_loggerOK h hlog ctx event data Priority.nan
  refine ⟨he.2, ?_, ?_, emitWithContext_sameRegistry h ctx event data Priority.nan⟩
  · rw [he.1]
    exact BinaryHeapStrategy.queue_nan h.events.data ⟨event, Priority.nan, data⟩ rfl
  · rw [he.1]
    rfl

/-- C12 as amended, on a queue that holds two `build` entries: the entry with priority
`NaN` becomes the third entry of the array. -/
theorem C12_malformed_priority_is_queued_witness :
    LoggerOK (Examples.hub0.emitAll Examples.buildEmits) ∧
      ((Examples.hub0.emitAll Examples.buildEmits).emitWithContext Examples.ctx "build" 9
        Priority.nan).hub.events.data =
        (Examples.hub0.emitAll Examples.buildEmits).events.data ++
          [⟨"build", Priority.nan, 9⟩] :=
  ⟨by unfold LoggerOK; decide,
    (C12_malformed_priority_is_queued (Examples.hub0.emitAll Examples.buildEmits)
      (by unfold LoggerOK; decide) Examples.ctx "build" 9).2.1⟩

/-- C13: the claim fails for subscriptions under the name `newListener`.  On a hub whose
only subscription is `S1 = on("newListener")`, with nothing enqueued, a second
subscription makes the emitter call the listener of `S1` with the name it is added
under: the channel of `S1` emits `data` with that name as payload, `"newListener"` when
`S2 = on("newListener")` and `"build"` when `S2 = on("build")`. -/
theorem C13_later_subscription_heard_on_newListener :
    (Examples.stringHub.on "newListener" []).1 = 0 ∧
    (Examples.stringHub.on "newListener" []).2.events.data = [] ∧
    ((Examples.stringHub.on "newListener" []).2.onNotifying id "newListener" []).2.trace =
      [Obs.data 0 "newListener"] ∧
    delivered (Examples.stringHub.on "newListener" []).1
      ((Examples.stringHub.on "newListener" []).2.onNotifying id "newListener" []).2.trace =
        ["newListener"] ∧
    delivered (Examples.stringHub.on "newListener" []).1
      ((Examples.stringHub.on "newListener" []).2.onNotifying id "build" []).2.trace =
        ["build"] := by
  decide

/-- C14: the claim fails for the names `this.handlers` inherits from `Object.prototype`.
On a new hub `onEvent("toString", H1)` and `onEvent("constructor", H1)` throw a `TypeError`
and append nothing: the name has no handler list afterwards.  `onEvent("notify", H1)`
appends. -/
theorem C14_onEvent_throws_for_inherited_names :
    (Examples.hub0.onEvent "toString" 1).completion =
      Completion.thrown (JSError.typeError "this.handlers[event].push is not a function") ∧
    (Examples.hub0.onEvent "toString" 1).hub.handlers "toString" = none ∧
    (Examples.hub0.onEvent "toString" 1).hub.registered "toString" = [] ∧
    (Examples.hub0.onEvent "constructor" 1).completion =
      Completion.thrown (JSError.typeError "this.handlers[event].push is not a function") ∧
    (Examples.hub0.onEvent "constructor" 1).hub.registered "constructor" = [] ∧
    (Examples.hub0.onEvent "notify" 1).completion = Completion.normal ∧
    (Examples.hub0.onEvent "notify" 1).hub.registered "notify" = [1] := by
  decide

/-- C15: the handlers called for an entry are those registered under its name when the
entry was dequeued, in registration order, whatever the handlers do to the registrations
meanwhile (`off`, `onEvent`, `close`): always a prefix of that list, and the whole list
when the delivery returns.  The rest of the drain then runs on the hub the handlers left
behind, so that a change of the registrations shows from the next dequeued entry on. -/
theorem C15_handlers_fixed_when_dequeued (env : Handlers δ) (h : HubEventEmitter δ)
    (hl : LengthOK h) (hlog : LoggerOK h) (a : PriorityEvent δ) (t : List (PriorityEvent δ))
    (hd : h.events.data = a :: t) (fuel : Nat) (ctx : Context) :
    handled ((h.afterDequeue a t).deliver env a).trace <+:
      (h.registered a.event).map (fun H => (H, a.data)) ∧
    (((h.afterDequeue a t).deliver env a).completion = Completion.normal →
      handled ((h.afterDequeue a t).deliver env a).trace =
        (h.registered a.event).map (fun H => (H, a.data)) ∧
      (h.processEvents env (fuel + 1) ctx).trace =
        Obs.dequeued a :: (((h.afterDequeue a t).deliver env a).trace ++
          (((h.afterDequeue a t).deliver env a).hub.processEvents env fuel ctx).trace)) := by
  have hlog' : LoggerOK (h.afterDequeue a t) := hlog
  have hs := handled_deliver_snapshot env (h.afterDequeue a t) hlog' a
  refine ⟨hs.1, fun hn => ⟨hs.2 hn, ?_⟩⟩
  unfold processEvents
  rw [processLoop_step_normal env fuel h a t hl hd hn]

/-- C15 with `H1` and `H2` registered under `notify` and two `notify` entries queued.
When `H1` registers `H3` each time it is called, the first entry is handled by `H1`, `H2`
and the second by `H1`, `H2`, `H3`; when `H1` calls `off("notify")`, the first entry is
still handled by `H1`, `H2` and the second by nobody. -/
theorem C15_handlers_fixed_when_dequeued_witness :
    LengthOK (Examples.notifyHub.emitAll Examples.twoNotifyEmits) ∧
      LoggerOK (Examples.notifyHub.emitAll Examples.twoNotifyEmits) ∧
      (Examples.notifyHub.emitAll Examples.twoNotifyEmits).events.data =
        [⟨"notify", Priority.num 1, 9⟩, ⟨"notify", Priority.num 2, 10⟩] ∧
      handled ((Examples.notifyHub.emitAll Examples.twoNotifyEmits).processEvents
        Examples.registering 2 Examples.ctx).trace =
        [(1, 9), (2, 9), (1, 10), (2, 10), (3, 10)] ∧
      handled ((Examples.notifyHub.emitAll Examples.twoNotifyEmits).processEvents
        Examples.unregistering 2 Examples.ctx).trace = [(1, 9), (2, 9)] ∧
      dispatched ((Examples.notifyHub.emitAll Examples.twoNotifyEmits).processEvents
        Examples.unregistering 2 Examples.ctx).trace =
        [⟨"notify", Priority.num 1, 9⟩, ⟨"notify", Priority.num 2, 10⟩] ∧
      handled (((Examples.notifyHub.emitAll Examples.twoNotifyEmits).afterDequeue
          ⟨"notify", Priority.num 1, 9⟩ [⟨"notify", Priority.num 2, 10⟩]).deliver
          Examples.registering ⟨"notify", Priority.num 1, 9⟩).trace =
        ((Examples.notifyHub.emitAll Examples.twoNotifyEmits).registered "notify").map
          (fun H => (H, 9)) :=
  ⟨by unfold LengthOK; decide, by unfold LoggerOK; decide, by decide, by decide, by decide,
    by decide,
    ((C15_handlers_fixed_when_dequeued Examples.registering
      (Examples.notifyHub.emitAll Examples.twoNotifyEmits) (by unfold LengthOK; decide)
      (by unfold LoggerOK; decide) ⟨"notify", Priority.num 1, 9⟩
      [⟨"notify", Priority.num 2, 10⟩] (by decide) 1 Examples.ctx).2 (by decide)).1⟩

/-- C16 fails as stated: with `H1` and `H2` registered under `notify`, two `notify`
entries queued and `H1` calling `processEvents` whenever it is called, no handler
enqueues or throws, yet the first iteration of the loop leaves the queue two entries
shorter and is the only iteration of the call: the second entry is dequeued by the drain
`H1` started. -/
theorem C16_nested_drain_ends_loop_early :
    (Examples.notifyHub.emitAll Examples.twoNotifyEmits).events.data =
      [⟨"notify", Priority.num 1, 9⟩, ⟨"notify", Priority.num 2, 10⟩] ∧
    (Examples.notifyHub.emitAll Examples.twoNotifyEmits).events.length = 2 ∧
    (((Examples.notifyHub.emitAll Examples.twoNotifyEmits).afterDequeue
        ⟨"notify", Priority.num 1, 9⟩ [⟨"notify", Priority.num 2, 10⟩]).deliverNested
        (processLoopNested Examples.reentering 1) Examples.reentering
        ⟨"notify", Priority.num 1, 9⟩).hub.events.length = 0 ∧
    ((Examples.notifyHub.emitAll Examples.twoNotifyEmits).processEventsNested
        Examples.reentering 2 Examples.ctx).completion = Completion.normal ∧
    ((Examples.notifyHub.emitAll Examples.twoNotifyEmits).processEventsNested
        Examples.reentering 2 Examples.ctx).hub.events.length = 0 := by
  decide

/-- C16 as amended: `processEvents` terminates with the queue empty.  On a queue of `n`
entries, with handlers that do not enqueue and do not call `processEvents`, the loop ends
by itself within `n` iterations: the result is the same for every bound from `n` on.
Every iteration leaves the queue one entry shorter.  When the call returns it has
dequeued exactly `n` entries and the queue is empty; and it returns when the handlers
neither call back nor throw, the logger is in order and the hub can deliver every queued
name. -/
theorem C16_drain_terminates_with_empty_queue (env : ReentrantHandlers δ)
    (hnr : NoReentry env) (hne : NoEnqueue (withoutDrains env)) (h : HubEventEmitter δ)
    (hl : LengthOK h) (fuel : Nat) (ctx : Context) (hfuel : h.events.length ≤ fuel) :
    (h.processEventsNested env fuel ctx).completion ≠ Completion.outOfFuel ∧
    h.processEventsNested env fuel ctx = h.processEventsNested env h.events.length ctx ∧
    ((h.processEventsNested env fuel ctx).completion = Completion.normal →
      (dispatched (h.processEventsNested env fuel ctx).trace).length = h.events.length ∧
      (h.processEventsNested env fuel ctx).hub.events.length = 0 ∧
      (h.processEventsNested env fuel ctx).hub.events.data = []) ∧
    (∀ a t k, h.events.data = a :: t →
      ((h.afterDequeue a t).deliverNested (processLoopNested env k) env a).hub.events.length
        + 1 = h.events.length) ∧
    (Passive (withoutDrains env) → NoThrow (withoutDrains env) → LoggerOK h →
      (∀ e ∈ h.events.data, Deliverable h e.event) →
      (h.processEventsNested env fuel ctx).completion = Completion.normal) := by
  have hc := processLoop_conserve hne fuel h hl
  have hfuel' : h.events.data.length ≤ fuel := by rw [← hl]; exact hfuel
  unfold processEventsNested
  rw [processLoopNested_of_noReentry hnr, processLoopNested_of_noReentry hnr]
  refine ⟨hc.1 hfuel', ?_, fun hn => ?_, fun a t k hd => ?_, fun hp hnt hlog hdl => ?_⟩
  · obtain ⟨k, hk⟩ := Nat.exists_eq_add_of_le hfuel'
    rw [hk, hl]
    exact processLoop_enough hne h hl k
  · have hnil := hc.2.2.2 hn
    have hperm := hc.2.2.1
    rw [hnil, List.append_nil] at hperm
    refine ⟨by rw [hl]; exact hperm.length_eq.symm, ?_, hnil⟩
    rw [hc.2.1, hnil]
    rfl
  · rw [deliverNested_of_noReentry hnr, deliver_events hne (h.afterDequeue a t) a _ rfl]
    have hlen : h.events.length = t.length + 1 := by rw [hl, hd]; rfl
    simp only [afterDequeue, hlen]
    rfl
  · exact processLoop_normal hp hnt h hlog fuel h (sameRegistry_refl h) hl hdl hfuel'

/-- C16 as amended, on the first scenario: the drain of the two `build` entries returns
after two iterations with the queue empty, also when the bound is larger. -/
theorem C16_drain_terminates_with_empty_queue_witness :
    NoReentry Examples.quietNested ∧ NoEnqueue (withoutDrains Examples.quietNested) ∧
      LengthOK (Examples.hub0.emitAll Examples.buildEmits) ∧
      (Examples.hub0.emitAll Examples.buildEmits).events.length = 2 ∧
      ((Examples.hub0.emitAll Examples.buildEmits).processEventsNested Examples.quietNested 5
        Examples.ctx).completion = Completion.normal ∧
      (dispatched ((Examples.hub0.emitAll Examples.buildEmits).processEventsNested
        Examples.quietNested 5 Examples.ctx).trace).length =
        (Examples.hub0.emitAll Examples.buildEmits).events.length ∧
      ((Examples.hub0.emitAll Examples.buildEmits).processEventsNested Examples.quietNested 5
        Examples.ctx).hub.events.length = 0 :=
  ⟨fun _ _ a ha => by simp [Examples.quietNested] at ha,
    fun _ _ c hc => by simp [withoutDrains, Examples.quietNested] at hc,
    by unfold LengthOK; decide, by decide, by decide,
    ((C16_drain_terminates_with_empty_queue Examples.quietNested
      (fun _ _ a ha => by simp [Examples.quietNested] at ha)
      (fun _ _ c hc => by simp [withoutDrains, Examples.quietNested] at hc)
      (Examples.hub0.emitAll Examples.buildEmits)
      (by unfold LengthOK; decide) 5 Examples.ctx (by decide)).2.2.1 (by decide)).1,
    by decide⟩

/-- C17: the context is never consulted.  `emitWithContext` and `processEvents` give the
same result for any two contexts, and a drain given a cancelled context is not stopped
early: with handlers that do not enqueue, when it returns it has dequeued every entry
and the queue is empty. -/
theorem C17_context_never_consulted (env : Handlers δ) (h : HubEventEmitter δ)
    (c1 c2 : Context) (event : String) (data : δ) (priority : Priority) (fuel : Nat) :
    h.emitWithContext c1 event data priority = h.emitWithContext c2 event data priority ∧
    h.processEvents env fuel c1 = h.processEvents env fuel c2 ∧
    (NoEnqueue env → LengthOK h →
      (h.processEvents env fuel ⟨true⟩).completion = Completion.normal →
      (dispatched (h.processEvents env fuel ⟨true⟩).trace).Perm h.events.data ∧
      (h.processEvents env fuel ⟨true⟩).hub.events.data = []) := by
  refine ⟨rfl, rfl, fun hne hl hn => ?_⟩
  have hc := processLoop_conserve hne fuel h hl
  unfold processEvents at hn ⊢
  have hnil := hc.2.2.2 hn
  have hperm := hc.2.2.1
  rw [hnil, List.append_nil] at hperm
  exact ⟨hperm.symm, hnil⟩

/-- C17 on the first scenario: a drain given a cancelled context dequeues both `build`
entries, as the drain given a context that is not cancelled does. -/
theorem C17_context_never_consulted_witness :
    NoEnqueue Examples.quiet ∧ LengthOK (Examples.hub0.emitAll Examples.buildEmits) ∧
      dispatched ((Examples.hub0.emitAll Examples.buildEmits).processEvents Examples.quiet 2
        Examples.cancelledCtx).trace =
        [⟨"build", Priority.num 1, 8⟩, ⟨"build", Priority.num 5, 7⟩] ∧
      (Examples.hub0.emitAll Examples.buildEmits).processEvents Examples.quiet 2
          Examples.cancelledCtx =
        (Examples.hub0.emitAll Examples.buildEmits).processEvents Examples.quiet 2
          Examples.ctx :=
  ⟨noEnqueue_of_passive passive_quiet, by unfold LengthOK; decide, by decide,
    (C17_context_never_consulted Examples.quiet (Examples.hub0.emitAll Examples.buildEmits)
      Examples.cancelledCtx Examples.ctx "build" 0 (Priority.num 0) 2).2.1⟩

/-- C18: `emitWithContext` only enqueues.  On a hub whose logger is in order the call
returns normally, the queue is one entry longer and holds the new entry next to the
former ones; nothing is observed but the log line, so that no listener and no handler is
invoked; the subscriptions, the handler map, the logging flag and the logger are as
before.  The entry is delivered by a later `processEvents`: a drain that returns, with
handlers that do not enqueue, has dequeued it. -/
theorem C18_emitWithContext_only_enqueues (h : HubEventEmitter δ) (hlog : LoggerOK h)
    (ctx : Context) (event : String) (data : δ) (priority : Priority) :
    (h.emitWithContext ctx event data priority).completion = Completion.normal ∧
    (h.emitWithContext ctx event data priority).hub.events.length = h.events.length + 1 ∧
    (h.emitWithContext ctx event data priority).hub.events.data.Perm
      (⟨event, priority, data⟩ :: h.events.data) ∧
    (∀ o ∈ (h.emitWithContext ctx event data priority).trace, Obs.isLog o) ∧
    dispatched (h.emitWithContext ctx event data priority).trace = [] ∧
    (∀ ch, delivered ch (h.emitWithContext ctx event data priority).trace = []) ∧
    handled (h.emitWithContext ctx event data priority).trace = [] ∧
    (h.emitWithContext ctx event data priority).hub.eventEmitter = h.eventEmitter ∧
    (h.emitWithContext ctx event data priority).hub.handlers = h.handlers ∧
    (h.emitWithContext ctx event data priority).hub.logging = h.logging ∧
    (h.emitWithContext ctx event data priority).hub.logger = h.logger ∧
    (∀ (env : Handlers δ) (fuel : Nat) (ctx2 : Context), NoEnqueue env → LengthOK h →
      ((h.emitWithContext ctx event data priority).hub.processEvents env fuel
        ctx2).completion = Completion.normal →
      (⟨event, priority, data⟩ : PriorityEvent δ) ∈
        dispatched ((h.emitWithContext ctx event data priority).hub.processEvents env fuel
          ctx2).trace) := by
  have he := emitWithContext_of_loggerOK h hlog ctx event data priority
  have hs := emitWithContext_sameRegistry h ctx event data priority
  have hlogs : ∀ o ∈ (h.emitWithContext ctx event data priority).trace, Obs.isLog o :=
    call_trace_isLog h (HubCall.emitWithContext ctx event data priority)
  have hperm : (h.emitWithContext ctx event data priority).hub.events.data.Perm
      (⟨event, priority, data⟩ :: h.events.data) := by
    rw [he.1]
    exact BinaryHeapStrategy.queue_perm comparator h.events.data ⟨event, priority, data⟩
  refine ⟨he.2, by rw [he.1]; rfl, hperm, hlogs,
    dispatched_eq_nil (emitWithContext_trace_notDequeued h ctx event data priority),
    fun ch => delivered_of_isLog ch hlogs, handled_of_isLog hlogs, hs.1, hs.2.1, hs.2.2.1,
    hs.2.2.2.1, fun env fuel ctx2 hne hl hn => ?_⟩
  have hl' := emitWithContext_lengthOK h hl ctx event data priority
  have hc := processLoop_conserve hne fuel _ hl'
  unfold processEvents at hn ⊢
  have hp := hc.2.2.1
  rw [hc.2.2.2 hn, List.append_nil] at hp
  exact hp.mem_iff.mp (hperm.mem_iff.mpr (by simp))

/-- C18 on the hub with a subscription and two handlers under `notify`: a further
`notify` enqueue observes nothing and leaves two entries in the queue. -/
theorem C18_emitWithContext_only_enqueues_witness :
    LoggerOK Examples.subscribedHub ∧
      (Examples.subscribedHub.emitWithContext Examples.ctx "notify" 10
        (Priority.num 2)).trace = [] ∧
      (Examples.subscribedHub.emitWithContext Examples.ctx "notify" 10
        (Priority.num 2)).hub.events.length = Examples.subscribedHub.events.length + 1 :=
  ⟨by unfold LoggerOK; decide, by decide,
    (C18_emitWithContext_only_enqueues Examples.subscribedHub (by unfold LoggerOK; decide)
      Examples.ctx "notify" 10 (Priority.num 2)).2.1⟩

/-- C19: the logger is in step with the logging flag.  After the constructor and after
any sequence of operations on the hub it built (calls of `setLogging`, `on`,
`emitWithContext`, `onEvent`, `off`, `close` and drains, with handlers that may call back
and throw), the logger is present exactly when logging is on; hence no operation ends in
a call on a `null` logger, and the guarded `this.logger.log(...)` returns. -/
theorem C19_logger_in_step_with_logging (logging : Bool) (env : Handlers δ)
    (ops : List (Op δ)) :
    LoggerInv (HubEventEmitter.constructor logging : HubEventEmitter δ) ∧
    LoggerInv ((HubEventEmitter.constructor logging : HubEventEmitter δ).run env ops).1 ∧
    (∀ op : Op δ,
      (((HubEventEmitter.constructor logging : HubEventEmitter δ).run env ops).1.step env
        op).completion ≠ nullLogger ∧
      LoggerInv (((HubEventEmitter.constructor logging : HubEventEmitter δ).run env ops).1.step
        env op).hub) ∧
    (∀ line : Obs δ,
      (((HubEventEmitter.constructor logging : HubEventEmitter δ).run env ops).1.log
        line).completion = Completion.normal) := by
  have h0 : LoggerInv (HubEventEmitter.constructor logging : HubEventEmitter δ) :=
    loggerInv_constructor logging
  have h1 := run_loggerInv env ops _ h0
  exact ⟨h0, h1, fun op => ⟨(step_loggerSafe env _ h1 op).2, (step_loggerSafe env _ h1 op).1⟩,
    fun line => log_normal (loggerOK_of_loggerInv h1) line⟩

/-- C20: logging does not influence dispatch.  Two hubs that differ at most in the
logging flag and the logger, given the same sequence of calls and drains, make the same
observations apart from the lines written to the logger: the same entries dequeued, the
same `data` emissions on every channel and the same handler calls, in the same order;
and they end with the same queue, subscriptions and handler map. -/
theorem C20_logging_does_not_influence_dispatch (env : Handlers δ)
    (h h' : HubEventEmitter δ) (hR : SameButLogging h h') (ops : List (Op δ)) :
    (h.run env ops).2.filter Obs.visible = (h'.run env ops).2.filter Obs.visible ∧
    dispatched (h.run env ops).2 = dispatched (h'.run env ops).2 ∧
    (∀ ch, delivered ch (h.run env ops).2 = delivered ch (h'.run env ops).2) ∧
    handled (h.run env ops).2 = handled (h'.run env ops).2 ∧
    (h.run env ops).1.events = (h'.run env ops).1.events ∧
    (h.run env ops).1.eventEmitter = (h'.run env ops).1.eventEmitter ∧
    (h.run env ops).1.handlers = (h'.run env ops).1.handlers := by
  have hsim := run_agree simulation_logging env ops h h' hR
  refine ⟨hsim.2, ?_, fun ch => ?_, ?_, hsim.1.2.2.1, hsim.1.1, hsim.1.2.1⟩
  · rw [← dispatched_filter_visible, hsim.2, dispatched_filter_visible]
  · rw [← delivered_filter_visible, hsim.2, delivered_filter_visible]
  · rw [← handled_filter_visible, hsim.2, handled_filter_visible]

/-- C20 on a new hub with logging off and a new hub with logging on, each given a
subscription to `build`, two enqueues and a drain: the hub with logging on writes four
lines to the logger, and both emit the payloads `3` and `7` on the channel. -/
theorem C20_logging_does_not_influence_dispatch_witness :
    SameButLogging Examples.hub0 Examples.loggingHub ∧
      (Examples.loggingHub.run Examples.quiet
        (Op.call (HubCall.on "build" []) :: Examples.enqueueAndDrain)).2.length = 8 ∧
      (Examples.hub0.run Examples.quiet
        (Op.call (HubCall.on "build" []) :: Examples.enqueueAndDrain)).2 =
        [Obs.dequeued ⟨"build", Priority.num 1, 3⟩, Obs.data 0 3,
          Obs.dequeued ⟨"build", Priority.num 5, 7⟩, Obs.data 0 7] ∧
      (Examples.hub0.run Examples.quiet
        (Op.call (HubCall.on "build" []) :: Examples.enqueueAndDrain)).2.filter Obs.visible =
      (Examples.loggingHub.run Examples.quiet
        (Op.call (HubCall.on "build" []) :: Examples.enqueueAndDrain)).2.filter Obs.visible :=
  ⟨⟨rfl, rfl, rfl, rfl, loggerOK_constructor false, loggerOK_constructor true⟩, by decide,
    by decide,
    (C20_logging_does_not_influence_dispatch Examples.quiet Examples.hub0 Examples.loggingHub
      ⟨rfl, rfl, rfl, rfl, loggerOK_constructor false, loggerOK_constructor true⟩
      (Op.call (HubCall.on "build" []) :: Examples.enqueueAndDrain)).1⟩

end JsEventHub
